import Mathlib

/-!
# A verification development for `a-simple-machine`

Shallow embedding of the C sources `hash_table_lookup.c`,
`map_iterator_demo.c` (whose map part is shared with
`map_encapsulation_demo.c`), `simplest_recursive_function.c`,
`linked_list_delete.c`, `linked_list_reverse.c`, `py_lstrip.c`,
`py_rstrip.c`, `rpn_calculator.c`, `simple_machine.c`, `pystr_demo.c` and
`binary_tree_wordcount.c`, followed by theorems about them.

Conventions of the embedding

* A C string is the list of its bytes, each byte given by its value as an
  `unsigned char`; `strcmp(a, b) == 0` is equality of the two lists.
* The chained hash table is a list of `HASHSIZE` chains; a chain is the list
  of the nodes met by following `next` from the bucket head. The outcome of
  each allocation of `install` is an input of the model.
* The ordered map lives in an explicit heap of `MapEntry` cells addressed by
  natural numbers, because an iterator keeps a pointer into the chain. A loop
  over the chain returns `none` when it would not end or would read a pointer
  that addresses no cell.
* The fields `value` and `__count` are C `int`s; they are kept as unbounded
  integers (an overflow of `__count++` needs 2^31 entries and is undefined
  in C).
* The list of `linked_list_delete.c` lives in a heap of `Node` cells in
  which a freed cell is marked; a list is a chain of live cells that ends in
  `NULL`.
* In `sumseries` and in the RPN calculator the `int` results are wrapped to
  32 bits.
* The list of `linked_list_reverse.c` lives in a heap of `DNode` cells; a
  well-formed list is a chain along `next` that ends in `NULL` and whose
  `prev` links mirror it.
* `py_lstrip` and `py_rstrip` act on the bytes of a non-null string; the
  buffer of `py_rstrip` is modelled with the NUL bytes the loop writes.
* The RPN calculator is `main` after `fgets`: the line is an input, the
  outcome is the printed result or the error with which `main` returns.
* The memory of `simple_machine.c` is the list of its 256 bytes, each as an
  unsigned value; the signedness of `char` is a parameter, and a read of
  `memory[addr]` outside the array has no result.
* A `pystr` holds its whole buffer; the bytes of a fresh block are an input
  of the model and `realloc` is taken to succeed for a size that is not
  negative (the source exits otherwise). The `int`s of `pystr_append` and
  the `count` of a tree node are wrapped to 32 bits.
* A call of `hash` is also run on a byte memory into which its argument
  points (`hashExec`), so that its result can be compared between two
  memories that hold the same string.
* The word-count tree is a tree of nodes, each owned by its parent;
  `strcmp` compares bytes as unsigned values.
-/

namespace SimpleMachine

/-! ## Strings -/

/-- A C string: the bytes before the terminating NUL, each as an unsigned value. -/
abbrev CString := List Nat

/-- The bytes of an ASCII literal. -/
def cstr (s : String) : CString := s.toList.map Char.toNat

/-- A list of numbers is a real C string when every byte is in `1..255`. -/
def wellFormed (s : CString) : Bool := s.all fun c => decide (0 < c) && decide (c < 256)


/-! ## Definitions: `hash_table_lookup.c` -/

/-- The constant `#define HASHSIZE 100`. -/
def HASHSIZE : Nat := 100

/-- The record `struct nlist`; the `next` link is the tail of the chain list.
`defn` is the field `def`, which is `NULL` after a failed `strdup`. -/
structure nlist where
  name : CString
  defn : Option CString
deriving DecidableEq, Repr

/-- One bucket chain, head first. -/
abbrev Chain := List nlist

/-- The array `hashtab[HASHSIZE]`. -/
abbrev Table := List Chain

/-- The table at program start: every bucket is `NULL`. -/
def hashtab0 : Table := List.replicate HASHSIZE []

/-- The chain `hashtab[i]`. -/
def bucket (t : Table) (i : Nat) : Chain := t[i]?.getD []

/-- The loop of `hash`: `hashval += (unsigned char)*s++` on a 32-bit `unsigned`. -/
def hashLoop : Nat → CString → Nat
  | hashval, [] => hashval
  | hashval, c :: s => hashLoop ((hashval + c % 256) % 2 ^ 32) s

/-- The function `hash`: `hashval % HASHSIZE` after the loop, starting from 0. -/
def hash (s : CString) : Nat := hashLoop 0 s % HASHSIZE

/-- The `for` loop of `lookup` over one chain. -/
def lookupChain (s : CString) : Chain → Option nlist
  | [] => none
  | np :: rest => if s = np.name then some np else lookupChain s rest

/-- The function `lookup`: scan of the chain `hashtab[hash(s)]`. -/
def lookup (t : Table) (s : CString) : Option nlist :=
  lookupChain s (bucket t (hash s))

/-- Which of the three allocations of one `install` call succeed. -/
structure Alloc where
  node : Bool
  name : Bool
  defn : Bool
deriving DecidableEq, Repr

/-- The library call `strdup`: a copy, or `NULL` when the allocation fails. -/
def strdup (ok : Bool) (s : CString) : Option CString :=
  if ok then some s else none

/-- The assignment `np->def = d` through the pointer `np` that `lookup`
returned: the first node of the chain whose name is `s`. -/
def setDef (s : CString) (d : Option CString) : Chain → Chain
  | [] => []
  | np :: rest =>
    if s = np.name then { np with defn := d } :: rest else np :: setDef s d rest

/-- The tail of `install`: `if (np->def == NULL) return NULL; return np;`. -/
def retNode (np : nlist) : Option nlist :=
  match np.defn with
  | none => none
  | some _ => some np

/-- The function `install`: the returned pointer (as the node it points to)
and the table after the call. -/
def install (a : Alloc) (t : Table) (name defn : CString) : Option nlist × Table :=
  match lookup t name with
  | none =>
    if a.node = false then (none, t)
    else
      match strdup a.name name with
      | none => (none, t)
      | some nm =>
        let hashval := hash name
        let np : nlist := { name := nm, defn := strdup a.defn defn }
        (retNode np, t.set hashval (np :: bucket t hashval))
  | some found =>
    let np : nlist := { found with defn := strdup a.defn defn }
    (retNode np, t.set (hash name) (setDef name np.defn (bucket t (hash name))))

/-- One call `install(name, defn)` together with its allocation outcomes. -/
structure InstallCall where
  alloc : Alloc
  name : CString
  defn : CString
deriving DecidableEq, Repr

/-- The table after a sequence of `install` calls. -/
def installAll : Table → List InstallCall → Table
  | t, [] => t
  | t, c :: cs => installAll (install c.alloc t c.name c.defn).2 cs

/-- Every call of the sequence returned a non-`NULL` pointer. -/
def allSucceed : Table → List InstallCall → Bool
  | _, [] => true
  | t, c :: cs =>
    (install c.alloc t c.name c.defn).1.isSome &&
      allSucceed (install c.alloc t c.name c.defn).2 cs

/-- The table states reached from the empty table by `install` calls. -/
inductive Reachable : Table → Prop
  | init : Reachable hashtab0
  | step (a : Alloc) (name defn : CString) {t : Table} :
      Reachable t → Reachable (install a t name defn).2

/-- All nodes of the table, bucket 0 first, each chain head first. -/
def entries (t : Table) : List nlist := t.flatten

/-- An allocator under which every allocation succeeds. -/
def allocOk : Alloc := ⟨true, true, true⟩

/-- A successful call `install(name, defn)`. -/
def call (name defn : String) : InstallCall := ⟨allocOk, cstr name, cstr defn⟩

/-- The names stored in the table, in enumeration order. -/
def names (t : Table) : List CString := (entries t).map nlist.name

/-- Placement: every node of bucket `i` has a name hashing to `i`. -/
def Placed (t : Table) : Prop := ∀ i, ∀ e ∈ bucket t i, hash e.name = i

/-- The first three `install` calls of `run_demo`. -/
def demoCalls3 : List InstallCall :=
  [call "YES" "1", call "NO" "0", call "PI" "3.14159"]

/-- The four distinct keys that `run_demo` installs. -/
def demoCalls4 : List InstallCall :=
  [call "YES" "1", call "NO" "0", call "PI" "3.14159", call "HELLO" "world"]

/-- All five `install` calls of `run_demo`, the last one an update of `YES`. -/
def demoCalls5 : List InstallCall :=
  [call "YES" "1", call "NO" "0", call "PI" "3.14159", call "HELLO" "world",
   call "YES" "42"]

/-! ## Definitions: `map_iterator_demo.c` and `map_encapsulation_demo.c` -/

/-- The record `struct MapEntry`; a pointer is the address of a heap cell,
`none` is `NULL`. -/
structure MapEntry where
  key : CString
  value : Int
  __prev : Option Nat
  __next : Option Nat
deriving DecidableEq, Repr

/-- The data members of `struct Map`; its method pointers are bound once in
`Map_new` and never change. -/
structure Map where
  __head : Option Nat
  __tail : Option Nat
  __count : Int
deriving DecidableEq, Repr

/-- The memory of one store: the `MapEntry` cells allocated so far (the
address of a cell is its index, `malloc` returns the next index) and the
`struct Map` itself. -/
structure MapState where
  heap : List MapEntry
  self : Map
deriving DecidableEq, Repr

/-- The record `struct MapIter`, without its method pointers. -/
structure MapIter where
  __current : Option Nat
deriving DecidableEq, Repr

/-- The function `Map_new`: no cell, `__head = __tail = NULL`, `__count = 0`. -/
def Map_new : MapState :=
  { heap := [], self := { __head := none, __tail := none, __count := 0 } }

/-- A write `p->field = ...` through a pointer: `none` when `p` addresses no cell. -/
def writeCell (heap : List MapEntry) (p : Nat) (f : MapEntry → MapEntry) :
    Option (List MapEntry) :=
  match heap[p]? with
  | none => none
  | some e => some (heap.set p (f e))

/-- The `for` loop of `__Map_find` from `cur`, cut after `fuel` tests of
`cur != NULL`. The result is `none` when the loop has not ended by then or
reads a pointer that addresses no cell, `some none` for `return NULL` and
`some (some p)` for `return cur` with `cur = p`. -/
def findLoop (heap : List MapEntry) (key : CString) : Nat → Option Nat → Option (Option Nat)
  | 0, _ => none
  | _ + 1, none => some none
  | fuel + 1, some cur =>
    match heap[cur]? with
    | none => none
    | some e => if key = e.key then some (some cur) else findLoop heap key fuel e.__next

/-- The function `__Map_find` on a live store (`self != NULL`). A chain
without a cycle has at most `heap.length` cells, so `heap.length + 1` tests
end every loop that ends at all. -/
def __Map_find (s : MapState) (key : Option CString) : Option (Option Nat) :=
  match key with
  | none => some none
  | some k => findLoop s.heap k (s.heap.length + 1) s.self.__head

/-- The function `__Map_get`. -/
def __Map_get (s : MapState) (key : Option CString) (d : Int) : Option Int :=
  match __Map_find s key with
  | none => none
  | some none => some d
  | some (some retval) => (s.heap[retval]?).map MapEntry.value

/-- The function `__Map_size`. -/
def __Map_size (s : MapState) : Int := s.self.__count

/-- The assignment `e->value = value`. -/
def setValue (value : Int) (e : MapEntry) : MapEntry := { e with value := value }

/-- The assignment `e->__next = p`. -/
def setNext (p : Option Nat) (e : MapEntry) : MapEntry := { e with __next := p }

/-- The function `__Map_put`; `malloc` and `strdup` are taken to succeed, as
the source uses their results unchecked. -/
def __Map_put (s : MapState) (key : Option CString) (value : Int) : Option MapState :=
  match key with
  | none => some s
  | some k =>
    match __Map_find s (some k) with
    | none => none
    | some (some old) =>
      (writeCell s.heap old (setValue value)).map fun h => { s with heap := h }
    | some none =>
      let new := s.heap.length
      let heap1 := s.heap ++ [MapEntry.mk k value s.self.__tail none]
      match s.self.__tail with
      | some tl =>
        (writeCell heap1 tl (setNext (some new))).map fun h =>
          { heap := h,
            self := { s.self with __tail := some new, __count := s.self.__count + 1 } }
      | none =>
        some { heap := heap1,
               self := { __head := some new, __tail := some new,
                         __count := s.self.__count + 1 } }

/-- The `for` loop of `__Map_dump` from `cur`: the printed `key=value` lines. -/
def dumpLoop (heap : List MapEntry) : Nat → Option Nat → Option (List (CString × Int))
  | 0, _ => none
  | _ + 1, none => some []
  | fuel + 1, some cur =>
    match heap[cur]? with
    | none => none
    | some e => (dumpLoop heap fuel e.__next).map fun rest => (e.key, e.value) :: rest

/-- The function `__Map_dump`: the printed count and the printed lines. -/
def __Map_dump (s : MapState) : Option (Int × List (CString × Int)) :=
  (dumpLoop s.heap (s.heap.length + 1) s.self.__head).map fun ls => (s.self.__count, ls)

/-- The function `__Map_iter`: a new iterator with `__current = self->__head`. -/
def __Map_iter (s : MapState) : MapIter := { __current := s.self.__head }

/-- The function `__MapIter_next`: the returned pointer and the iterator after
the call; `none` when `__current` addresses no cell. -/
def __MapIter_next (heap : List MapEntry) (self : MapIter) : Option (Option Nat × MapIter) :=
  match self.__current with
  | none => some (none, self)
  | some cur =>
    match heap[cur]? with
    | none => none
    | some e => some (some cur, { __current := e.__next })

/-- The results of `n` consecutive calls of `next` on one iterator, with no
write to the heap in between, and the iterator after them. -/
def nextN (heap : List MapEntry) : Nat → MapIter → Option (List (Option Nat) × MapIter)
  | 0, it => some ([], it)
  | n + 1, it =>
    match __MapIter_next heap it with
    | none => none
    | some (r, it1) => (nextN heap n it1).map fun p => (r :: p.1, p.2)

/-- The text `cur->key`, `cur->value` read through a pointer. -/
def readEntry (heap : List MapEntry) (p : Nat) : Option (CString × Int) :=
  (heap[p]?).map fun e => (e.key, e.value)

/-- A sequence of `put` calls with non-null keys. -/
def putAll : MapState → List (CString × Int) → Option MapState
  | s, [] => some s
  | s, kv :: rest =>
    match __Map_put s (some kv.1) kv.2 with
    | none => none
    | some s1 => putAll s1 rest

/-- The stores reached from `Map_new` by `put` calls. -/
inductive MapReachable : MapState → Prop
  | new : MapReachable Map_new
  | put (key : Option CString) (value : Int) {s s1 : MapState} :
      MapReachable s → __Map_put s key value = some s1 → MapReachable s1

/-- The pointer to cell `i` of a chain of `n` cells laid out in address order. -/
def ptr (n i : Nat) : Option Nat := if i < n then some i else none

/-- The shape of a store built by `put`: the chain visits the cells in address order. -/
structure Linked (s : MapState) : Prop where
  head : s.self.__head = ptr s.heap.length 0
  tail : s.self.__tail = if s.heap.length = 0 then none else some (s.heap.length - 1)
  count : s.self.__count = s.heap.length
  next : ∀ i (h : i < s.heap.length), s.heap[i].__next = ptr s.heap.length (i + 1)
  prev : ∀ i (h : i < s.heap.length),
    s.heap[i].__prev = if i = 0 then none else some (i - 1)

/-- The key and value of a cell. -/
def kv (e : MapEntry) : CString × Int := (e.key, e.value)

/-- The entries of the store as an association list, in address order. -/
def view (s : MapState) : List (CString × Int) := s.heap.map kv

/-- Index of the first cell with key `k`. -/
def firstIdx (k : CString) : List MapEntry → Option Nat
  | [] => none
  | e :: r => if k = e.key then some 0 else (firstIdx k r).map (· + 1)

/-- First value bound to `k` in an association list, else `d`. -/
def assocGet (k : CString) (d : Int) : List (CString × Int) → Int
  | [] => d
  | p :: r => if k = p.1 then p.2 else assocGet k d r

/-- Overwrite the first binding of `k`, or append `(k, v)` when there is none. -/
def upsert (k : CString) (v : Int) : List (CString × Int) → List (CString × Int)
  | [] => [(k, v)]
  | p :: r => if k = p.1 then (p.1, v) :: r else p :: upsert k v r

/-- One step of `distinctInOrder`: append `k` unless already listed. -/
def addKey (acc : List CString) (k : CString) : List CString :=
  if k ∈ acc then acc else acc ++ [k]

/-- The distinct keys of a sequence, in the order of their first occurrence. -/
def distinctInOrder (ks : List CString) : List CString := ks.foldl addKey []

/-- The value of the most recent put of `k` in a sequence of puts. -/
def lastValue (k : CString) (puts : List (CString × Int)) : Option Int :=
  (puts.reverse.find? fun p => decide (p.1 = k)).map Prod.snd

/-- The association list after a sequence of puts. -/
def upsertAll (l : List (CString × Int)) (puts : List (CString × Int)) :
    List (CString × Int) :=
  puts.foldl (fun acc p => upsert p.1 p.2 acc) l

/-- The `put` calls of `main`: `z=8`, `z=1`, `y=2`, `b=3`, `a=4`. -/
def demoPuts : List (CString × Int) :=
  [(cstr "z", 8), (cstr "z", 1), (cstr "y", 2), (cstr "b", 3), (cstr "a", 4)]

/-- The store of `main` after its five `put` calls. -/
def demoStore : MapState :=
  { heap := [⟨cstr "z", 1, none, some 1⟩, ⟨cstr "y", 2, some 0, some 2⟩,
             ⟨cstr "b", 3, some 1, some 3⟩, ⟨cstr "a", 4, some 2, none⟩],
    self := { __head := some 0, __tail := some 3, __count := 4 } }

/-- The lines that `dump` prints for `demoStore`. -/
def demoLines : List (CString × Int) :=
  [(cstr "z", 1), (cstr "y", 2), (cstr "b", 3), (cstr "a", 4)]

/-- The store after the single call `put("z", 8)`. -/
def demoStoreZ : MapState :=
  { heap := [⟨cstr "z", 8, none, none⟩],
    self := { __head := some 0, __tail := some 0, __count := 1 } }

/-! ## Definitions: `free_table`, calls on the table, allocation failure -/

/-- The function `free_table`: for `i` from 0 to `HASHSIZE - 1` the chain of
bucket `i` is released node by node and `hashtab[i] = NULL` is stored. -/
def free_table (t : Table) : Table :=
  (List.range HASHSIZE).foldl (fun acc i => acc.set i []) t

/-- The sum of the character codes of a string, each taken as an unsigned byte. -/
def byteSum (s : CString) : Nat := (s.map (· % 256)).sum

/-- A call that changes or reads the table. -/
inductive TableOp where
  | install (a : Alloc) (name defn : CString)
  | lookup (s : CString)
  | clear
deriving DecidableEq, Repr

/-- The table after one call. -/
def applyOp (t : Table) : TableOp → Table
  | TableOp.install a name defn => (install a t name defn).2
  | TableOp.lookup _ => t
  | TableOp.clear => free_table t

/-- The table after a sequence of calls. -/
def applyOps (t : Table) (ops : List TableOp) : Table := ops.foldl applyOp t

/-- The memory in which a call `hash(s)` runs: the bytes of the address
space, into which the argument points, and the table. -/
structure HashEnv where
  mem : List Nat
  hashtab : Table
deriving DecidableEq, Repr

/-- The body of `hash` run on the pointer `s` into the bytes `mem`, with the
local `hashval`: the loop `while (*s) hashval += (unsigned char)*s++` cut
after `fuel` tests, then `return hashval % HASHSIZE`. The result is `none`
when the loop is cut or reads outside the bytes. -/
def hashExec (mem : List Nat) : Nat → Nat → Nat → Option Nat
  | 0, _, _ => none
  | fuel + 1, s, hashval =>
    match mem[s]? with
    | none => none
    | some c =>
      if c % 256 = 0 then some (hashval % HASHSIZE)
      else hashExec mem fuel (s + 1) ((hashval + c % 256) % 2 ^ 32)

/-- A call `hash(s)` in the memory `env`: the returned index and the memory
after the call. The body writes its two locals only, so no byte and no
bucket changes. A string inside `mem` ends within `mem.length` bytes. -/
def hashAt (env : HashEnv) (s : Nat) : Option (Nat × HashEnv) :=
  match hashExec env.mem (env.mem.length + 1) s 0 with
  | none => none
  | some r => some (r, env)

/-- The bytes `mem` hold the C string `k` at address `p`: the bytes of `k`,
none of them 0, followed by a NUL. -/
def holdsString (mem : List Nat) (p : Nat) (k : CString) : Prop :=
  wellFormed k = true ∧ ∃ rest, mem.drop p = k ++ 0 :: rest

/-- Some allocation that `install(name, _)` attempts on table `t` fails: for
a new name the node, then the copy of the name, then the copy of the
definition; for a name already present only the copy of the definition. -/
def allocFails (a : Alloc) (t : Table) (name : CString) : Bool :=
  match lookup t name with
  | none => !a.node || !a.name || !a.defn
  | some _ => !a.defn

/-- An allocator under which only the copy of the definition fails. -/
def allocNoDefn : Alloc := ⟨true, true, false⟩

/-- The store after the single call `put("", 7)`. -/
def demoStoreEmptyKey : MapState :=
  { heap := [⟨cstr "", 7, none, none⟩],
    self := { __head := some 0, __tail := some 0, __count := 1 } }

/-! ## Definitions: `simplest_recursive_function.c` -/

/-- The value of an arithmetic result stored in a 32-bit `int` (two's
complement wrap-around). -/
def wrapInt (x : Int) : Int := (x + 2 ^ 31) % 2 ^ 32 - 2 ^ 31

/-- The function `sumseries`; the `printf` calls, the only use of `depth`,
are left out. -/
def sumseries (n depth : Int) : Int :=
  if n < 1 then 0
  else if n > 100 then -1
  else if n = 1 then 1
  else wrapInt (n + sumseries (n - 1) (wrapInt (depth + 1)))
termination_by n.toNat
decreasing_by omega

/-! ## Definitions: `linked_list_delete.c` -/

/-- The record `struct Node`: the text and the `next` pointer (`none` is `NULL`). -/
structure Node where
  text : CString
  next : Option Nat
deriving DecidableEq, Repr

/-- The memory holding `Node` cells, by address; `none` marks an address
without a live node (freed). -/
abbrev NodeHeap := List (Option Node)

/-- A read through a `Node` pointer: `none` when no live node is at `p`. -/
def readNode (m : NodeHeap) (p : Nat) : Option Node := (m[p]?).getD none

/-- The call `free(p)`. -/
def freeNode (m : NodeHeap) (p : Nat) : NodeHeap := m.set p none

/-- The assignment `nd->next = p`. -/
def setNodeNext (p : Option Nat) (nd : Node) : Node := { nd with next := p }

/-- The `while (current)` loop of `delete_node`, cut after `fuel` tests of
`current`: the returned head and the memory after the call, or `none` when
the loop has not ended by then or reads a pointer to no live node. -/
def deleteLoop (target : CString) (m : NodeHeap) (head : Option Nat) :
    Nat → Option Nat → Option Nat → Option (Option Nat × NodeHeap)
  | 0, _, _ => none
  | _ + 1, _, none => some (head, m)
  | fuel + 1, prev, some current =>
    match readNode m current with
    | none => none
    | some node =>
      if node.text = target then
        match prev with
        | none => some (node.next, freeNode m current)
        | some pv =>
          match readNode m pv with
          | none => none
          | some pnode =>
            some (head, freeNode (m.set pv (some (setNodeNext node.next pnode))) current)
      else deleteLoop target m head fuel (some current) node.next

/-- The function `delete_node`, with `prev = NULL` and `current = head` at
the start. A list without a cycle has at most `m.length` nodes. -/
def delete_node (m : NodeHeap) (head : Option Nat) (target : CString) :
    Option (Option Nat × NodeHeap) :=
  deleteLoop target m head (m.length + 1) none head

/-- Following `next` from `p` visits the live nodes `cells` (address and
text) in this order and arrives at `q`. -/
inductive Seg (m : NodeHeap) : Option Nat → Option Nat → List (Nat × CString) → Prop
  | nil (p : Option Nat) : Seg m p p []
  | cons {a : Nat} {t : CString} {nx q : Option Nat} {rest : List (Nat × CString)} :
      readNode m a = some ⟨t, nx⟩ → Seg m nx q rest → Seg m (some a) q ((a, t) :: rest)

/-- The pointer `head` is a singly linked list with the nodes `cells`. -/
def IsList (m : NodeHeap) (head : Option Nat) (cells : List (Nat × CString)) : Prop :=
  Seg m head none cells

/-- The test `strcmp(text, target) == 0` on a node of the list. -/
def hasText (target : CString) (c : Nat × CString) : Bool := decide (c.2 = target)

/-- The memory after `build_sample_list`: `C -> is -> fun`. -/
def sampleHeap : NodeHeap :=
  [some ⟨cstr "C", some 1⟩, some ⟨cstr "is", some 2⟩, some ⟨cstr "fun", none⟩]

/-- The nodes of the sample list. -/
def sampleCells : List (Nat × CString) := [(0, cstr "C"), (1, cstr "is"), (2, cstr "fun")]

/-! ## Definitions: update in place, `print_table` -/

/-- The node `e` with its definition replaced by `d` when its name is `k`. -/
def withDef (k d : CString) (e : nlist) : nlist :=
  if e.name = k then { e with defn := some d } else e

/-- One printed line of `print_table`: bucket index, name and definition. -/
def tableLine (i : Nat) (np : nlist) : Nat × CString × Option CString :=
  (i, np.name, np.defn)

/-- The function `print_table`: for `i` from 0 to `HASHSIZE - 1`, the nodes of
`hashtab[i]` in chain order, each printed under its bucket index. -/
def print_table (t : Table) : List (Nat × CString × Option CString) :=
  (List.range HASHSIZE).flatMap fun i => (bucket t i).map (tableLine i)

/-- The keys of a sequence of calls that hash to bucket `i`. -/
def keysOfBucket (i : Nat) (calls : List InstallCall) : List CString :=
  (calls.map InstallCall.name).filter fun k => decide (hash k = i)

/-! ## Definitions: the chain of the ordered map -/

/-- The addresses met by following `__next` from `cur` until `NULL`, cut
after `fuel` tests; `none` when the walk has not ended or reads no cell. -/
def chainLoop (heap : List MapEntry) : Nat → Option Nat → Option (List Nat)
  | 0, _ => none
  | _ + 1, none => some []
  | fuel + 1, some cur =>
    match heap[cur]? with
    | none => none
    | some e => (chainLoop heap fuel e.__next).map fun rest => cur :: rest

/-- The entries reachable from `__head` by following `__next`, as addresses. -/
def chainOf (s : MapState) : Option (List Nat) :=
  chainLoop s.heap (s.heap.length + 1) s.self.__head

/-- The line of `dump` for an entry after `put(k, v)` updated the store. -/
def withValue (k : CString) (v : Int) (x : CString × Int) : CString × Int :=
  if x.1 = k then (k, v) else x

/-! ## Definitions: `py_lstrip.c` and `py_rstrip.c` -/

/-- The test of `py_lstrip` on a character: space, tab or newline. -/
def isLeadSpace (c : Nat) : Bool := c == 32 || c == 9 || c == 10

/-- The `while` loop of `py_lstrip` on the bytes from `s[i]` on: the index
after the loop. The terminating NUL, read after the last byte, ends it. -/
def lstripScan : CString → Nat → Nat
  | [], i => i
  | c :: rest, i => if c ≠ 0 ∧ isLeadSpace c = true then lstripScan rest (i + 1) else i

/-- The function `py_lstrip` on a non-null string: the string held by the
buffer after the call (`memmove` copies the bytes from index `i` on,
terminator included, to the front). -/
def py_lstrip (s : CString) : CString :=
  if s.length = 0 then s
  else if lstripScan s 0 > 0 then s.drop (lstripScan s 0) else s

/-- The character `buf[i]`; past the stored bytes it is the terminating NUL. -/
def charAt (buf : List Nat) (i : Nat) : Nat := buf.getD i 0

/-- The C string held by a buffer: the bytes before the first NUL. -/
def cstringOf (buf : List Nat) : CString := buf.takeWhile fun c => c != 0

/-- The `while` loop of `py_rstrip` entered with index `i`: the buffer after
the loop. The test `i != (size_t)-1` holds for every index of the string. -/
def rstripLoop : List Nat → Nat → List Nat
  | buf, 0 => if charAt buf 0 = 32 then buf.set 0 0 else buf
  | buf, i + 1 => if charAt buf (i + 1) = 32 then rstripLoop (buf.set (i + 1) 0) i else buf

/-- The function `py_rstrip` on a non-null string: the string held by the
buffer after the call. -/
def py_rstrip (s : CString) : CString :=
  if s.length = 0 then s else cstringOf (rstripLoop s (s.length - 1))

/-- The test of `py_rstrip` on a character: a space. -/
def isSpaceChar (c : Nat) : Bool := c == 32

/-- The demo input of `py_lstrip.c`: space, tab, newline, three spaces, then
the text with its inner and trailing spaces. -/
def lstripDemo : CString := [32, 9, 10, 32, 32, 32] ++ cstr "Hello   World    "

/-! ## Definitions: `linked_list_reverse.c` -/

/-- The record `struct Node` of `linked_list_reverse.c`: the text and the
`next` and `prev` pointers (`none` is `NULL`). -/
structure DNode where
  text : CString
  next : Option Nat
  prev : Option Nat
deriving DecidableEq, Repr

/-- The three assignments that swap `next` and `prev` of a node. -/
def swapLinks (nd : DNode) : DNode := { nd with next := nd.prev, prev := nd.next }

/-- The `while (current)` loop of `reverse_list` on a memory of nodes, cut
after `fuel` tests of `current`: the memory and `temp` after the loop. -/
def reverseLoop (m : List DNode) : Nat → Option Nat → Option Nat →
    Option (List DNode × Option Nat)
  | 0, _, _ => none
  | _ + 1, none, temp => some (m, temp)
  | fuel + 1, some current, _ =>
    match m[current]? with
    | none => none
    | some nd => reverseLoop (m.set current (swapLinks nd)) fuel nd.next nd.prev

/-- The function `reverse_list`: the returned head and the memory after the
call. A list without a cycle has at most `m.length` nodes. -/
def reverse_list (m : List DNode) (head : Option Nat) : Option (Option Nat × List DNode) :=
  match reverseLoop m (m.length + 1) head none with
  | none => none
  | some (m1, none) => some (head, m1)
  | some (m1, some temp) =>
    match m1[temp]? with
    | none => none
    | some nd => some (nd.prev, m1)

/-- The loop of `print_list` (along `next`) and of `print_list_reverse`
(along `prev`): the printed texts. -/
def walkLoop (link : DNode → Option Nat) (m : List DNode) :
    Nat → Option Nat → Option (List CString)
  | 0, _ => none
  | _ + 1, none => some []
  | fuel + 1, some p =>
    match m[p]? with
    | none => none
    | some nd => (walkLoop link m fuel (link nd)).map fun rest => nd.text :: rest

/-- The function `print_list` of `linked_list_reverse.c`. -/
def print_list (m : List DNode) (head : Option Nat) : Option (List CString) :=
  walkLoop DNode.next m (m.length + 1) head

/-- The function `print_list_reverse`. -/
def print_list_reverse (m : List DNode) (tail : Option Nat) : Option (List CString) :=
  walkLoop DNode.prev m (m.length + 1) tail

/-- A stretch of a doubly linked list: following `next` from `p` visits the
nodes `cells` (address and text) and arrives at `e`; the `prev` of each node
is the node before it, `pv` for the first; `last` is the last node visited
(`pv` when there is none). -/
inductive DSeg (m : List DNode) :
    Option Nat → Option Nat → List (Nat × CString) → Option Nat → Option Nat → Prop
  | nil (pv p : Option Nat) : DSeg m pv p [] pv p
  | cons {a : Nat} {t : CString} {nx pv last e : Option Nat} {rest : List (Nat × CString)} :
      m[a]? = some ⟨t, nx, pv⟩ → DSeg m (some a) nx rest last e →
      DSeg m pv (some a) ((a, t) :: rest) last e

/-- A well-formed doubly linked list with first node `head` and last node
`tail`: the `prev` of the head and the `next` of the tail are `NULL`. -/
def IsDList (m : List DNode) (head : Option Nat) (cells : List (Nat × CString))
    (tail : Option Nat) : Prop :=
  DSeg m none head cells tail none

/-- The memory after `build_sample_list` of `linked_list_reverse.c`. -/
def sampleDHeap : List DNode :=
  [⟨cstr "C", some 1, none⟩, ⟨cstr "is", some 2, some 0⟩, ⟨cstr "fun", none, some 1⟩]

/-! ## Definitions: `rpn_calculator.c` -/

/-- The constant `#define MAX_STACK 100`. -/
def MAX_STACK : Nat := 100

/-- The record `Stack`: the array `data[MAX_STACK]` and the index `top`. -/
structure Stack where
  data : List Int
  top : Int
deriving DecidableEq, Repr

/-- The function `init`: `s->top = -1`; the array keeps what it held. -/
def init (s : Stack) : Stack := { s with top := -1 }

/-- The function `is_empty`. -/
def is_empty (s : Stack) : Bool := s.top == -1

/-- The function `is_full`. -/
def is_full (s : Stack) : Bool := s.top == (MAX_STACK : Int) - 1

/-- The function `push`: the returned flag and the stack after the call. -/
def push (s : Stack) (val : Int) : Int × Stack :=
  if is_full s = true then (0, s)
  else (1, { data := s.data.set (s.top + 1).toNat val, top := s.top + 1 })

/-- The function `pop`: the returned flag, the value stored in `*val` (none
when nothing is stored) and the stack after the call. -/
def pop (s : Stack) : Int × Option Int × Stack :=
  if is_empty s = true then (0, none, s)
  else (1, some (s.data.getD s.top.toNat 0), { s with top := s.top - 1 })

/-- The delimiters `" \t\n"` given to `strtok`. -/
def isDelim (c : Nat) : Bool := c == 32 || c == 9 || c == 10

/-- The tokens that the successive `strtok` calls return: the maximal runs of
characters that are not delimiters; `cur` is the run being read. -/
def tokenize : CString → CString → List CString
  | [], cur => if cur = [] then [] else [cur]
  | c :: rest, cur =>
    if isDelim c = true then
      (if cur = [] then tokenize rest [] else cur :: tokenize rest [])
    else tokenize rest (cur ++ [c])

/-- The library test `isdigit` on a character code. -/
def isdigit (c : Nat) : Bool := decide (48 ≤ c) && decide (c ≤ 57)

/-- The library test `isspace` on a character code. -/
def isspace (c : Nat) : Bool := c == 32 || (decide (9 ≤ c) && decide (c ≤ 13))

/-- The digits loop of the library function `atoi`: the number read so far. -/
def atoiDigits : CString → Nat → Nat
  | [], acc => acc
  | c :: rest, acc => if isdigit c = true then atoiDigits rest (acc * 10 + (c - 48)) else acc

/-- The library function `atoi`: white space, an optional sign, then digits;
the value is stored in a 32-bit `int`. -/
def atoi (s : CString) : Int :=
  if charAt (s.dropWhile isspace) 0 = 45 then
    wrapInt (-(atoiDigits ((s.dropWhile isspace).drop 1) 0 : Int))
  else if charAt (s.dropWhile isspace) 0 = 43 then
    wrapInt (atoiDigits ((s.dropWhile isspace).drop 1) 0 : Int)
  else wrapInt (atoiDigits (s.dropWhile isspace) 0 : Int)

/-- The first test of the loop of `main`:
`isdigit(token[0]) || (token[0] == '-' && isdigit(token[1]))`. -/
def isOperand (token : CString) : Bool :=
  isdigit (charAt token 0) || (charAt token 0 == 45 && isdigit (charAt token 1))

/-- The second test: `strlen(token) == 1 && strchr("+-*/", token[0])`. -/
def isOperator (token : CString) : Bool :=
  token.length == 1 && (charAt token 0 == 43 || charAt token 0 == 45 ||
    charAt token 0 == 42 || charAt token 0 == 47)

/-- How `main` ends. -/
inductive Outcome where
  | result (v : Int)
  | notEnoughOperands (token : CString)
  | divisionByZero
  | unknownOperator (token : CString)
  | invalidToken (token : CString)
  | stackItems (n : Int)
deriving DecidableEq, Repr

/-- The `switch` of `main` on the operator character: the `int` result, or
the error with which `main` returns. -/
def applyOperator (token : CString) (a b : Int) : Outcome ⊕ Int :=
  if charAt token 0 = 43 then Sum.inr (wrapInt (a + b))
  else if charAt token 0 = 45 then Sum.inr (wrapInt (a - b))
  else if charAt token 0 = 42 then Sum.inr (wrapInt (a * b))
  else if charAt token 0 = 47 then
    (if b = 0 then Sum.inl Outcome.divisionByZero else Sum.inr (wrapInt (Int.tdiv a b)))
  else Sum.inl (Outcome.unknownOperator token)

/-- One turn of the `while (token)` loop of `main`: the stack after it, or
the error with which `main` returns. The flag returned by `push` is ignored,
as in the source. -/
def rpnStep (s : Stack) (token : CString) : Outcome ⊕ Stack :=
  if isOperand token = true then Sum.inr (push s (atoi token)).2
  else if isOperator token = true then
    match pop s with
    | (_, some b, s1) =>
      match pop s1 with
      | (_, some a, s2) =>
        match applyOperator token a b with
        | Sum.inl o => Sum.inl o
        | Sum.inr r => Sum.inr (push s2 r).2
      | (_, none, _) => Sum.inl (Outcome.notEnoughOperands token)
    | (_, none, _) => Sum.inl (Outcome.notEnoughOperands token)
  else Sum.inl (Outcome.invalidToken token)

/-- The `while (token)` loop of `main` over the tokens of the line. -/
def rpnLoop : Stack → List CString → Outcome ⊕ Stack
  | s, [] => Sum.inr s
  | s, token :: rest =>
    match rpnStep s token with
    | Sum.inl o => Sum.inl o
    | Sum.inr s1 => rpnLoop s1 rest

/-- The function `main` of `rpn_calculator.c` after `fgets` has stored
`line`; `stack0` is the local `Stack` before `init`. -/
def rpn_main (stack0 : Stack) (line : CString) : Outcome :=
  match rpnLoop (init stack0) (tokenize line []) with
  | Sum.inl o => o
  | Sum.inr s =>
    if s.top = 0 then Outcome.result (s.data.getD 0 0) else Outcome.stackItems (s.top + 1)

/-- The values held by a stack, the top one first. -/
def contents (s : Stack) : List Int := (s.data.take (s.top + 1).toNat).reverse

/-- The array has `MAX_STACK` cells and `top` is between -1 and `MAX_STACK - 1`. -/
def StackOk (s : Stack) : Prop :=
  s.data.length = MAX_STACK ∧ -1 ≤ s.top ∧ s.top ≤ (MAX_STACK : Int) - 1

/-- The effect of `push` on the values held. -/
def pushVals (st : List Int) (v : Int) : List Int :=
  if st.length = MAX_STACK then st else v :: st

/-- One turn of the loop of `main` on the values held. -/
def stepVals (st : List Int) (token : CString) : Outcome ⊕ List Int :=
  if isOperand token = true then Sum.inr (pushVals st (atoi token))
  else if isOperator token = true then
    match st with
    | b :: a :: rest =>
      match applyOperator token a b with
      | Sum.inl o => Sum.inl o
      | Sum.inr r => Sum.inr (pushVals rest r)
    | _ => Sum.inl (Outcome.notEnoughOperands token)
  else Sum.inl (Outcome.invalidToken token)

/-- The loop of `main` on the values held. -/
def loopVals : List Int → List CString → Outcome ⊕ List Int
  | st, [] => Sum.inr st
  | st, token :: rest =>
    match stepVals st token with
    | Sum.inl o => Sum.inl o
    | Sum.inr st1 => loopVals st1 rest

/-- The outcome of `main` computed on the values held. -/
def rpnVals (line : CString) : Outcome :=
  match loopVals [] (tokenize line []) with
  | Sum.inl o => o
  | Sum.inr st =>
    match st with
    | [v] => Outcome.result v
    | _ => Outcome.stackItems st.length

/-- The decimal digits of a natural number as characters. -/
def decimalNat (n : Nat) : CString :=
  if n = 0 then [48] else (Nat.digits 10 n).reverse.map fun d => d + 48

/-- The decimal text of an integer, with a leading minus sign when negative. -/
def decimal (a : Int) : CString :=
  if a < 0 then 45 :: decimalNat a.natAbs else decimalNat a.natAbs

/-- The input line `a b op` followed by the newline that `fgets` keeps. -/
def binaryLine (a b : Int) (op : Nat) : CString :=
  decimal a ++ [32] ++ decimal b ++ [32] ++ [op] ++ [10]

/-- A value that a 32-bit `int` can hold. -/
def inIntRange (x : Int) : Prop := -2 ^ 31 ≤ x ∧ x < 2 ^ 31


/-- A call on the stack: `push(s, val)` or `pop(s, &val)`. -/
inductive StackCall where
  | push (val : Int)
  | pop
deriving DecidableEq, Repr

/-- The stack after one call. -/
def applyCall (s : Stack) : StackCall → Stack
  | StackCall.push val => (push s val).2
  | StackCall.pop => (pop s).2.2

/-- The stack after a sequence of calls. -/
def applyCalls (s : Stack) (calls : List StackCall) : Stack := calls.foldl applyCall s

/-- A stack whose array holds zeros and whose `top` is not yet set. -/
def zeroStack : Stack := { data := List.replicate MAX_STACK 0, top := 0 }


/-! ## Definitions: the back-links of the ordered map -/

/-- The addresses met by following `__prev` from `cur` until `NULL`, cut
after `fuel` tests; `none` when the walk has not ended or reads no cell. -/
def backLoop (heap : List MapEntry) : Nat → Option Nat → Option (List Nat)
  | 0, _ => none
  | _ + 1, none => some []
  | fuel + 1, some cur =>
    match heap[cur]? with
    | none => none
    | some e => (backLoop heap fuel e.__prev).map fun rest => cur :: rest

/-- The entries reachable from `__tail` by following `__prev`, as addresses. -/
def backOf (s : MapState) : Option (List Nat) :=
  backLoop s.heap (s.heap.length + 1) s.self.__tail


/-! ## Definitions: `simple_machine.c` -/

/-- The constant `#define MEM_SIZE 256`. -/
def MEM_SIZE : Nat := 256

/-- The array `char memory[MEM_SIZE]`: each cell as the value of its byte
read as an `unsigned char`. -/
abbrev Memory := List Nat

/-- The array has `MEM_SIZE` cells, each holding a byte. -/
def MemOk (m : Memory) : Prop := m.length = MEM_SIZE ∧ ∀ b ∈ m, b < 256

/-- The memory at program start: `{0}`. -/
def memory0 : Memory := List.replicate MEM_SIZE 0

/-- The value of a `char` object with byte `b` converted to `int`; whether
`char` is signed is left to the platform. -/
def charValue (signedChar : Bool) (b : Nat) : Int :=
  if signedChar && decide (128 ≤ b) then (b : Int) - 256 else (b : Int)

/-- The byte stored by the conversion `(char)x`. -/
def toChar (x : Int) : Nat := (x % 256).toNat

/-- The read `memory[addr]`: `none` when `addr` is outside the array. -/
def readMem (m : Memory) (addr : Int) : Option Nat :=
  if 0 ≤ addr then m[addr.toNat]? else none

/-- The test `addr >= 0 && addr < MEM_SIZE && val >= 0 && val <= 255`. -/
def inRange (addr val : Int) : Bool :=
  decide (0 ≤ addr) && decide (addr < (MEM_SIZE : Int)) && decide (0 ≤ val) && decide (val ≤ 255)

/-- The function `assign`. -/
def assign (m : Memory) (addr val : Int) : Memory :=
  if inRange addr val = true then m.set addr.toNat (toChar val) else m

/-- The function `add`: `before` is read from `memory[addr]` ahead of the
range test, so there is no result when `addr` is outside the array. -/
def add (signedChar : Bool) (m : Memory) (addr val : Int) : Option Memory :=
  match readMem m addr with
  | none => none
  | some b =>
    let before := charValue signedChar b
    let after := Int.tmod (wrapInt (before + val)) 256
    if inRange addr val = true then some (m.set addr.toNat (toChar after)) else some m

/-- The function `subtract`: `before` is read ahead of the range test, as in `add`. -/
def subtract (signedChar : Bool) (m : Memory) (addr val : Int) : Option Memory :=
  match readMem m addr with
  | none => none
  | some b =>
    let before := charValue signedChar b
    let after := Int.tmod (wrapInt (wrapInt (before - val) + 256)) 256
    if inRange addr val = true then some (m.set addr.toNat (toChar after)) else some m


/-! ## Definitions: `pystr_demo.c` -/

/-- The record `struct pystr`; `length` and `alloc` are `int`s and `data` is
the whole buffer that `data` points to. -/
structure pystr where
  length : Int
  alloc : Int
  data : List Nat
deriving DecidableEq, Repr

/-- The first `n` bytes of a block that `malloc` or `realloc` hands out: its
contents are not determined by the program and are given by `junk`. -/
def block (junk : Nat → Nat) (n : Nat) : List Nat := (List.range n).map junk

/-- The function `pystr_new`: a buffer of 10 bytes with `data[0] = 0`. -/
def pystr_new (junk : Nat → Nat) : pystr :=
  { length := 0, alloc := 10, data := (block junk 10).set 0 0 }

/-- The loop `while (newlen + 1 > newalloc) newalloc += 10` on 32-bit `int`s,
cut after `fuel` tests. -/
def growLoop (newlen : Int) : Nat → Int → Option Int
  | 0, _ => none
  | fuel + 1, newalloc =>
    if wrapInt (newlen + 1) > newalloc then growLoop newlen fuel (wrapInt (newalloc + 10))
    else some newalloc

/-- The number of tests after which `growLoop` is cut: the values of
`newalloc` repeat after `2 ^ 31` additions of 10, so a loop that has not
ended by then never ends. -/
def growFuel : Nat := 2 ^ 31 + 1

/-- The library call `realloc(data, n)`: the old bytes up to the new size,
followed by undetermined bytes. It is taken to succeed for a size that is
not negative (the source exits when it fails); a negative `int` converts to
a size that no `realloc` grants. -/
def realloc (junk : Nat → Nat) (data : List Nat) (n : Int) : Option (List Nat) :=
  if n < 0 then none
  else some (data.take n.toNat ++ block junk (n.toNat - data.length))

/-- The library call `strlen`. -/
def strlen (s : CString) : Nat := s.length

/-- The library call `strcpy(buf + off, src)`: the bytes of `src` and the
terminating NUL are written from offset `off`; `none` when they do not fit
in the buffer. -/
def strcpy (buf : List Nat) (off : Int) (src : CString) : Option (List Nat) :=
  if 0 ≤ off ∧ off.toNat + src.length + 1 ≤ buf.length then
    some (buf.take off.toNat ++ (src ++ 0 :: buf.drop (off.toNat + src.length + 1)))
  else none

/-- The function `pystr_append` with its `int` arithmetic wrapped to 32
bits; `none` when the loop does not end, `realloc` fails or a write leaves
the buffer. -/
def pystr_append (junk : Nat → Nat) (s : pystr) (suffix : CString) : Option pystr :=
  let addlen := wrapInt (strlen suffix)
  let newlen := wrapInt (s.length + addlen)
  if wrapInt (newlen + 1) > s.alloc then
    match growLoop newlen growFuel s.alloc with
    | none => none
    | some newalloc =>
      match realloc junk s.data newalloc with
      | none => none
      | some newdata =>
        (strcpy newdata s.length suffix).map fun d =>
          { length := newlen, alloc := newalloc, data := d }
  else
    (strcpy s.data s.length suffix).map fun d =>
      { length := newlen, alloc := s.alloc, data := d }

/-- A sequence of `pystr_append` calls. -/
def appendAll (junk : Nat → Nat) : pystr → List CString → Option pystr
  | s, [] => some s
  | s, x :: rest =>
    match pystr_append junk s x with
    | none => none
    | some s1 => appendAll junk s1 rest

/-- The state that `pystr_append` keeps: the buffer has `alloc` bytes, holds
the string `total` of `length` bytes followed by a NUL, and `alloc` is the
least multiple of 10 that is at least `length + 1`. -/
def PystrOk (s : pystr) (total : CString) : Prop :=
  (s.data.length : Int) = s.alloc ∧ s.length = (total.length : Int) ∧
  s.data.take total.length = total ∧ s.data[total.length]? = some 0 ∧
  s.alloc = 10 * ((s.length + 10) / 10)

/-- The suffixes appended by `main`. -/
def demoSuffixes : List CString :=
  [cstr "Hello", cstr ", world!", cstr " This is a long string to test buffer expansion."]

/-- Undetermined bytes that are all the letter `A`. -/
def junkA : Nat → Nat := fun _ => 65

/-- The largest total length for which no `int` of `pystr_append` overflows:
`alloc` is then at most 2147483640. -/
def maxTotal : Nat := 2147483639

/-! ## Definitions: `binary_tree_wordcount.c` -/

set_option maxRecDepth 100000

/-! ## Hash table: lemmas and theorems -/

theorem hash_lt (s : CString) : hash s < HASHSIZE :=
  Nat.mod_lt _ (by decide)

theorem length_hashtab0 : hashtab0.length = HASHSIZE := by
  simp [hashtab0]

theorem length_install (a : Alloc) (t : Table) (k d : CString) :
    (install a t k d).2.length = t.length := by
  unfold install
  split
  · split
    · rfl
    · split <;> simp
  · simp

theorem Reachable.length_eq {t : Table} (h : Reachable t) : t.length = HASHSIZE := by
  induction h with
  | init => exact length_hashtab0
  | step a k d _ ih => rw [length_install]; exact ih

theorem bucket_set_self {t : Table} {i : Nat} (h : i < t.length) (c : Chain) :
    bucket (t.set i c) i = c := by
  simp [bucket, List.getElem?_set, h]

theorem bucket_set_ne {t : Table} {i j : Nat} (h : i ≠ j) (c : Chain) :
    bucket (t.set i c) j = bucket t j := by
  simp [bucket, List.getElem?_set, h]

theorem bucket_set_of_le {t : Table} {i : Nat} (h : t.length ≤ i) (c : Chain) (j : Nat) :
    bucket (t.set i c) j = bucket t j := by
  rw [List.set_eq_of_length_le h]

theorem bucket_hashtab0 (i : Nat) : bucket hashtab0 i = [] := by
  unfold bucket hashtab0
  by_cases h : i < HASHSIZE
  · simp [List.getElem?_replicate, h]
  · simp [List.getElem?_replicate, h]

theorem lookupChain_name {s : CString} {c : Chain} {e : nlist}
    (h : lookupChain s c = some e) : e.name = s := by
  induction c with
  | nil => simp [lookupChain] at h
  | cons np rest ih =>
    unfold lookupChain at h
    split at h
    · cases h; symm; assumption
    · exact ih h

theorem lookupChain_mem {s : CString} {c : Chain} {e : nlist}
    (h : lookupChain s c = some e) : e ∈ c := by
  induction c with
  | nil => simp [lookupChain] at h
  | cons np rest ih =>
    unfold lookupChain at h
    split at h
    · cases h; simp
    · exact List.mem_cons_of_mem _ (ih h)

theorem lookupChain_eq_none {s : CString} {c : Chain} :
    lookupChain s c = none ↔ s ∉ c.map nlist.name := by
  induction c with
  | nil => simp [lookupChain]
  | cons np rest ih =>
    unfold lookupChain
    by_cases h : s = np.name
    · simp [h]
    · simp [h, ih]

theorem lookupChain_setDef_self {s : CString} (d : Option CString) {c : Chain} {e : nlist}
    (h : lookupChain s c = some e) :
    lookupChain s (setDef s d c) = some { e with defn := d } := by
  induction c with
  | nil => simp [lookupChain] at h
  | cons np rest ih =>
    unfold lookupChain at h
    unfold setDef
    by_cases hs : s = np.name
    · simp only [hs, if_true] at h ⊢
      cases h
      simp [lookupChain]
    · simp only [hs, if_false] at h ⊢
      simp [lookupChain, hs, ih h]

theorem lookupChain_setDef_ne {s s' : CString} (hne : s' ≠ s) (d : Option CString)
    (c : Chain) : lookupChain s' (setDef s d c) = lookupChain s' c := by
  induction c with
  | nil => rfl
  | cons np rest ih =>
    unfold setDef
    by_cases hs : s = np.name
    · have : s' ≠ np.name := hs ▸ hne
      simp [hs, lookupChain, this]
    · simp only [hs, if_false]
      simp [lookupChain, ih]

theorem lookupChain_cons_ne {s' : CString} {np : nlist} (hne : s' ≠ np.name)
    (c : Chain) : lookupChain s' (np :: c) = lookupChain s' c := by
  simp [lookupChain, hne]

/-- After a successful `install(k, d)` on a table of `HASHSIZE` buckets,
`lookup(k)` finds the node `(k, d)`. -/
theorem lookup_install_self {a : Alloc} {t : Table} {k d : CString}
    (hlen : t.length = HASHSIZE) (h : (install a t k d).1 ≠ none) :
    lookup (install a t k d).2 k = some ⟨k, some d⟩ := by
  have hlt : hash k < t.length := hlen ▸ hash_lt k
  unfold install at h ⊢
  split at h
  · next hnone =>
    simp only [hnone]
    split at h
    · exact absurd rfl h
    · next hnode =>
      simp only [hnode, if_false]
      cases hn : a.name <;> simp only [strdup, hn] at h ⊢
      · exact absurd rfl h
      · cases hd : a.defn <;> simp [retNode, hd] at h ⊢
        simp [lookup, bucket_set_self hlt, lookupChain]
  · next found hfound =>
    simp only [hfound]
    cases hd : a.defn <;> simp [retNode, strdup, hd] at h ⊢
    unfold lookup at hfound ⊢
    rw [bucket_set_self hlt, lookupChain_setDef_self _ hfound, lookupChain_name hfound]

/-- The call `install(k, d)` does not change `lookup(k')` for `k' ≠ k`. -/
theorem lookup_install_ne (a : Alloc) (t : Table) {k k' : CString} (d : CString)
    (hne : k' ≠ k) : lookup (install a t k d).2 k' = lookup t k' := by
  have key : ∀ c : Chain, lookupChain k' c = lookupChain k' (bucket t (hash k)) →
      lookup (t.set (hash k) c) k' = lookup t k' := by
    intro c hc
    unfold lookup
    by_cases hlt : hash k < t.length
    · by_cases hh : hash k = hash k'
      · rw [← hh, bucket_set_self hlt, hc]
      · rw [bucket_set_ne hh]
    · rw [bucket_set_of_le (Nat.le_of_not_lt hlt)]
  unfold install
  split
  · split
    · rfl
    · cases hn : a.name <;> simp only [strdup, hn, if_true, if_false]
      · trivial
      · apply key
        exact lookupChain_cons_ne hne _
  · exact key _ (lookupChain_setDef_ne hne _ _)

theorem reachable_installAll {t : Table} (h : Reachable t) (calls : List InstallCall) :
    Reachable (installAll t calls) := by
  induction calls generalizing t with
  | nil => exact h
  | cons c cs ih => exact ih (Reachable.step c.alloc c.name c.defn h)

theorem installAll_append (t : Table) (xs ys : List InstallCall) :
    installAll t (xs ++ ys) = installAll (installAll t xs) ys := by
  induction xs generalizing t with
  | nil => rfl
  | cons c cs ih => exact ih _

theorem reachable_iff (t : Table) :
    Reachable t ↔ ∃ calls, installAll hashtab0 calls = t := by
  constructor
  · intro h
    induction h with
    | init => exact ⟨[], rfl⟩
    | step a k d _ ih =>
      obtain ⟨calls, rfl⟩ := ih
      exact ⟨calls ++ [⟨a, k, d⟩], by rw [installAll_append]; rfl⟩
  · rintro ⟨calls, rfl⟩
    exact reachable_installAll Reachable.init calls

theorem lookup_hashtab0 (k : CString) : lookup hashtab0 k = none := by
  simp [lookup, bucket_hashtab0, lookupChain]

theorem lookup_installAll_of_not_mem (t : Table) (calls : List InstallCall) (k : CString)
    (hk : k ∉ calls.map InstallCall.name) :
    lookup (installAll t calls) k = lookup t k := by
  induction calls generalizing t with
  | nil => rfl
  | cons c cs ih =>
    simp only [List.map_cons, List.mem_cons, not_or] at hk
    unfold installAll
    rw [ih _ hk.2, lookup_install_ne _ _ _ hk.1]

theorem install_found {a : Alloc} {t : Table} {k : CString} (d : CString) {e : nlist}
    (h : lookup t k = some e) :
    (install a t k d).2 =
      t.set (hash k) (setDef k (strdup a.defn d) (bucket t (hash k))) := by
  unfold install
  simp [h]

theorem install_new {a : Alloc} {t : Table} {k d : CString}
    (h : lookup t k = none) (hs : (install a t k d).1 ≠ none) :
    (install a t k d).2 = t.set (hash k) (⟨k, some d⟩ :: bucket t (hash k)) := by
  unfold install at hs ⊢
  simp only [h] at hs ⊢
  split at hs
  · exact absurd rfl hs
  · next hnode =>
    simp only [hnode, if_false]
    cases hn : a.name <;> simp only [strdup, hn] at hs ⊢
    · exact absurd rfl hs
    · cases hd : a.defn <;> simp [retNode, hd] at hs ⊢

theorem bucket_eq_getElem {t : Table} {i : Nat} (h : i < t.length) :
    bucket t i = t[i] := by
  simp [bucket, h]

theorem flatten_set_cons {α : Type} (t : List (List α)) (i : Nat) (h : i < t.length) (x : α) :
    (t.set i (x :: t[i])).flatten.Perm (x :: t.flatten) := by
  rw [List.set_eq_take_cons_drop _ h]
  conv_rhs => rw [← List.take_append_drop i t, List.drop_eq_getElem_cons h]
  simp only [List.flatten_append, List.flatten_cons]
  exact List.perm_middle

theorem map_name_setDef (k : CString) (d : Option CString) (c : Chain) :
    (setDef k d c).map nlist.name = c.map nlist.name := by
  induction c with
  | nil => rfl
  | cons np rest ih =>
    unfold setDef
    split
    · rfl
    · simp [ih]

theorem names_eq (t : Table) : names t = (t.map (List.map nlist.name)).flatten := by
  simp [names, entries, List.map_flatten]

theorem names_set_setDef (t : Table) (i : Nat) (k : CString) (d : Option CString) :
    names (t.set i (setDef k d (bucket t i))) = names t := by
  by_cases h : i < t.length
  · rw [names_eq, names_eq, List.map_set, map_name_setDef, bucket_eq_getElem h]
    congr 1
    apply List.ext_getElem?
    intro j
    rw [List.getElem?_set]
    by_cases hij : i = j
    · subst hij; simp [h]
    · simp [hij]
  · rw [List.set_eq_of_length_le (Nat.le_of_not_lt h)]

theorem names_set_cons (t : Table) (i : Nat) (h : i < t.length) (e : nlist) :
    (names (t.set i (e :: bucket t i))).Perm (e.name :: names t) := by
  rw [bucket_eq_getElem h]
  exact (flatten_set_cons t i h e).map nlist.name

theorem placed_hashtab0 : Placed hashtab0 := by
  intro i e he
  rw [bucket_hashtab0] at he
  simp at he

theorem mem_setDef_name {k : CString} {d : Option CString} {c : Chain} {e : nlist}
    (h : e ∈ setDef k d c) : e.name ∈ c.map nlist.name := by
  rw [← map_name_setDef k d c]
  exact List.mem_map_of_mem _ h

theorem placed_install {a : Alloc} {t : Table} {k d : CString} (hp : Placed t) :
    Placed (install a t k d).2 := by
  have key : ∀ c : Chain, (∀ e ∈ c, hash e.name = hash k) → Placed (t.set (hash k) c) := by
    intro c hc i e he
    by_cases hlt : hash k < t.length
    · by_cases hh : hash k = i
      · subst hh
        rw [bucket_set_self hlt] at he
        exact hc e he
      · rw [bucket_set_ne hh] at he
        exact hp i e he
    · rw [bucket_set_of_le (Nat.le_of_not_lt hlt)] at he
      exact hp i e he
  unfold install
  split
  · split
    · exact hp
    · cases hn : a.name <;> simp only [strdup, hn, if_true, if_false]
      · exact hp
      · apply key
        intro e he
        rcases List.mem_cons.1 he with rfl | he
        · rfl
        · exact hp _ e he
  · apply key
    intro e he
    obtain ⟨e', he', hname⟩ := List.mem_map.1 (mem_setDef_name he)
    rw [← hname]
    exact hp _ e' he'

theorem mem_names_iff {t : Table} {k : CString} :
    k ∈ names t ↔ ∃ i, k ∈ (bucket t i).map nlist.name := by
  simp only [names, entries, List.mem_map, List.mem_flatten]
  constructor
  · rintro ⟨e, ⟨c, hc, he⟩, rfl⟩
    obtain ⟨i, hi, rfl⟩ := List.getElem_of_mem hc
    exact ⟨i, e, by rw [bucket_eq_getElem hi]; exact he, rfl⟩
  · rintro ⟨i, e, he, rfl⟩
    by_cases hi : i < t.length
    · rw [bucket_eq_getElem hi] at he
      exact ⟨e, ⟨t[i], List.getElem_mem _, he⟩, rfl⟩
    · simp [bucket, List.getElem?_eq_none (Nat.le_of_not_lt hi)] at he

/-- On a table that respects placement, `lookup(k)` misses exactly when `k`
is stored nowhere in the table. -/
theorem lookup_eq_none_iff {t : Table} (hp : Placed t) (k : CString) :
    lookup t k = none ↔ k ∉ names t := by
  unfold lookup
  rw [lookupChain_eq_none, mem_names_iff]
  constructor
  · rintro h ⟨i, hi⟩
    obtain ⟨e, he, rfl⟩ := List.mem_map.1 hi
    have := hp i e he
    subst this
    exact h hi
  · intro h hk
    exact h ⟨_, hk⟩

/-- Effect of one successful `install` on the stored names. -/
theorem names_install {a : Alloc} {t : Table} {k d : CString}
    (hlen : t.length = HASHSIZE) (hp : Placed t) (hs : (install a t k d).1 ≠ none) :
    (k ∈ names t ∧ names (install a t k d).2 = names t) ∨
    (k ∉ names t ∧ (names (install a t k d).2).Perm (k :: names t)) := by
  have hlt : hash k < t.length := hlen ▸ hash_lt k
  cases hl : lookup t k with
  | none =>
    right
    refine ⟨(lookup_eq_none_iff hp k).1 hl, ?_⟩
    rw [install_new hl hs]
    exact names_set_cons t _ hlt _
  | some e =>
    left
    constructor
    · by_contra hk
      rw [(lookup_eq_none_iff hp k).2 hk] at hl
      cases hl
    · rw [install_found d hl, names_set_setDef]

theorem names_hashtab0 : names hashtab0 = [] := by
  simp [names, entries, hashtab0]

/-- After a sequence of successful `install` calls on a well-placed table
whose names are distinct, the names are still distinct and are the old names
together with the installed keys. -/
theorem names_installAll (calls : List InstallCall) :
    ∀ t : Table, t.length = HASHSIZE → Placed t → (names t).Nodup →
      allSucceed t calls = true →
      (names (installAll t calls)).Nodup ∧
      ∀ k, k ∈ names (installAll t calls) ↔ k ∈ names t ∨ k ∈ calls.map InstallCall.name := by
  induction calls with
  | nil => intro t _ _ hn _; exact ⟨hn, by simp [installAll]⟩
  | cons c cs ih =>
    intro t hlen hp hn hs
    simp only [allSucceed, Bool.and_eq_true] at hs
    have hs1 : (install c.alloc t c.name c.defn).1 ≠ none := by
      intro h; rw [h] at hs; simp at hs
    have hlen' := (length_install c.alloc t c.name c.defn).trans hlen
    have hp' : Placed (install c.alloc t c.name c.defn).2 := placed_install hp
    have step := names_install hlen hp hs1
    have hn' : (names (install c.alloc t c.name c.defn).2).Nodup := by
      rcases step with ⟨_, h⟩ | ⟨hk, h⟩
      · rw [h]; exact hn
      · exact h.nodup_iff.2 (List.nodup_cons.2 ⟨hk, hn⟩)
    obtain ⟨r1, r2⟩ := ih _ hlen' hp' hn' hs.2
    refine ⟨r1, fun k => ?_⟩
    unfold installAll
    rw [r2 k]
    rcases step with ⟨hk, h⟩ | ⟨_, h⟩
    · rw [h]
      simp only [List.map_cons, List.mem_cons]
      constructor
      · rintro (h1 | h1)
        · exact Or.inl h1
        · exact Or.inr (Or.inr h1)
      · rintro (h1 | rfl | h1)
        · exact Or.inl h1
        · exact Or.inl hk
        · exact Or.inr h1
    · rw [h.mem_iff]
      simp only [List.map_cons, List.mem_cons]
      tauto

/-- C1: in every table reached from the empty table by `install` calls, a
successful `install(k, d)` is followed by a `lookup(k)` that returns a node
whose name is `k` and whose definition is `d`, for a new key and for a key
already present alike. -/
theorem install_then_lookup (a : Alloc) (t : Table) (k d : CString)
    (hr : Reachable t) (hs : (install a t k d).1 ≠ none) :
    ∃ e, lookup (install a t k d).2 k = some e ∧ e.name = k ∧ e.defn = some d :=
  ⟨⟨k, some d⟩, lookup_install_self hr.length_eq hs, rfl, rfl⟩

theorem install_then_lookup_witness :
    Reachable (installAll hashtab0 demoCalls3) ∧
    (install allocOk (installAll hashtab0 demoCalls3) (cstr "YES") (cstr "42")).1 ≠ none ∧
    ∃ e, lookup (install allocOk (installAll hashtab0 demoCalls3) (cstr "YES")
        (cstr "42")).2 (cstr "YES") = some e ∧
      e.name = cstr "YES" ∧ e.defn = some (cstr "42") :=
  ⟨reachable_installAll Reachable.init _, by decide,
    install_then_lookup allocOk _ (cstr "YES") (cstr "42")
      (reachable_installAll Reachable.init _) (by decide)⟩

/-- C3: in every reachable table, a successful `install(k, d)` leaves the
result of `lookup(k')` unchanged for every key `k'` other than `k` (same
miss, or same node with the same definition), colliding keys included; and
when a second successful `install(k', d')` follows, both keys are found with
their own definitions. -/
theorem install_frame (a a' : Alloc) (t : Table) (k k' d d' : CString)
    (hr : Reachable t) (hne : k' ≠ k) (hs : (install a t k d).1 ≠ none) :
    lookup (install a t k d).2 k' = lookup t k' ∧
    ((install a' (install a t k d).2 k' d').1 ≠ none →
      lookup (install a' (install a t k d).2 k' d').2 k = some ⟨k, some d⟩ ∧
      lookup (install a' (install a t k d).2 k' d').2 k' = some ⟨k', some d'⟩) := by
  refine ⟨lookup_install_ne a t d hne, fun hs' => ⟨?_, ?_⟩⟩
  · rw [lookup_install_ne a' _ d' (Ne.symm hne)]
    exact lookup_install_self hr.length_eq hs
  · exact lookup_install_self ((length_install a t k d).trans hr.length_eq) hs'

theorem install_frame_witness :
    Reachable hashtab0 ∧ cstr "ba" ≠ cstr "ab" ∧ hash (cstr "ba") = hash (cstr "ab") ∧
    (install allocOk hashtab0 (cstr "ab") (cstr "1")).1 ≠ none ∧
    lookup (install allocOk hashtab0 (cstr "ab") (cstr "1")).2 (cstr "ba") =
      lookup hashtab0 (cstr "ba") ∧
    lookup (install allocOk (install allocOk hashtab0 (cstr "ab") (cstr "1")).2
      (cstr "ba") (cstr "2")).2 (cstr "ab") = some ⟨cstr "ab", some (cstr "1")⟩ ∧
    lookup (install allocOk (install allocOk hashtab0 (cstr "ab") (cstr "1")).2
      (cstr "ba") (cstr "2")).2 (cstr "ba") = some ⟨cstr "ba", some (cstr "2")⟩ :=
  ⟨Reachable.init, by decide, by decide, by decide,
    (install_frame allocOk allocOk hashtab0 (cstr "ab") (cstr "ba") (cstr "1") (cstr "2")
      Reachable.init (by decide) (by decide)).1,
    (install_frame allocOk allocOk hashtab0 (cstr "ab") (cstr "ba") (cstr "1") (cstr "2")
      Reachable.init (by decide) (by decide)).2 (by decide)⟩

/-- C7: after any sequence of successful `install` calls on the empty table,
no name occurs twice among the nodes of all `HASHSIZE` chains together, and
the number of nodes is the number of distinct keys installed. -/
theorem install_unique (calls : List InstallCall)
    (hs : allSucceed hashtab0 calls = true) :
    (installAll hashtab0 calls).length = HASHSIZE ∧
    ((entries (installAll hashtab0 calls)).map nlist.name).Nodup ∧
    (entries (installAll hashtab0 calls)).length =
      (calls.map InstallCall.name).toFinset.card := by
  obtain ⟨h1, h2⟩ := names_installAll calls hashtab0 length_hashtab0 placed_hashtab0
    (by rw [names_hashtab0]; exact List.nodup_nil) hs
  refine ⟨(reachable_installAll Reachable.init calls).length_eq, h1, ?_⟩
  have hlen : (entries (installAll hashtab0 calls)).length =
      (names (installAll hashtab0 calls)).length := by simp [names]
  rw [hlen, ← List.toFinset_card_of_nodup h1]
  congr 1
  ext k
  simp only [List.mem_toFinset]
  rw [h2 k, names_hashtab0]
  simp

theorem install_unique_witness :
    allSucceed hashtab0 demoCalls5 = true ∧
    (installAll hashtab0 demoCalls5).length = HASHSIZE ∧
    ((entries (installAll hashtab0 demoCalls5)).map nlist.name).Nodup ∧
    (entries (installAll hashtab0 demoCalls5)).length =
      (demoCalls5.map InstallCall.name).toFinset.card ∧
    (entries (installAll hashtab0 demoCalls5)).length = 4 :=
  ⟨by decide, (install_unique demoCalls5 (by decide)).1,
    (install_unique demoCalls5 (by decide)).2.1,
    (install_unique demoCalls5 (by decide)).2.2, by decide⟩

/-- C9: after any sequence of `install` calls on the empty table, `lookup(k)`
returns not-found for every key `k` that is not among the installed keys. -/
theorem lookup_missing (calls : List InstallCall) (k : CString)
    (hk : k ∉ calls.map InstallCall.name) :
    lookup (installAll hashtab0 calls) k = none := by
  rw [lookup_installAll_of_not_mem hashtab0 calls k hk]
  exact lookup_hashtab0 k

theorem lookup_missing_witness :
    cstr "MISSING" ∉ demoCalls4.map InstallCall.name ∧
    lookup (installAll hashtab0 demoCalls4) (cstr "MISSING") = none :=
  ⟨by decide, lookup_missing demoCalls4 (cstr "MISSING") (by decide)⟩

/-! ## Ordered map: lemmas and theorems -/

theorem ptr_lt {n i : Nat} (h : i < n) : ptr n i = some i := by simp [ptr, h]

theorem ptr_ge {n i : Nat} (h : n ≤ i) : ptr n i = none := by
  simp [ptr, Nat.not_lt.2 h]

theorem findLoop_linked (heap : List MapEntry) (k : CString)
    (hn : ∀ i (h : i < heap.length), heap[i].__next = ptr heap.length (i + 1)) :
    ∀ fuel i, heap.length - i < fuel →
      findLoop heap k fuel (ptr heap.length i) =
        some ((firstIdx k (heap.drop i)).map (· + i)) := by
  intro fuel
  induction fuel with
  | zero => intro i h; omega
  | succ fuel ih =>
    intro i h
    by_cases hi : i < heap.length
    · rw [ptr_lt hi, List.drop_eq_getElem_cons hi]
      simp only [findLoop, List.getElem?_eq_getElem hi, firstIdx]
      by_cases hk : k = heap[i].key
      · simp [hk]
      · simp only [hk, if_false]
        rw [hn i hi, ih (i + 1) (by omega)]
        cases firstIdx k (List.drop (i + 1) heap) with
        | none => rfl
        | some j => simp [Nat.add_assoc, Nat.add_comm 1 i]
    · rw [ptr_ge (Nat.le_of_not_lt hi), List.drop_eq_nil_of_le (Nat.le_of_not_lt hi)]
      rfl

theorem dumpLoop_linked (heap : List MapEntry)
    (hn : ∀ i (h : i < heap.length), heap[i].__next = ptr heap.length (i + 1)) :
    ∀ fuel i, heap.length - i < fuel →
      dumpLoop heap fuel (ptr heap.length i) = some ((heap.drop i).map kv) := by
  intro fuel
  induction fuel with
  | zero => intro i h; omega
  | succ fuel ih =>
    intro i h
    by_cases hi : i < heap.length
    · rw [ptr_lt hi, List.drop_eq_getElem_cons hi]
      simp only [dumpLoop, List.getElem?_eq_getElem hi]
      rw [hn i hi, ih (i + 1) (by omega)]
      rfl
    · rw [ptr_ge (Nat.le_of_not_lt hi), List.drop_eq_nil_of_le (Nat.le_of_not_lt hi)]
      rfl

theorem find_linked {s : MapState} (h : Linked s) (k : CString) :
    __Map_find s (some k) = some (firstIdx k s.heap) := by
  simp only [__Map_find]
  rw [h.head, findLoop_linked s.heap k h.next _ 0 (by omega)]
  simp only [List.drop_zero]
  cases firstIdx k s.heap <;> simp

theorem dump_linked {s : MapState} (h : Linked s) :
    __Map_dump s = some (s.self.__count, view s) := by
  unfold __Map_dump
  rw [h.head, dumpLoop_linked s.heap h.next _ 0 (by omega)]
  simp [view]

theorem firstIdx_none {k : CString} {l : List MapEntry} (h : firstIdx k l = none)
    (d : Int) : assocGet k d (l.map kv) = d ∧ ∀ v, upsert k v (l.map kv) = l.map kv ++ [(k, v)] := by
  induction l with
  | nil => exact ⟨rfl, fun _ => rfl⟩
  | cons e r ih =>
    unfold firstIdx at h
    by_cases hk : k = e.key
    · simp [hk] at h
    · simp only [hk, if_false, Option.map_eq_none'] at h
      obtain ⟨h1, h2⟩ := ih h
      simp [assocGet, upsert, kv, hk, h1]
      intro v
      simpa [kv] using h2 v

theorem firstIdx_some {k : CString} {l : List MapEntry} {p : Nat}
    (h : firstIdx k l = some p) (d : Int) :
    ∃ e, l[p]? = some e ∧ e.key = k ∧ assocGet k d (l.map kv) = e.value ∧
      ∀ v, (l.set p (setValue v e)).map kv = upsert k v (l.map kv) := by
  induction l generalizing p with
  | nil => simp [firstIdx] at h
  | cons e r ih =>
    unfold firstIdx at h
    by_cases hk : k = e.key
    · simp only [hk, if_true, Option.some.injEq] at h
      subst h
      refine ⟨e, by simp, hk.symm, ?_, ?_⟩
      · simp [assocGet, kv, hk]
      · intro v; simp [upsert, kv, hk, setValue]
    · simp only [hk, if_false, Option.map_eq_some'] at h
      obtain ⟨q, hq, rfl⟩ := h
      obtain ⟨e', h1, h2, h3, h4⟩ := ih hq
      refine ⟨e', by simpa using h1, h2, ?_, ?_⟩
      · simp [assocGet, kv, hk]; simpa [kv] using h3
      · intro v
        simp [upsert, kv, hk]
        simpa [kv] using h4 v

/-- On a linked store `get` is association-list lookup. -/
theorem get_linked {s : MapState} (h : Linked s) (k : CString) (d : Int) :
    __Map_get s (some k) d = some (assocGet k d (view s)) := by
  unfold __Map_get
  rw [find_linked h k]
  cases hf : firstIdx k s.heap with
  | none => simp [(firstIdx_none hf d).1, view]
  | some p =>
    obtain ⟨e, h1, _, h3, _⟩ := firstIdx_some hf d
    simp [h1, view, h3]

theorem linked_update {s : MapState} (h : Linked s) {p : Nat} {e : MapEntry}
    (hp : s.heap[p]? = some e) (v : Int) :
    Linked { s with heap := s.heap.set p (setValue v e) } := by
  obtain ⟨hlt, he⟩ := List.getElem?_eq_some.1 hp
  refine ⟨?_, ?_, ?_, ?_, ?_⟩
  · simpa using h.head
  · simpa using h.tail
  · simpa using h.count
  · intro i hi
    simp only [List.length_set] at hi ⊢
    rw [List.getElem_set]
    split
    · next hpi => subst hpi; rw [← h.next p hi, he]; rfl
    · exact h.next i hi
  · intro i hi
    simp only [List.length_set] at hi ⊢
    rw [List.getElem_set]
    split
    · next hpi => subst hpi; rw [← h.prev p hi, he]; rfl
    · exact h.prev i hi

theorem linked_append {s : MapState} (h : Linked s) (k : CString) (v : Int)
    (hpos : 0 < s.heap.length) :
    Linked
      { heap := (s.heap ++ [MapEntry.mk k v s.self.__tail none]).set
          (s.heap.length - 1) (setNext (some s.heap.length) s.heap[s.heap.length - 1]),
        self := { s.self with __tail := some s.heap.length, __count := s.self.__count + 1 } } := by
  have htail : s.self.__tail = some (s.heap.length - 1) := by
    rw [h.tail]; simp [Nat.ne_of_gt hpos]
  refine ⟨?_, ?_, ?_, ?_, ?_⟩
  · simp only [List.length_set, List.length_append, List.length_singleton]
    rw [h.head, ptr_lt hpos, ptr_lt (by omega)]
  · simp
  · simp [h.count]
  · intro i hi
    simp only [List.length_set, List.length_append, List.length_singleton] at hi ⊢
    rw [List.getElem_set]
    split
    · next hpi =>
      subst hpi
      show some s.heap.length = _
      rw [ptr_lt (by omega)]
      congr 1
      omega
    · next hpi =>
      rw [List.getElem_append]
      split
      · next hlt =>
        rw [h.next i hlt, ptr_lt (by omega), ptr_lt (by omega)]
      · next hge =>
        simp only [List.getElem_singleton]
        rw [ptr_ge (by omega)]
  · intro i hi
    simp only [List.length_set, List.length_append, List.length_singleton] at hi ⊢
    rw [List.getElem_set]
    split
    · next hpi =>
      subst hpi
      exact h.prev _ (by omega)
    · next hpi =>
      rw [List.getElem_append]
      split
      · next hlt => exact h.prev i hlt
      · next hge =>
        simp only [List.getElem_singleton]
        have : i = s.heap.length := by omega
        subst this
        rw [htail]
        simp [Nat.ne_of_gt hpos]

theorem linked_first (k : CString) (v : Int) :
    Linked
      { heap := [MapEntry.mk k v none none],
        self := { __head := some 0, __tail := some 0, __count := 0 + 1 } } := by
  refine ⟨rfl, rfl, rfl, ?_, ?_⟩
  · intro i hi
    simp only [List.length_singleton] at hi ⊢
    have : i = 0 := by omega
    subst this
    rfl
  · intro i hi
    simp only [List.length_singleton] at hi
    have : i = 0 := by omega
    subst this
    rfl

theorem linked_new : Linked Map_new :=
  ⟨rfl, rfl, rfl, fun i hi => absurd hi (Nat.not_lt_zero i),
    fun i hi => absurd hi (Nat.not_lt_zero i)⟩

/-- On a linked store `put` returns, keeps the store linked and acts on the
entries as `upsert`. -/
theorem put_linked {s : MapState} (h : Linked s) (k : CString) (v : Int) :
    ∃ s1, __Map_put s (some k) v = some s1 ∧ Linked s1 ∧ view s1 = upsert k v (view s) := by
  simp only [__Map_put]
  rw [find_linked h k]
  cases hf : firstIdx k s.heap with
  | some p =>
    obtain ⟨e, h1, _, _, h4⟩ := firstIdx_some hf 0
    refine ⟨{ s with heap := s.heap.set p (setValue v e) }, ?_, linked_update h h1 v, ?_⟩
    · simp [writeCell, h1]
    · exact h4 v
  | none =>
    have hup := (firstIdx_none hf 0).2 v
    by_cases hpos : 0 < s.heap.length
    · have htail : s.self.__tail = some (s.heap.length - 1) := by
        rw [h.tail]; simp [Nat.ne_of_gt hpos]
      have hget : ∀ c : MapEntry, (s.heap ++ [c])[s.heap.length - 1]? =
          some s.heap[s.heap.length - 1] := by
        intro c
        rw [List.getElem?_append_left (by omega), List.getElem?_eq_getElem]
      refine ⟨_, ?_, linked_append h k v hpos, ?_⟩
      · simp only [htail, writeCell, hget, Option.map_some']
      · simp only [view]
        rw [List.set_append_left _ _ (by omega), List.map_append, List.map_set]
        have : List.map kv s.heap = (List.map kv s.heap).set (s.heap.length - 1)
            (kv (setNext (some s.heap.length) s.heap[s.heap.length - 1])) := by
          apply List.ext_getElem (by simp)
          intro i h1 h2
          rw [List.getElem_set]
          split
          · next hi => subst hi; simp [kv, setNext]
          · rfl
        rw [← this]
        exact hup.symm
    · have hnil : s.heap = [] := List.length_eq_zero.1 (by omega)
      have htail : s.self.__tail = none := by rw [h.tail]; simp [hnil]
      have hcount : s.self.__count = 0 := by rw [h.count]; simp [hnil]
      refine ⟨_, ?_, linked_first k v, ?_⟩
      · simp only [htail, hnil, hcount]
        rfl
      · simp [view, hnil, upsert, kv]

theorem linked_put {s s1 : MapState} (h : Linked s) (key : Option CString) (v : Int)
    (hp : __Map_put s key v = some s1) : Linked s1 := by
  cases key with
  | none => simp [__Map_put] at hp; exact hp ▸ h
  | some k =>
    obtain ⟨s2, h1, h2, _⟩ := put_linked h k v
    rw [h1] at hp
    cases hp
    exact h2

theorem MapReachable.linked {s : MapState} (h : MapReachable s) : Linked s := by
  induction h with
  | new => exact linked_new
  | put key v _ hp ih => exact linked_put ih key v hp

theorem assocGet_upsert_self (k : CString) (v d : Int) (l : List (CString × Int)) :
    assocGet k d (upsert k v l) = v := by
  induction l with
  | nil => simp [upsert, assocGet]
  | cons p r ih =>
    unfold upsert
    by_cases h : k = p.1
    · simp [h, assocGet]
    · simp [h, assocGet, ih]

theorem assocGet_upsert_ne {k k' : CString} (hne : k' ≠ k) (v d : Int)
    (l : List (CString × Int)) : assocGet k' d (upsert k v l) = assocGet k' d l := by
  induction l with
  | nil => simp [upsert, assocGet, hne]
  | cons p r ih =>
    unfold upsert
    by_cases h : k = p.1
    · have h' : k' ≠ p.1 := h ▸ hne
      simp [h, assocGet, h']
    · simp only [h, if_false]
      simp [assocGet, ih]

theorem assocGet_of_not_mem {k : CString} (d : Int) {l : List (CString × Int)}
    (h : k ∉ l.map Prod.fst) : assocGet k d l = d := by
  induction l with
  | nil => rfl
  | cons p r ih =>
    simp only [List.map_cons, List.mem_cons, not_or] at h
    simp [assocGet, h.1, ih h.2]

theorem keys_upsert (k : CString) (v : Int) (l : List (CString × Int)) :
    (upsert k v l).map Prod.fst = addKey (l.map Prod.fst) k := by
  induction l with
  | nil => simp [upsert, addKey]
  | cons p r ih =>
    unfold upsert addKey
    by_cases h : k = p.1
    · simp [h]
    · simp only [h, if_false, List.map_cons, List.mem_cons, false_or]
      rw [ih]
      unfold addKey
      split <;> simp

theorem nodup_addKey {acc : List CString} (h : acc.Nodup) (k : CString) :
    (addKey acc k).Nodup := by
  unfold addKey
  split
  · exact h
  · next hk =>
    rw [List.nodup_append]
    exact ⟨h, List.nodup_singleton k, by
      intro a ha hb
      rw [List.mem_singleton] at hb
      exact hk (hb ▸ ha)⟩

theorem mem_addKey {acc : List CString} {k x : CString} :
    x ∈ addKey acc k ↔ x ∈ acc ∨ x = k := by
  unfold addKey
  split
  · next hk =>
    constructor
    · exact Or.inl
    · rintro (h | rfl)
      · exact h
      · exact hk
  · simp

theorem foldl_addKey (ks : List CString) :
    ∀ acc : List CString, acc.Nodup →
      (ks.foldl addKey acc).Nodup ∧ ∀ x, x ∈ ks.foldl addKey acc ↔ x ∈ acc ∨ x ∈ ks := by
  induction ks with
  | nil => intro acc h; exact ⟨h, by simp⟩
  | cons k ks ih =>
    intro acc h
    obtain ⟨h1, h2⟩ := ih (addKey acc k) (nodup_addKey h k)
    refine ⟨h1, fun x => ?_⟩
    rw [List.foldl_cons, h2 x, mem_addKey]
    simp only [List.mem_cons]
    tauto

theorem nodup_distinctInOrder (ks : List CString) : (distinctInOrder ks).Nodup :=
  (foldl_addKey ks [] List.nodup_nil).1

theorem mem_distinctInOrder (ks : List CString) (x : CString) :
    x ∈ distinctInOrder ks ↔ x ∈ ks := by
  unfold distinctInOrder
  rw [(foldl_addKey ks [] List.nodup_nil).2 x]
  simp

theorem length_distinctInOrder (ks : List CString) :
    (distinctInOrder ks).length = ks.toFinset.card := by
  rw [← List.toFinset_card_of_nodup (nodup_distinctInOrder ks)]
  congr 1
  ext x
  simp [mem_distinctInOrder]

theorem keys_upsertAll (puts : List (CString × Int)) :
    ∀ l : List (CString × Int),
      (upsertAll l puts).map Prod.fst = (puts.map Prod.fst).foldl addKey (l.map Prod.fst) := by
  induction puts with
  | nil => intro l; rfl
  | cons p ps ih =>
    intro l
    simp only [upsertAll, List.foldl_cons, List.map_cons] at ih ⊢
    rw [ih, keys_upsert]

theorem upsertAll_append (l : List (CString × Int)) (xs ys : List (CString × Int)) :
    upsertAll l (xs ++ ys) = upsertAll (upsertAll l xs) ys := by
  simp [upsertAll, List.foldl_append]

theorem lastValue_append_self (puts : List (CString × Int)) (k : CString) (v : Int) :
    lastValue k (puts ++ [(k, v)]) = some v := by
  simp [lastValue]

theorem lastValue_append_ne (puts : List (CString × Int)) {k k' : CString} (v : Int)
    (hne : k' ≠ k) : lastValue k' (puts ++ [(k, v)]) = lastValue k' puts := by
  simp [lastValue, List.find?_cons, Ne.symm hne]

theorem mem_upsert {k : CString} {v : Int} {l : List (CString × Int)}
    (hn : (l.map Prod.fst).Nodup) {x : CString × Int} (hx : x ∈ upsert k v l) :
    x = (k, v) ∨ (x ∈ l ∧ x.1 ≠ k) := by
  induction l with
  | nil => simp [upsert] at hx; exact Or.inl hx
  | cons p r ih =>
    simp only [List.map_cons, List.nodup_cons] at hn
    unfold upsert at hx
    by_cases h : k = p.1
    · simp only [h, if_true, List.mem_cons] at hx
      rcases hx with rfl | hx
      · exact Or.inl (by rw [h])
      · right
        refine ⟨List.mem_cons_of_mem _ hx, ?_⟩
        intro hxk
        exact hn.1 (by rw [← h, ← hxk]; exact List.mem_map_of_mem _ hx)
    · simp only [h, if_false, List.mem_cons] at hx
      rcases hx with rfl | hx
      · exact Or.inr ⟨List.mem_cons_self _ _, fun hc => h hc.symm⟩
      · rcases ih hn.2 hx with h1 | ⟨h1, h2⟩
        · exact Or.inl h1
        · exact Or.inr ⟨List.mem_cons_of_mem _ h1, h2⟩

theorem mem_upsert_self (k : CString) (v : Int) (l : List (CString × Int)) :
    (k, v) ∈ upsert k v l := by
  induction l with
  | nil => simp [upsert]
  | cons p r ih =>
    unfold upsert
    by_cases h : k = p.1
    · simp [h]
    · simp only [h, if_false, List.mem_cons]
      exact Or.inr ih

/-- Every binding of the association list built by a sequence of puts carries
the value of the most recent put of its key. -/
theorem upsertAll_lastValue (puts : List (CString × Int)) :
    ∀ x ∈ upsertAll [] puts, lastValue x.1 puts = some x.2 := by
  induction puts using List.reverseRecOn with
  | nil => intro x hx; simp [upsertAll] at hx
  | append_singleton ps p ih =>
    intro x hx
    rw [upsertAll_append] at hx
    have hn : ((upsertAll [] ps).map Prod.fst).Nodup := by
      rw [keys_upsertAll]
      exact (foldl_addKey _ [] List.nodup_nil).1
    have hx1 : x ∈ upsert p.1 p.2 (upsertAll [] ps) := by
      simpa [upsertAll] using hx
    rcases mem_upsert hn hx1 with rfl | ⟨h1, h2⟩
    · exact lastValue_append_self ps p.1 p.2
    · have := lastValue_append_ne ps p.2 h2
      rw [show ps ++ [p] = ps ++ [(p.1, p.2)] from rfl, this]
      exact ih x h1

theorem putAll_linked (puts : List (CString × Int)) :
    ∀ s : MapState, Linked s →
      ∃ s1, putAll s puts = some s1 ∧ Linked s1 ∧ view s1 = upsertAll (view s) puts := by
  induction puts with
  | nil => intro s h; exact ⟨s, rfl, h, rfl⟩
  | cons p ps ih =>
    intro s h
    obtain ⟨s1, h1, h2, h3⟩ := put_linked h p.1 p.2
    obtain ⟨s2, g1, g2, g3⟩ := ih s1 h2
    refine ⟨s2, ?_, g2, ?_⟩
    · simp only [putAll, h1]; exact g1
    · rw [g3, h3]; rfl

theorem reachable_putAll (puts : List (CString × Int)) :
    ∀ s s1 : MapState, MapReachable s → putAll s puts = some s1 → MapReachable s1 := by
  induction puts with
  | nil => intro s s1 h hp; simp [putAll] at hp; exact hp ▸ h
  | cons p ps ih =>
    intro s s1 h hp
    unfold putAll at hp
    split at hp
    · cases hp
    · next s2 h2 => exact ih s2 s1 (MapReachable.put (some p.1) p.2 h h2) hp

theorem view_new : view Map_new = [] := rfl

theorem nextN_ptr (heap : List MapEntry)
    (hn : ∀ i (h : i < heap.length), heap[i].__next = ptr heap.length (i + 1)) :
    ∀ m i, nextN heap m ⟨ptr heap.length i⟩ =
        some ((List.range' i m).map (ptr heap.length), ⟨ptr heap.length (i + m)⟩) := by
  intro m
  induction m with
  | zero => intro i; rfl
  | succ m ih =>
    intro i
    by_cases hi : i < heap.length
    · simp only [nextN, __MapIter_next, ptr_lt hi, List.getElem?_eq_getElem hi]
      rw [hn i hi, ih (i + 1)]
      simp [List.range'_succ, Nat.add_assoc, Nat.add_comm 1 m, ptr_lt hi]
    · have hge := Nat.le_of_not_lt hi
      simp only [nextN, __MapIter_next, ptr_ge hge]
      have := ih (i + 1)
      rw [ptr_ge (Nat.le_succ_of_le hge)] at this
      rw [this]
      simp [List.range'_succ, Nat.add_assoc, Nat.add_comm 1 m, ptr_ge hge]

theorem putAll_demoPuts : putAll Map_new demoPuts = some demoStore := by decide

theorem reachable_demoStore : MapReachable demoStore :=
  reachable_putAll demoPuts Map_new demoStore MapReachable.new putAll_demoPuts

theorem reachable_demoStoreZ : MapReachable demoStoreZ :=
  MapReachable.put (some (cstr "z")) 8 MapReachable.new (by decide)

/-- C2: in every store reached from `Map_new` by `put` calls, for every
non-null key `k`, value `v` and default `d`, the call `put(k, v)` returns and
a following `get(k, d)` returns `v`, for a new key and for a key already
present alike. -/
theorem put_then_get (s : MapState) (k : CString) (v d : Int) (hr : MapReachable s) :
    ∃ s1, __Map_put s (some k) v = some s1 ∧ __Map_get s1 (some k) d = some v := by
  obtain ⟨s1, h1, h2, h3⟩ := put_linked hr.linked k v
  refine ⟨s1, h1, ?_⟩
  rw [get_linked h2, h3, assocGet_upsert_self]

theorem put_then_get_witness :
    MapReachable demoStoreZ ∧
    ∃ s1, __Map_put demoStoreZ (some (cstr "z")) 1 = some s1 ∧
      __Map_get s1 (some (cstr "z")) 42 = some 1 :=
  ⟨reachable_demoStoreZ, put_then_get demoStoreZ (cstr "z") 1 42 reachable_demoStoreZ⟩

/-- C4: in every reachable store, for all keys `k` and `k'` with `k' ≠ k`
(null keys included), every value `v` and default `d`, the call `put(k, v)`
returns and `get(k', d)` returns the same integer after it as before it. -/
theorem put_frame (s : MapState) (k k' : Option CString) (v d : Int)
    (hr : MapReachable s) (hne : k' ≠ k) :
    ∃ s1 r, __Map_put s k v = some s1 ∧ __Map_get s k' d = some r ∧
      __Map_get s1 k' d = some r := by
  cases k with
  | none =>
    cases k' with
    | none => exact absurd rfl hne
    | some k1 => exact ⟨s, _, rfl, get_linked hr.linked k1 d, get_linked hr.linked k1 d⟩
  | some k0 =>
    obtain ⟨s1, h1, h2, h3⟩ := put_linked hr.linked k0 v
    cases k' with
    | none => exact ⟨s1, d, h1, rfl, rfl⟩
    | some k1 =>
      refine ⟨s1, _, h1, get_linked hr.linked k1 d, ?_⟩
      rw [get_linked h2, h3, assocGet_upsert_ne (fun h => hne (by rw [h]))]

theorem put_frame_witness :
    MapReachable demoStore ∧ some (cstr "z") ≠ some (cstr "y") ∧
    ∃ s1 r, __Map_put demoStore (some (cstr "y")) 7 = some s1 ∧
      __Map_get demoStore (some (cstr "z")) 42 = some r ∧
      __Map_get s1 (some (cstr "z")) 42 = some r :=
  ⟨reachable_demoStore, by decide,
    put_frame demoStore (some (cstr "y")) (some (cstr "z")) 7 42 reachable_demoStore
      (by decide)⟩

/-- C5: for every sequence of `put` calls with non-null keys on a new store,
all calls return and the head-to-tail enumeration of `dump` lists the distinct
keys in the order of their first put, each with the value of its most recent
put; a further `put` of a key already present leaves the order of keys as it
was. -/
theorem dump_insertion_order (puts : List (CString × Int)) :
    ∃ s c l, putAll Map_new puts = some s ∧ __Map_dump s = some (c, l) ∧
      l.map Prod.fst = distinctInOrder (puts.map Prod.fst) ∧
      (∀ p ∈ l, lastValue p.1 puts = some p.2) ∧
      ∀ k v, k ∈ puts.map Prod.fst →
        ∃ s1 c1 l1, __Map_put s (some k) v = some s1 ∧ __Map_dump s1 = some (c1, l1) ∧
          l1.map Prod.fst = l.map Prod.fst ∧ (k, v) ∈ l1 := by
  obtain ⟨s, h1, h2, h3⟩ := putAll_linked puts Map_new linked_new
  rw [view_new] at h3
  have hkeys : (view s).map Prod.fst = distinctInOrder (puts.map Prod.fst) := by
    rw [h3, keys_upsertAll]; rfl
  refine ⟨s, _, view s, h1, dump_linked h2, hkeys, ?_, ?_⟩
  · rw [h3]; exact upsertAll_lastValue puts
  · intro k v hk
    obtain ⟨s1, g1, g2, g3⟩ := put_linked h2 k v
    refine ⟨s1, _, view s1, g1, dump_linked g2, ?_, ?_⟩
    · rw [g3, keys_upsert, hkeys, addKey, if_pos ((mem_distinctInOrder _ k).2 hk)]
    · rw [g3]; exact mem_upsert_self k v _

theorem dump_insertion_order_witness :
    ∃ s c l, putAll Map_new [(cstr "A", 1), (cstr "B", 2), (cstr "C", 3), (cstr "B", 9)] =
        some s ∧ __Map_dump s = some (c, l) ∧
      l = [(cstr "A", 1), (cstr "B", 9), (cstr "C", 3)] := by
  obtain ⟨s, c, l, h1, h2, _⟩ :=
    dump_insertion_order [(cstr "A", 1), (cstr "B", 2), (cstr "C", 3), (cstr "B", 9)]
  refine ⟨s, c, l, h1, h2, ?_⟩
  have e1 : putAll Map_new [(cstr "A", 1), (cstr "B", 2), (cstr "C", 3), (cstr "B", 9)] =
      some ⟨[⟨cstr "A", 1, none, some 1⟩, ⟨cstr "B", 9, some 0, some 2⟩,
        ⟨cstr "C", 3, some 1, none⟩], ⟨some 0, some 2, 3⟩⟩ := by decide
  rw [e1] at h1
  cases h1
  have e2 : __Map_dump ⟨[⟨cstr "A", 1, none, some 1⟩, ⟨cstr "B", 9, some 0, some 2⟩,
        ⟨cstr "C", 3, some 1, none⟩], ⟨some 0, some 2, 3⟩⟩ =
      some (3, [(cstr "A", 1), (cstr "B", 9), (cstr "C", 3)]) := by decide
  rw [e2] at h2
  cases h2
  rfl

/-- C6: in every reachable store, with `n` entries, an iterator from `iter()`
advanced with no `put` in between returns on its first `n` calls of `next`
the pointers to the store's entries in head-to-tail order (the entries that
`dump` lists, in that order) and returns `NULL` on call `n + 1`. -/
theorem iter_yields_entries (s : MapState) (hr : MapReachable s) :
    ∃ (l : List (CString × Int)) (ps : List Nat) (it : MapIter), __Map_dump s = some (__Map_size s, l) ∧
      (l.length : Int) = __Map_size s ∧
      nextN s.heap (l.length + 1) (__Map_iter s) = some (ps.map some ++ [none], it) ∧
      ps.map (readEntry s.heap) = l.map some := by
  have h := hr.linked
  refine ⟨view s, List.range s.heap.length, ⟨none⟩, dump_linked h, ?_, ?_, ?_⟩
  · simp [view, __Map_size, h.count]
  · have := nextN_ptr s.heap h.next (s.heap.length + 1) 0
    simp only [__Map_iter, h.head, view, List.length_map]
    rw [this, ← List.range_eq_range', List.range_succ, List.map_append]
    simp only [List.map_cons, List.map_nil, Nat.zero_add]
    rw [ptr_ge (Nat.le_succ _), ptr_ge (Nat.le_refl _)]
    congr 3
    apply List.map_congr_left
    intro i hi
    exact ptr_lt (List.mem_range.1 hi)
  · apply List.ext_getElem (by simp [view])
    intro i h1 h2
    simp only [List.length_map, List.length_range] at h1
    simp [readEntry, view, kv, List.getElem?_eq_getElem h1]

theorem iter_yields_entries_witness :
    MapReachable demoStore ∧
    nextN demoStore.heap 5 (__Map_iter demoStore) =
      some ([some 0, some 1, some 2, some 3, none], ⟨none⟩) ∧
    [0, 1, 2, 3].map (readEntry demoStore.heap) = demoLines.map some ∧
    ∃ (l : List (CString × Int)) (ps : List Nat) (it : MapIter),
      __Map_dump demoStore = some (__Map_size demoStore, l) ∧
      (l.length : Int) = __Map_size demoStore ∧
      nextN demoStore.heap (l.length + 1) (__Map_iter demoStore) =
        some (ps.map some ++ [none], it) ∧
      ps.map (readEntry demoStore.heap) = l.map some :=
  ⟨reachable_demoStore, by decide, by decide,
    iter_yields_entries demoStore reachable_demoStore⟩

/-- C8: after any sequence of `put` calls with non-null keys on a new store,
`size()` is the number of distinct keys that were put, and the entries hold
each of these keys exactly once. -/
theorem size_distinct (puts : List (CString × Int)) :
    ∃ s l, putAll Map_new puts = some s ∧
      __Map_size s = ((puts.map Prod.fst).toFinset.card : Int) ∧
      __Map_dump s = some (__Map_size s, l) ∧
      (l.length : Int) = __Map_size s ∧
      (l.map Prod.fst).Nodup ∧ ∀ k, k ∈ l.map Prod.fst ↔ k ∈ puts.map Prod.fst := by
  obtain ⟨s, h1, h2, h3⟩ := putAll_linked puts Map_new linked_new
  rw [view_new] at h3
  have hkeys : (view s).map Prod.fst = distinctInOrder (puts.map Prod.fst) := by
    rw [h3, keys_upsertAll]; rfl
  have hlen : s.heap.length = (puts.map Prod.fst).toFinset.card := by
    rw [← length_distinctInOrder, ← hkeys]
    simp [view]
  refine ⟨s, view s, h1, ?_, dump_linked h2, ?_, ?_, ?_⟩
  · rw [__Map_size, h2.count, hlen]
  · simp [view, __Map_size, h2.count]
  · rw [hkeys]; exact nodup_distinctInOrder _
  · intro k; rw [hkeys]; exact mem_distinctInOrder _ k

theorem size_distinct_witness :
    (demoPuts.map Prod.fst).toFinset.card = 4 ∧
    ∃ s l, putAll Map_new demoPuts = some s ∧
      __Map_size s = ((demoPuts.map Prod.fst).toFinset.card : Int) ∧
      __Map_dump s = some (__Map_size s, l) ∧
      (l.length : Int) = __Map_size s ∧
      (l.map Prod.fst).Nodup ∧ ∀ k, k ∈ l.map Prod.fst ↔ k ∈ demoPuts.map Prod.fst :=
  ⟨by decide, size_distinct demoPuts⟩

/-- C10: in every reachable store, for every key `k` that none of the
store's entries carries and every integer `d`, `get(k, d)` returns `d`. -/
theorem get_missing (s : MapState) (k : CString) (d : Int) (hr : MapReachable s)
    (hk : ∃ c l, __Map_dump s = some (c, l) ∧ k ∉ l.map Prod.fst) :
    __Map_get s (some k) d = some d := by
  obtain ⟨c, l, h1, h2⟩ := hk
  rw [dump_linked hr.linked] at h1
  cases h1
  rw [get_linked hr.linked, assocGet_of_not_mem d h2]

theorem get_missing_witness :
    MapReachable demoStore ∧
    (∃ c l, __Map_dump demoStore = some (c, l) ∧ cstr "x" ∉ l.map Prod.fst) ∧
    __Map_get demoStore (some (cstr "x")) 42 = some 42 :=
  ⟨reachable_demoStore, ⟨4, demoLines, by decide, by decide⟩,
    get_missing demoStore (cstr "x") 42 reachable_demoStore
      ⟨4, demoLines, by decide, by decide⟩⟩

/-! ## Hash table: `free_table` -/

theorem bucket_clearTo (n : Nat) (t : Table) (i : Nat) :
    bucket ((List.range n).foldl (fun acc j => acc.set j []) t) i =
      if i < n then [] else bucket t i := by
  induction n with
  | zero => simp
  | succ n ih =>
    rw [List.range_succ, List.foldl_append]
    simp only [List.foldl_cons, List.foldl_nil]
    by_cases hin : n = i
    · subst hin
      simp only [Nat.lt_succ_self, if_true]
      by_cases hlt : n < ((List.range n).foldl (fun acc j => acc.set j []) t).length
      · exact bucket_set_self hlt []
      · rw [bucket_set_of_le (Nat.le_of_not_lt hlt)]
        simp [bucket, List.getElem?_eq_none (Nat.le_of_not_lt hlt)]
    · rw [bucket_set_ne hin, ih]
      by_cases h1 : i < n
      · simp [h1, Nat.lt_succ_of_lt h1]
      · have h2 : ¬ i < n + 1 := by omega
        simp [h1, h2]

theorem length_free_table (t : Table) : (free_table t).length = t.length := by
  unfold free_table
  generalize List.range HASHSIZE = l
  induction l generalizing t with
  | nil => rfl
  | cons j js ih => rw [List.foldl_cons, ih]; simp

/-- C11: for every table state, after `free_table` each of the `HASHSIZE`
buckets is empty and `lookup(k)` returns not-found for every key `k`; a table
of `HASHSIZE` buckets is back in its initial state. -/
theorem free_table_clears (t : Table) (k : CString) :
    (∀ i, i < HASHSIZE → bucket (free_table t) i = []) ∧
    lookup (free_table t) k = none ∧
    (t.length = HASHSIZE → free_table t = hashtab0) := by
  have hb : ∀ i, i < HASHSIZE → bucket (free_table t) i = [] := by
    intro i hi
    unfold free_table
    rw [bucket_clearTo, if_pos hi]
  refine ⟨hb, ?_, ?_⟩
  · unfold lookup
    rw [hb _ (hash_lt k)]
    rfl
  · intro hlen
    apply List.ext_getElem
    · rw [length_free_table, hlen, length_hashtab0]
    · intro i h1 h2
      have hi : i < HASHSIZE := by rw [length_hashtab0] at h2; exact h2
      have := hb i hi
      rw [bucket_eq_getElem h1] at this
      rw [this]
      simp [hashtab0]

theorem free_table_clears_witness :
    lookup (installAll hashtab0 demoCalls5) (cstr "YES") = some ⟨cstr "YES", some (cstr "42")⟩ ∧
    (∀ i, i < HASHSIZE → bucket (free_table (installAll hashtab0 demoCalls5)) i = []) ∧
    lookup (free_table (installAll hashtab0 demoCalls5)) (cstr "YES") = none ∧
    free_table (installAll hashtab0 demoCalls5) = hashtab0 :=
  ⟨by decide, (free_table_clears _ (cstr "YES")).1, (free_table_clears _ (cstr "YES")).2.1,
    (free_table_clears _ (cstr "YES")).2.2
      (reachable_installAll Reachable.init demoCalls5).length_eq⟩

/-! ## Store iterator: exhaustion -/

theorem nextN_exhausted (heap : List MapEntry) (n : Nat) :
    nextN heap n ⟨none⟩ = some (List.replicate n none, ⟨none⟩) := by
  induction n with
  | zero => rfl
  | succ n ih => simp [nextN, __MapIter_next, ih, List.replicate_succ]

/-- C12: once a call of `next` has returned `NULL`, the iterator is unchanged
by that call and by every later call, and every later call returns `NULL`,
whatever the heap holds by then; an iterator created on an empty store is
exhausted from its first call. -/
theorem next_exhausted_stays (heap : List MapEntry) (it it1 : MapIter)
    (h : __MapIter_next heap it = some (none, it1)) :
    it1 = it ∧
    (∀ heap2 : List MapEntry, __MapIter_next heap2 it1 = some (none, it1)) ∧
    (∀ (heap2 : List MapEntry) (n : Nat),
      nextN heap2 n it1 = some (List.replicate n none, it1)) ∧
    __MapIter_next heap (__Map_iter Map_new) = some (none, __Map_iter Map_new) := by
  have hcur : it.__current = none ∧ it1 = it := by
    unfold __MapIter_next at h
    cases hc : it.__current with
    | none =>
      rw [hc] at h
      simp only [Option.some.injEq, Prod.mk.injEq, true_and] at h
      exact ⟨rfl, h.symm⟩
    | some cur =>
      rw [hc] at h
      simp only at h
      cases hg : heap[cur]? with
      | none => rw [hg] at h; cases h
      | some e => rw [hg] at h; simp at h
  obtain ⟨hc, rfl⟩ := hcur
  have hit : it1 = ⟨none⟩ := by cases it1; simp_all
  subst hit
  exact ⟨rfl, fun _ => rfl, fun heap2 n => nextN_exhausted heap2 n, rfl⟩

theorem next_exhausted_stays_witness :
    __MapIter_next Map_new.heap (__Map_iter Map_new) = some (none, __Map_iter Map_new) ∧
    (∀ heap2 : List MapEntry,
      __MapIter_next heap2 (__Map_iter Map_new) = some (none, __Map_iter Map_new)) ∧
    (∀ (heap2 : List MapEntry) (n : Nat),
      nextN heap2 n (__Map_iter Map_new) = some (List.replicate n none, __Map_iter Map_new)) ∧
    nextN demoStore.heap 3 (__Map_iter Map_new) = some ([none, none, none], ⟨none⟩) :=
  ⟨rfl,
    (next_exhausted_stays Map_new.heap (__Map_iter Map_new) (__Map_iter Map_new) rfl).2.1,
    (next_exhausted_stays Map_new.heap (__Map_iter Map_new) (__Map_iter Map_new) rfl).2.2.1,
    by decide⟩

/-! ## Hash function: value -/

theorem hashLoop_lt {h : Nat} (hh : h < 2 ^ 32) (s : CString) : hashLoop h s < 2 ^ 32 := by
  induction s generalizing h with
  | nil => exact hh
  | cons c s ih => exact ih (Nat.mod_lt _ (by decide))

theorem hashLoop_eq (s : CString) :
    ∀ h : Nat, h < 2 ^ 32 → hashLoop h s = (h + byteSum s) % 2 ^ 32 := by
  induction s with
  | nil =>
    intro h hh
    simp only [hashLoop, byteSum, List.map_nil, List.sum_nil, Nat.add_zero]
    exact (Nat.mod_eq_of_lt hh).symm
  | cons c s ih =>
    intro h _
    rw [hashLoop, ih _ (Nat.mod_lt _ (by decide))]
    simp only [byteSum, List.map_cons, List.sum_cons]
    rw [Nat.add_mod, Nat.mod_mod, ← Nat.add_mod, Nat.add_assoc]

/-- The value of `hash`: the byte sum, wrapped to 32 bits, modulo `HASHSIZE`. -/
theorem hash_eq_wrapped (s : CString) : hash s = byteSum s % 2 ^ 32 % HASHSIZE := by
  unfold hash
  rw [hashLoop_eq s 0 (by decide), Nat.zero_add]

theorem byteSum_replicate (n c : Nat) : byteSum (List.replicate n c) = n * (c % 256) := by
  simp [byteSum, List.map_replicate, List.sum_replicate]

theorem byteSum_le (s : CString) : byteSum s ≤ 255 * s.length := by
  induction s with
  | nil => simp [byteSum]
  | cons c s ih =>
    simp only [byteSum, List.map_cons, List.sum_cons, List.length_cons] at ih ⊢
    have : c % 256 < 256 := Nat.mod_lt _ (by decide)
    omega

theorem wellFormed_replicate (n : Nat) : wellFormed (List.replicate n 255) = true := by
  simp [wellFormed, List.all_eq_true]

/-- C13, as amended: for every string `s`, `hash(s)` is the sum of the byte
codes of `s` reduced modulo 2^32, the range of the `unsigned` accumulator,
and then modulo `HASHSIZE`; it is the sum modulo `HASHSIZE` whenever the sum
is below 2^32, as it is for every string of at most 16843009 bytes. -/
theorem hash_byteSum (s : CString) :
    hash s = byteSum s % 2 ^ 32 % HASHSIZE ∧
    (byteSum s < 2 ^ 32 → hash s = byteSum s % HASHSIZE) ∧
    (s.length ≤ 16843009 → hash s = byteSum s % HASHSIZE) := by
  refine ⟨hash_eq_wrapped s, fun h => ?_, fun h => ?_⟩
  · rw [hash_eq_wrapped, Nat.mod_eq_of_lt h]
  · have := byteSum_le s
    have h2 : byteSum s < 2 ^ 32 := by
      have : 255 * s.length ≤ 255 * 16843009 := Nat.mul_le_mul_left _ h
      have e : 255 * 16843009 < 2 ^ 32 := by decide
      omega
    rw [hash_eq_wrapped, Nat.mod_eq_of_lt h2]

theorem hash_byteSum_witness :
    byteSum (cstr "YES") = 241 ∧ hash (cstr "YES") = 41 ∧
    hash (cstr "YES") = byteSum (cstr "YES") % HASHSIZE :=
  ⟨by decide, by decide, (hash_byteSum (cstr "YES")).2.1 (by decide)⟩

/-- The string of 16843010 bytes of value 255 has byte sum 4294967550, above
2^32: `hash` returns 54 while the sum modulo 100 is 50. -/
theorem byteSum_overflow_hash :
    wellFormed (List.replicate 16843010 255) = true ∧
    byteSum (List.replicate 16843010 255) = 4294967550 ∧
    hash (List.replicate 16843010 255) = 54 ∧
    byteSum (List.replicate 16843010 255) % HASHSIZE = 50 ∧
    hash (List.replicate 16843010 255) ≠ byteSum (List.replicate 16843010 255) % HASHSIZE := by
  have hs : byteSum (List.replicate 16843010 255) = 4294967550 := by
    rw [byteSum_replicate]
  have hh : hash (List.replicate 16843010 255) = 54 := by
    rw [hash_eq_wrapped, hs]; decide
  refine ⟨wellFormed_replicate _, hs, hh, by rw [hs]; decide, ?_⟩
  rw [hh, hs]
  decide

/-! ## Hash table: allocation failure -/

/-- Whenever an allocation of `install` fails, `install` returns `NULL`. -/
theorem install_reports_failure (a : Alloc) (t : Table) (k d : CString)
    (h : allocFails a t k = true) : (install a t k d).1 = none := by
  unfold allocFails at h
  unfold install
  cases hl : lookup t k with
  | none =>
    rw [hl] at h
    simp only
    cases hn : a.node with
    | false => simp
    | true =>
      cases hm : a.name with
      | false => simp [strdup]
      | true =>
        cases hd : a.defn with
        | false => simp [strdup, retNode]
        | true => simp [hn, hm, hd] at h
  | some e =>
    rw [hl] at h
    cases hd : a.defn with
    | false => simp [strdup, retNode]
    | true => simp [hd] at h

/-- When the node or the copy of the name cannot be allocated for a new key,
the table is left as it was. -/
theorem install_early_failure_unchanged (a : Alloc) (t : Table) (k d : CString)
    (hl : lookup t k = none) (h : a.node = false ∨ a.name = false) :
    (install a t k d).2 = t := by
  unfold install
  simp only [hl]
  cases hn : a.node with
  | false => simp
  | true =>
    rcases h with h | h
    · rw [hn] at h; cases h
    · simp [strdup, h]

/-- C14, at the failing inputs: when only the copy of the definition fails,
`install` returns `NULL` but the table has changed. For the new key `YES` on
the empty table `lookup` then finds a node without definition where it found
nothing before; for `YES` already bound to `1` the old definition is gone and
`lookup` finds the node without definition. -/
theorem install_defn_failure :
    allocFails allocNoDefn hashtab0 (cstr "YES") = true ∧
    (install allocNoDefn hashtab0 (cstr "YES") (cstr "1")).1 = none ∧
    lookup hashtab0 (cstr "YES") = none ∧
    lookup (install allocNoDefn hashtab0 (cstr "YES") (cstr "1")).2 (cstr "YES") =
      some ⟨cstr "YES", none⟩ ∧
    allocFails allocNoDefn (installAll hashtab0 [call "YES" "1"]) (cstr "YES") = true ∧
    (install allocNoDefn (installAll hashtab0 [call "YES" "1"]) (cstr "YES") (cstr "42")).1 =
      none ∧
    lookup (installAll hashtab0 [call "YES" "1"]) (cstr "YES") =
      some ⟨cstr "YES", some (cstr "1")⟩ ∧
    lookup (install allocNoDefn (installAll hashtab0 [call "YES" "1"]) (cstr "YES")
      (cstr "42")).2 (cstr "YES") = some ⟨cstr "YES", none⟩ := by
  decide

/-! ## Null and empty keys -/

/-- C15, as amended: `put` with a null key is a silent no-op: for every store
and value the call returns and the store after it is the store before it, so
`dump` lists the same entries in the same order with the same values and
`size` is the same. -/
theorem put_null_noop (s : MapState) (v : Int) :
    ∃ s1, __Map_put s none v = some s1 ∧ s1 = s ∧
      __Map_dump s1 = __Map_dump s ∧ __Map_size s1 = __Map_size s :=
  ⟨s, rfl, rfl, rfl, rfl⟩

/-- On the new store, `put("", 7)` is not a no-op: it adds the entry `("", 7)`
and `size` goes from 0 to 1. -/
theorem put_empty_key_adds :
    wellFormed (cstr "") = true ∧
    __Map_dump Map_new = some (0, []) ∧ __Map_size Map_new = 0 ∧
    __Map_put Map_new (some (cstr "")) 7 = some demoStoreEmptyKey ∧
    __Map_dump demoStoreEmptyKey = some (1, [(cstr "", 7)]) ∧
    __Map_size demoStoreEmptyKey = 1 ∧
    ¬ (∃ s1, __Map_put Map_new (some (cstr "")) 7 = some s1 ∧
        __Map_dump s1 = __Map_dump Map_new ∧ __Map_size s1 = __Map_size Map_new) := by
  refine ⟨by decide, by decide, by decide, by decide, by decide, by decide, ?_⟩
  rintro ⟨s1, h1, _, h3⟩
  have e : __Map_put Map_new (some (cstr "")) 7 = some demoStoreEmptyKey := by decide
  rw [e] at h1
  cases h1
  revert h3
  decide

/-- C16, as amended: `install` treats the empty key like any other key: on
every reachable table a successful `install("", d)` leaves in bucket
`hash("") = 0` a node of name `""` and definition `d`, which `lookup("")`
returns, and `lookup` of every other key is unchanged. -/
theorem install_empty_key (a : Alloc) (t : Table) (d : CString)
    (hr : Reachable t) (hs : (install a t (cstr "") d).1 ≠ none) :
    hash (cstr "") = 0 ∧
    lookup (install a t (cstr "") d).2 (cstr "") = some ⟨cstr "", some d⟩ ∧
    (⟨cstr "", some d⟩ : nlist) ∈ bucket (install a t (cstr "") d).2 0 ∧
    ∀ k, k ≠ cstr "" → lookup (install a t (cstr "") d).2 k = lookup t k := by
  have h1 := lookup_install_self hr.length_eq hs
  refine ⟨by decide, h1, ?_, fun k hk => lookup_install_ne a t d hk⟩
  have := lookupChain_mem h1
  simpa [show hash (cstr "") = 0 by decide] using this

theorem install_empty_key_witness :
    Reachable hashtab0 ∧ (install allocOk hashtab0 (cstr "") (cstr "1")).1 ≠ none ∧
    hash (cstr "") = 0 ∧
    lookup (install allocOk hashtab0 (cstr "") (cstr "1")).2 (cstr "") =
      some ⟨cstr "", some (cstr "1")⟩ :=
  ⟨Reachable.init, by decide,
    (install_empty_key allocOk hashtab0 (cstr "1") Reachable.init (by decide)).1,
    (install_empty_key allocOk hashtab0 (cstr "1") Reachable.init (by decide)).2.1⟩

/-- On the empty table, `install("", "1")` succeeds and is not a no-op: the
table then holds one node and `lookup("")` finds it. -/
theorem empty_key_install_adds :
    wellFormed (cstr "") = true ∧
    (install allocOk hashtab0 (cstr "") (cstr "1")).1 ≠ none ∧
    entries hashtab0 = [] ∧
    entries (install allocOk hashtab0 (cstr "") (cstr "1")).2 =
      [⟨cstr "", some (cstr "1")⟩] ∧
    lookup (install allocOk hashtab0 (cstr "") (cstr "1")).2 (cstr "") ≠ none := by
  decide

theorem reachable_demoStoreEmptyKey : MapReachable demoStoreEmptyKey :=
  MapReachable.put (some (cstr "")) 7 MapReachable.new (by decide)

/-- C17, as amended: in every reachable store and for every integer `d`,
`get` with a null key returns `d`, and `get` with the empty key `""` returns
`d` when no entry of the store has the key `""`. -/
theorem get_null_or_empty (s : MapState) (d : Int) (hr : MapReachable s) :
    __Map_get s none d = some d ∧
    ((∃ c l, __Map_dump s = some (c, l) ∧ cstr "" ∉ l.map Prod.fst) →
      __Map_get s (some (cstr "")) d = some d) := by
  refine ⟨rfl, ?_⟩
  rintro ⟨c, l, h1, h2⟩
  rw [dump_linked hr.linked] at h1
  cases h1
  rw [get_linked hr.linked, assocGet_of_not_mem d h2]

theorem get_null_or_empty_witness :
    MapReachable demoStore ∧
    (∃ c l, __Map_dump demoStore = some (c, l) ∧ cstr "" ∉ l.map Prod.fst) ∧
    __Map_get demoStore none 42 = some 42 ∧
    __Map_get demoStore (some (cstr "")) 42 = some 42 :=
  ⟨reachable_demoStore, ⟨4, demoLines, by decide, by decide⟩,
    (get_null_or_empty demoStore 42 reachable_demoStore).1,
    (get_null_or_empty demoStore 42 reachable_demoStore).2
      ⟨4, demoLines, by decide, by decide⟩⟩

/-- The store reached by `put("", 7)` answers `get("", 42)` with 7, not with
the default 42. -/
theorem get_empty_key_found :
    MapReachable demoStoreEmptyKey ∧
    __Map_get demoStoreEmptyKey (some (cstr "")) 42 = some 7 ∧
    __Map_get demoStoreEmptyKey (some (cstr "")) 42 ≠ some 42 :=
  ⟨reachable_demoStoreEmptyKey, by decide, by decide⟩

/-! ## Hash function: purity -/

theorem hashExec_spec (mem : List Nat) :
    ∀ (k : CString) (fuel p hashval : Nat) (rest : List Nat), wellFormed k = true →
      mem.drop p = k ++ 0 :: rest → k.length < fuel →
      hashExec mem fuel p hashval = some (hashLoop hashval k % HASHSIZE) := by
  intro k
  induction k with
  | nil =>
    intro fuel p hashval rest _ hd hf
    cases fuel with
    | zero => omega
    | succ fuel =>
      have hget : mem[p]? = some 0 := by
        have := congrArg List.head? hd
        simpa [List.head?_drop] using this
      simp [hashExec, hget, hashLoop]
  | cons c k ih =>
    intro fuel p hashval rest hw hd hf
    cases fuel with
    | zero => simp at hf
    | succ fuel =>
      have hget : mem[p]? = some c := by
        have := congrArg List.head? hd
        simpa [List.head?_drop] using this
      have htail : mem.drop (p + 1) = k ++ 0 :: rest := by
        have := congrArg List.tail hd
        simpa [List.tail_drop] using this
      simp only [wellFormed, List.all_cons, Bool.and_eq_true, decide_eq_true_eq] at hw
      have hc : ¬ c % 256 = 0 := by omega
      have hk : wellFormed k = true := by simpa [wellFormed] using hw.2
      simp only [hashExec, hget, hc, if_false, hashLoop]
      exact ih fuel (p + 1) _ rest hk htail (by simpa using hf)

theorem hashAt_spec (env : HashEnv) (p : Nat) (k : CString) (h : holdsString env.mem p k) :
    hashAt env p = some (hash k, env) := by
  obtain ⟨hw, rest, hd⟩ := h
  have hlen : k.length < env.mem.length + 1 := by
    have := congrArg List.length hd
    simp only [List.length_drop, List.length_append, List.length_cons] at this
    omega
  unfold hashAt
  rw [hashExec_spec env.mem k _ p 0 rest hw hd hlen]
  rfl

/-- C18: a call `hash(k)` returns an index that depends on the bytes of the
string `k` alone: two calls on the same string return the same bucket index
wherever the string lies in memory, whatever the other bytes of memory and
the table hold at either call, so whatever `install`, `lookup` and
`free_table` calls are made between them; the call leaves memory and table
as they are, and its index is the one that `lookup` and `install` use. -/
theorem hash_pure (k : CString) (env1 env2 : HashEnv) (p1 p2 : Nat)
    (h1 : holdsString env1.mem p1 k) (h2 : holdsString env2.mem p2 k) :
    ∃ i, hashAt env1 p1 = some (i, env1) ∧ hashAt env2 p2 = some (i, env2) ∧
      i = hash k ∧ i < HASHSIZE ∧
      ∀ ops : List TableOp,
        hashAt { mem := env2.mem, hashtab := applyOps env1.hashtab ops } p2 =
          some (i, { mem := env2.mem, hashtab := applyOps env1.hashtab ops }) :=
  ⟨hash k, hashAt_spec env1 p1 k h1, hashAt_spec env2 p2 k h2, rfl, hash_lt k,
    fun ops => hashAt_spec { mem := env2.mem, hashtab := applyOps env1.hashtab ops } p2 k h2⟩

theorem hash_pure_witness :
    holdsString (cstr "YES" ++ [0, 7]) 0 (cstr "YES") ∧
    holdsString ([1, 2, 0] ++ cstr "YES" ++ [0]) 3 (cstr "YES") ∧
    hashAt ⟨cstr "YES" ++ [0, 7], hashtab0⟩ 0 = some (41, ⟨cstr "YES" ++ [0, 7], hashtab0⟩) ∧
    ∃ i, hashAt ⟨cstr "YES" ++ [0, 7], hashtab0⟩ 0 =
        some (i, ⟨cstr "YES" ++ [0, 7], hashtab0⟩) ∧
      hashAt ⟨[1, 2, 0] ++ cstr "YES" ++ [0], installAll hashtab0 demoCalls5⟩ 3 =
        some (i, ⟨[1, 2, 0] ++ cstr "YES" ++ [0], installAll hashtab0 demoCalls5⟩) ∧
      i = hash (cstr "YES") ∧ i < HASHSIZE ∧
      ∀ ops : List TableOp,
        hashAt { mem := [1, 2, 0] ++ cstr "YES" ++ [0], hashtab := applyOps hashtab0 ops } 3 =
          some (i, { mem := [1, 2, 0] ++ cstr "YES" ++ [0],
                     hashtab := applyOps hashtab0 ops }) :=
  ⟨⟨by decide, [7], by decide⟩, ⟨by decide, [], by decide⟩, by decide,
    hash_pure (cstr "YES") ⟨cstr "YES" ++ [0, 7], hashtab0⟩
      ⟨[1, 2, 0] ++ cstr "YES" ++ [0], installAll hashtab0 demoCalls5⟩ 0 3
      ⟨by decide, [7], by decide⟩ ⟨by decide, [], by decide⟩⟩

/-! ## `sumseries` -/

theorem wrapInt_of_range {x : Int} (h1 : -2 ^ 31 ≤ x) (h2 : x < 2 ^ 31) : wrapInt x = x := by
  unfold wrapInt
  omega

theorem sumseries_nat (m : Nat) :
    1 ≤ m → m ≤ 100 → ∀ d : Int, 2 * sumseries (m : Int) d = (m : Int) * ((m : Int) + 1) := by
  induction m with
  | zero => intro h; omega
  | succ m ih =>
    intro _ h2 d
    rw [sumseries]
    by_cases hm : m = 0
    · subst hm
      simp
    · have hm1 : 1 ≤ m := Nat.pos_of_ne_zero hm
      have ih1 := ih hm1 (by omega) (wrapInt (d + 1))
      have e1 : ¬ ((m + 1 : Nat) : Int) < 1 := by omega
      have e2 : ¬ ((m + 1 : Nat) : Int) > 100 := by omega
      have e3 : ¬ ((m + 1 : Nat) : Int) = 1 := by omega
      have e4 : ((m + 1 : Nat) : Int) - 1 = (m : Int) := by omega
      simp only [e1, e2, e3, if_false, e4]
      have hb : (m : Int) * ((m : Int) + 1) ≤ 100 * 101 := by
        have : (m : Int) ≤ 100 := by omega
        have : (0 : Int) ≤ m := by omega
        nlinarith
      have hpos : (0 : Int) ≤ (m : Int) * ((m : Int) + 1) := by
        have : (0 : Int) ≤ m := by omega
        nlinarith
      rw [wrapInt_of_range (by omega) (by omega)]
      push_cast
      linarith

/-- C19: `sumseries(n, depth)` returns for every `n` and every `depth` (the
function is total): it returns 0 when `n < 1`, -1 when `n > 100`, and
`1 + 2 + ... + n = n (n + 1) / 2` when `1 ≤ n ≤ 100`. -/
theorem sumseries_spec (n depth : Int) :
    (n < 1 → sumseries n depth = 0) ∧
    (n > 100 → sumseries n depth = -1) ∧
    (1 ≤ n → n ≤ 100 →
      sumseries n depth = n * (n + 1) / 2 ∧
      sumseries n depth = Finset.sum (Finset.range (n.toNat + 1)) fun i => (i : Int)) := by
  refine ⟨fun h => ?_, fun h => ?_, fun h1 h2 => ?_⟩
  · rw [sumseries, if_pos h]
  · rw [sumseries, if_neg (by omega), if_pos h]
  · obtain ⟨m, rfl⟩ := Int.eq_ofNat_of_zero_le (by omega : 0 ≤ n)
    have key := sumseries_nat m (by omega) (by omega) depth
    have hdiv : sumseries (m : Int) depth = (m : Int) * ((m : Int) + 1) / 2 := by
      rw [← key, Int.mul_ediv_cancel_left _ (by decide)]
    refine ⟨hdiv, ?_⟩
    have gauss : ∀ k : Nat,
        2 * Finset.sum (Finset.range (k + 1)) (fun i => (i : Int)) = (k : Int) * ((k : Int) + 1) := by
      intro k
      induction k with
      | zero => simp
      | succ k ih =>
        rw [Finset.sum_range_succ, mul_add, ih]
        push_cast
        ring
    have := gauss m
    simp only [Int.toNat_ofNat]
    linarith

theorem sumseries_spec_witness :
    sumseries 0 1 = 0 ∧ sumseries 1 1 = 1 ∧ sumseries 5 1 = 15 ∧ sumseries 10 1 = 55 ∧
    sumseries 101 1 = -1 ∧ sumseries 100 1 = 5050 :=
  ⟨(sumseries_spec 0 1).1 (by decide),
    ((sumseries_spec 1 1).2.2 (by decide) (by decide)).1,
    ((sumseries_spec 5 1).2.2 (by decide) (by decide)).1,
    ((sumseries_spec 10 1).2.2 (by decide) (by decide)).1,
    (sumseries_spec 101 1).2.1 (by decide),
    ((sumseries_spec 100 1).2.2 (by decide) (by decide)).1⟩

/-! ## `delete_node` -/

theorem readNode_set_ne (m : NodeHeap) {p q : Nat} (h : p ≠ q) (x : Option Node) :
    readNode (m.set p x) q = readNode m q := by
  simp [readNode, List.getElem?_set, h]

theorem readNode_set_self (m : NodeHeap) {p : Nat} (h : p < m.length) (x : Option Node) :
    readNode (m.set p x) p = x := by
  simp [readNode, List.getElem?_set, h]

theorem readNode_lt {m : NodeHeap} {p : Nat} {nd : Node} (h : readNode m p = some nd) :
    p < m.length := by
  by_contra hlt
  simp [readNode, List.getElem?_eq_none (Nat.le_of_not_lt hlt)] at h

theorem seg_frame {m m1 : NodeHeap} {p q : Option Nat} {l : List (Nat × CString)}
    (h : Seg m p q l) (hf : ∀ a ∈ l.map Prod.fst, readNode m1 a = readNode m a) :
    Seg m1 p q l := by
  induction h with
  | nil p => exact Seg.nil p
  | cons hr _ ih =>
    refine Seg.cons ?_ (ih fun a ha => hf a ?_)
    · rw [hf _ (by simp)]; exact hr
    · simp only [List.map_cons, List.mem_cons]; exact Or.inr ha

theorem seg_append {m : NodeHeap} {p q r : Option Nat} {l1 l2 : List (Nat × CString)}
    (h1 : Seg m p q l1) (h2 : Seg m q r l2) : Seg m p r (l1 ++ l2) := by
  induction h1 with
  | nil p => exact h2
  | cons hr _ ih => exact Seg.cons hr (ih h2)

theorem seg_nil_inv {m : NodeHeap} {p q : Option Nat} (h : Seg m p q []) : p = q := by
  cases h; rfl

theorem seg_snoc_inv {m : NodeHeap} {l : List (Nat × CString)} :
    ∀ {p q : Option Nat} {a : Nat} {t : CString}, Seg m p q (l ++ [(a, t)]) →
      Seg m p (some a) l ∧ readNode m a = some ⟨t, q⟩ := by
  induction l with
  | nil =>
    intro p q a t h
    cases h with
    | cons hr hs =>
      cases hs
      exact ⟨Seg.nil _, hr⟩
  | cons c l ih =>
    intro p q a t h
    cases h with
    | cons hr hs =>
      obtain ⟨h1, h2⟩ := ih hs
      exact ⟨Seg.cons hr h1, h2⟩

theorem seg_functional {m : NodeHeap} {l1 : List (Nat × CString)} :
    ∀ {p : Option Nat} {l2 : List (Nat × CString)},
      Seg m p none l1 → Seg m p none l2 → l1 = l2 := by
  induction l1 with
  | nil =>
    intro p l2 h1 h2
    cases h1
    cases h2
    rfl
  | cons c l ih =>
    intro p l2 h1 h2
    cases h1 with
    | cons hr hs =>
      cases h2 with
      | cons hr2 hs2 =>
        rw [hr] at hr2
        cases hr2
        rw [ih hs hs2]

theorem seg_suffix {m : NodeHeap} {l : List (Nat × CString)} :
    ∀ {p : Option Nat} {a : Nat}, Seg m p none l → a ∈ l.map Prod.fst →
      ∃ l2, Seg m (some a) none l2 ∧ l2.length ≤ l.length := by
  induction l with
  | nil => intro p a _ ha; simp at ha
  | cons c l ih =>
    intro p a h ha
    cases h with
    | cons hr hs =>
      simp only [List.map_cons, List.mem_cons] at ha
      rcases ha with rfl | ha
      · exact ⟨_, Seg.cons hr hs, Nat.le_refl _⟩
      · obtain ⟨l2, h1, h2⟩ := ih hs ha
        exact ⟨l2, h1, Nat.le_succ_of_le h2⟩

/-- The nodes of a `NULL`-terminated list have pairwise different addresses. -/
theorem seg_nodup {m : NodeHeap} {l : List (Nat × CString)} :
    ∀ {p : Option Nat}, Seg m p none l → (l.map Prod.fst).Nodup := by
  induction l with
  | nil => intro _ _; exact List.nodup_nil
  | cons c l ih =>
    intro p h
    cases h with
    | cons hr hs =>
      rw [List.map_cons, List.nodup_cons]
      refine ⟨fun hmem => ?_, ih hs⟩
      obtain ⟨l2, h1, h2⟩ := seg_suffix hs hmem
      have := seg_functional (Seg.cons hr hs) h1
      rw [← this] at h2
      simp at h2

theorem seg_addr_lt {m : NodeHeap} {p q : Option Nat} {l : List (Nat × CString)}
    (h : Seg m p q l) : ∀ a ∈ l.map Prod.fst, a < m.length := by
  induction h with
  | nil p => intro a ha; simp at ha
  | cons hr _ ih =>
    intro a ha
    simp only [List.map_cons, List.mem_cons] at ha
    rcases ha with rfl | ha
    · exact readNode_lt hr
    · exact ih a ha

/-- A `NULL`-terminated list in a memory of `n` cells has at most `n` nodes. -/
theorem seg_length_le {m : NodeHeap} {p : Option Nat} {l : List (Nat × CString)}
    (h : Seg m p none l) : l.length ≤ m.length := by
  have hn := seg_nodup h
  have hlt := seg_addr_lt h
  have hsub : (l.map Prod.fst).toFinset ⊆ Finset.range m.length := by
    intro a ha
    rw [List.mem_toFinset] at ha
    exact Finset.mem_range.2 (hlt a ha)
  have := Finset.card_le_card hsub
  rw [List.toFinset_card_of_nodup hn, Finset.card_range, List.length_map] at this
  exact this

/-- The loop of `delete_node` from a state in which `before` has been passed
without a match and `rest` is still ahead. -/
theorem deleteLoop_spec (target : CString) (m : NodeHeap) (head : Option Nat)
    (rest : List (Nat × CString)) :
    ∀ (before : List (Nat × CString)) (fuel : Nat) (prev cur : Option Nat),
      Seg m head cur before → Seg m cur none rest →
      prev = (before.getLast?).map Prod.fst →
      (∀ c ∈ before, c.2 ≠ target) →
      ((before ++ rest).map Prod.fst).Nodup →
      rest.length < fuel →
      ∃ head1 m1, deleteLoop target m head fuel prev cur = some (head1, m1) ∧
        Seg m1 head1 none (before ++ rest.eraseP (hasText target)) ∧
        (target ∉ rest.map Prod.snd → head1 = head ∧ m1 = m) := by
  induction rest with
  | nil =>
    intro before fuel prev cur hb hr _ _ _ hfuel
    have hcur := seg_nil_inv hr
    subst hcur
    obtain ⟨f, rfl⟩ : ∃ f, fuel = f + 1 := ⟨fuel - 1, by simp at hfuel; omega⟩
    refine ⟨head, m, rfl, ?_, fun _ => ⟨rfl, rfl⟩⟩
    simpa using hb
  | cons c rest ih =>
    intro before fuel prev cur hb hr hprev hne hnd hfuel
    obtain ⟨f, rfl⟩ : ∃ f, fuel = f + 1 := ⟨fuel - 1, by simp at hfuel; omega⟩
    cases hr with
    | @cons a t nx _ _ hread hrest =>
      simp only [deleteLoop, hread]
      have hnd1 : a ∉ before.map Prod.fst ∧ a ∉ rest.map Prod.fst ∧
          (∀ x ∈ before.map Prod.fst, x ∉ rest.map Prod.fst) ∧
          (before.map Prod.fst).Nodup := by
        rw [List.map_append, List.nodup_append] at hnd
        obtain ⟨h1, h2, h3⟩ := hnd
        rw [List.map_cons, List.nodup_cons] at h2
        refine ⟨fun h => h3 h (by simp), h2.1, fun x hx hx2 => h3 hx ?_, h1⟩
        simp only [List.map_cons, List.mem_cons]
        exact Or.inr hx2
      obtain ⟨ha1, ha2, hdisj, hndb⟩ := hnd1
      by_cases ht : t = target
      · subst ht
        have herase : List.eraseP (hasText t) ((a, t) :: rest) = rest := by
          simp [List.eraseP_cons, hasText]
        rw [herase]
        simp only [if_true]
        have hnot : ¬ t ∉ List.map Prod.snd ((a, t) :: rest) := by
          simp
        rcases List.eq_nil_or_concat' before with rfl | ⟨b1, last, rfl⟩
        · -- deleting the head
          simp only [List.getLast?_nil, Option.map_none'] at hprev
          subst hprev
          have hhead := seg_nil_inv hb
          refine ⟨nx, freeNode m a, rfl, ?_, fun h => absurd h hnot⟩
          rw [List.nil_append]
          apply seg_frame hrest
          intro x hx
          refine readNode_set_ne m ?_ none
          intro h
          rw [h] at ha2
          exact ha2 hx
        · -- deleting a node after `prev`
          obtain ⟨pv, pt⟩ := last
          simp at hprev
          subst hprev
          obtain ⟨hb1, hpv⟩ := seg_snoc_inv hb
          simp only [hpv]
          refine ⟨head, _, rfl, ?_, fun h => absurd h hnot⟩
          have hpa : pv ≠ a := by
            intro h
            apply ha1
            rw [← h]
            simp
          have hpv_b1 : pv ∉ b1.map Prod.fst := by
            rw [List.map_append, List.nodup_append] at hndb
            intro h
            exact hndb.2.2 h (by simp)
          have hframe : ∀ x, x ≠ pv → x ≠ a →
              readNode (freeNode (m.set pv (some (setNodeNext nx ⟨pt, some a⟩))) a) x =
                readNode m x := by
            intro x h1 h2
            unfold freeNode
            rw [readNode_set_ne _ (Ne.symm h2), readNode_set_ne _ (Ne.symm h1)]
          refine seg_append (seg_append (seg_frame hb1 ?_) (Seg.cons ?_ (Seg.nil _)))
            (seg_frame hrest ?_)
          · intro x hx
            apply hframe x
            · intro h; rw [h] at hx; exact hpv_b1 hx
            · intro h; apply ha1; rw [← h]; simp [hx]
          · unfold freeNode
            rw [readNode_set_ne _ (Ne.symm hpa), readNode_set_self _ (readNode_lt hpv)]
            rfl
          · intro x hx
            apply hframe x
            · intro h
              rw [h] at hx
              exact hdisj pv (by simp) hx
            · intro h; rw [h] at hx; exact ha2 hx
      · have herase : List.eraseP (hasText target) ((a, t) :: rest) =
            (a, t) :: List.eraseP (hasText target) rest := by
          simp [List.eraseP_cons, hasText, ht]
        rw [herase]
        simp only [ht, if_false]
        obtain ⟨head1, m1, h1, h2, h3⟩ := ih (before ++ [(a, t)]) f (some a) nx
          (seg_append hb (Seg.cons hread (Seg.nil nx))) hrest
          (by simp)
          (by
            intro c hc
            rcases List.mem_append.1 hc with hc | hc
            · exact hne c hc
            · simp only [List.mem_singleton] at hc
              subst hc
              exact ht)
          (by simpa [List.append_assoc] using hnd)
          (by simp only [List.length_cons] at hfuel; omega)
        refine ⟨head1, m1, h1, ?_, fun h => h3 ?_⟩
        · simpa [List.append_assoc] using h2
        · intro hmem
          apply h
          simp only [List.map_cons, List.mem_cons]
          exact Or.inr hmem

/-- C20: for every singly linked list and every target text, `delete_node`
returns, and the returned head is the list of the nodes that remain when the
first node whose text equals `target` is removed, the others in their
original order; the texts are those of the list with the first occurrence of
`target` erased; when no node matches, head and memory are unchanged. -/
theorem delete_node_spec (m : NodeHeap) (head : Option Nat) (cells : List (Nat × CString))
    (target : CString) (h : IsList m head cells) :
    ∃ head1 m1, delete_node m head target = some (head1, m1) ∧
      IsList m1 head1 (cells.eraseP (hasText target)) ∧
      (cells.eraseP (hasText target)).map Prod.snd = (cells.map Prod.snd).erase target ∧
      (target ∉ cells.map Prod.snd → head1 = head ∧ m1 = m) := by
  obtain ⟨head1, m1, h1, h2, h3⟩ := deleteLoop_spec target m head cells [] (m.length + 1)
    none head (Seg.nil head) h rfl (by simp) (by simpa using seg_nodup h)
    (Nat.lt_succ_of_le (seg_length_le h))
  refine ⟨head1, m1, h1, by simpa using h2, ?_, h3⟩
  clear h h1 h2 h3
  induction cells with
  | nil => simp
  | cons c cs ih =>
    by_cases hc : c.2 = target
    · simp [List.eraseP_cons, hasText, hc]
    · have hc2 : ¬ (c.2 == target) = true := by simpa using hc
      simp [List.eraseP_cons, hasText, hc, List.erase_cons, hc2, ih]

theorem isList_sample : IsList sampleHeap (some 0) sampleCells :=
  Seg.cons (by decide) (Seg.cons (by decide) (Seg.cons (by decide) (Seg.nil none)))

theorem delete_node_spec_witness :
    IsList sampleHeap (some 0) sampleCells ∧
    (∃ head1 m1, delete_node sampleHeap (some 0) (cstr "is") = some (head1, m1) ∧
      IsList m1 head1 [(0, cstr "C"), (2, cstr "fun")]) ∧
    (∃ head1 m1, delete_node sampleHeap (some 0) (cstr "C") = some (head1, m1) ∧
      IsList m1 head1 [(1, cstr "is"), (2, cstr "fun")]) ∧
    (∃ head1 m1, delete_node sampleHeap (some 0) (cstr "fun") = some (head1, m1) ∧
      IsList m1 head1 [(0, cstr "C"), (1, cstr "is")]) ∧
    (∃ head1 m1, delete_node sampleHeap (some 0) (cstr "nope") = some (head1, m1) ∧
      IsList m1 head1 sampleCells ∧ head1 = some 0 ∧ m1 = sampleHeap) ∧
    delete_node sampleHeap (some 0) (cstr "is") =
      some (some 0, [some ⟨cstr "C", some 2⟩, none, some ⟨cstr "fun", none⟩]) := by
  refine ⟨isList_sample, ?_, ?_, ?_, ?_, by decide⟩
  · obtain ⟨h1, m1, e1, e2, _⟩ := delete_node_spec _ _ _ (cstr "is") isList_sample
    exact ⟨h1, m1, e1, e2⟩
  · obtain ⟨h1, m1, e1, e2, _⟩ := delete_node_spec _ _ _ (cstr "C") isList_sample
    exact ⟨h1, m1, e1, e2⟩
  · obtain ⟨h1, m1, e1, e2, _⟩ := delete_node_spec _ _ _ (cstr "fun") isList_sample
    exact ⟨h1, m1, e1, e2⟩
  · obtain ⟨h1, m1, e1, e2, _, e4⟩ := delete_node_spec _ _ _ (cstr "nope") isList_sample
    obtain ⟨e5, e6⟩ := e4 (by decide)
    exact ⟨h1, m1, e1, e2, e5, e6⟩

/-! ## Hash table: shape of update, insert and enumeration -/

/-- The three possible effects of `install` on the table. -/
theorem install_cases (a : Alloc) (t : Table) (k d : CString) :
    (install a t k d).2 = t ∨
    (lookup t k = none ∧ ∃ x, (install a t k d).2 =
      t.set (hash k) (⟨k, x⟩ :: bucket t (hash k))) ∨
    (∃ e x, lookup t k = some e ∧ (install a t k d).2 =
      t.set (hash k) (setDef k x (bucket t (hash k)))) := by
  cases hl : lookup t k with
  | some e => exact Or.inr (Or.inr ⟨e, _, rfl, install_found d hl⟩)
  | none =>
    unfold install
    simp only [hl]
    cases hn : a.node with
    | false => left; simp
    | true =>
      cases hm : a.name with
      | false => left; simp [strdup]
      | true => right; left; exact ⟨trivial, strdup a.defn d, by simp [strdup]⟩

theorem nodup_names_install {a : Alloc} {t : Table} {k d : CString}
    (hlen : t.length = HASHSIZE) (hp : Placed t) (hn : (names t).Nodup) :
    (names (install a t k d).2).Nodup := by
  have hlt : hash k < t.length := hlen ▸ hash_lt k
  rcases install_cases a t k d with h | ⟨hl, x, h⟩ | ⟨e, x, _, h⟩
  · rw [h]; exact hn
  · rw [h]
    have hk := (lookup_eq_none_iff hp k).1 hl
    exact (names_set_cons t _ hlt ⟨k, x⟩).nodup_iff.2 (List.nodup_cons.2 ⟨hk, hn⟩)
  · rw [h, names_set_setDef]; exact hn

theorem Reachable.placed {t : Table} (h : Reachable t) : Placed t := by
  induction h with
  | init => exact placed_hashtab0
  | step a k d _ ih => exact placed_install ih

theorem Reachable.nodup_names {t : Table} (h : Reachable t) : (names t).Nodup := by
  induction h with
  | init => rw [names_hashtab0]; exact List.nodup_nil
  | step a k d hr ih => exact nodup_names_install hr.length_eq hr.placed ih

theorem bucket_names_sublist (t : Table) (i : Nat) :
    ((bucket t i).map nlist.name).Sublist (names t) := by
  by_cases hi : i < t.length
  · rw [bucket_eq_getElem hi, names_eq]
    exact List.sublist_flatten_of_mem (List.mem_map_of_mem _ (List.getElem_mem _))
  · simp [bucket, List.getElem?_eq_none (Nat.le_of_not_lt hi)]

theorem setDef_eq_map {k : CString} (d : CString) {c : Chain}
    (hn : (c.map nlist.name).Nodup) : setDef k (some d) c = c.map (withDef k d) := by
  induction c with
  | nil => rfl
  | cons np rest ih =>
    rw [List.map_cons, List.nodup_cons] at hn
    unfold setDef
    by_cases h : k = np.name
    · have hrest : rest.map (withDef k d) = rest := by
        conv_rhs => rw [← List.map_id rest]
        apply List.map_congr_left
        intro e he
        have : e.name ≠ k := by
          intro hek
          apply hn.1
          rw [← h, ← hek]
          exact List.mem_map_of_mem _ he
        simp [withDef, this]
      subst h
      simp [withDef, hrest]
    · have h2 : ¬ np.name = k := fun hc => h hc.symm
      simp [h, withDef, h2, ih hn.2]

theorem map_withDef_of_not_mem {k : CString} (d : CString) {c : Chain}
    (hk : k ∉ c.map nlist.name) : c.map (withDef k d) = c := by
  conv_rhs => rw [← List.map_id c]
  apply List.map_congr_left
  intro e he
  have : e.name ≠ k := by
    intro hek
    apply hk
    rw [← hek]
    exact List.mem_map_of_mem _ he
  simp [withDef, this]

/-- C26: in every reachable table that holds the key `k`, a successful
`install(k, d)` turns every bucket chain into the same chain with the
definition of the node named `k` replaced by `d`: the names of every chain
are the same in the same order (nothing added, removed or moved), `lookup(k)`
returns the node `(k, d)`, and every node with another name is unchanged. -/
theorem install_update_in_place (a : Alloc) (t : Table) (k d : CString)
    (hr : Reachable t) (hk : k ∈ names t) (hs : (install a t k d).1 ≠ none) :
    (∀ i, bucket (install a t k d).2 i = (bucket t i).map (withDef k d)) ∧
    (∀ i, (bucket (install a t k d).2 i).map nlist.name = (bucket t i).map nlist.name) ∧
    lookup (install a t k d).2 k = some ⟨k, some d⟩ ∧
    (∀ (i j : Nat) (e : nlist), (bucket t i)[j]? = some e → e.name ≠ k →
      (bucket (install a t k d).2 i)[j]? = some e) ∧
    (∀ (i j : Nat) (e : nlist), (bucket t i)[j]? = some e → e.name = k →
      (bucket (install a t k d).2 i)[j]? = some ⟨k, some d⟩) := by
  have hlen := hr.length_eq
  have hp := hr.placed
  have hlt : hash k < t.length := hlen ▸ hash_lt k
  obtain ⟨e, hl⟩ : ∃ e, lookup t k = some e := by
    cases h : lookup t k with
    | none => exact absurd hk ((lookup_eq_none_iff hp k).1 h)
    | some e => exact ⟨e, rfl⟩
  have hdef : strdup a.defn d = some d := by
    cases hd : a.defn with
    | true => rfl
    | false =>
      exfalso
      apply hs
      unfold install
      simp [hl, strdup, retNode, hd]
  have hb : ∀ i, bucket (install a t k d).2 i = (bucket t i).map (withDef k d) := by
    intro i
    rw [install_found d hl, hdef]
    by_cases hi : hash k = i
    · subst hi
      rw [bucket_set_self hlt]
      exact setDef_eq_map d ((bucket_names_sublist t _).nodup hr.nodup_names)
    · rw [bucket_set_ne hi]
      symm
      apply map_withDef_of_not_mem
      intro hmem
      obtain ⟨e1, he1, hname⟩ := List.mem_map.1 hmem
      have := hp i e1 he1
      rw [hname] at this
      exact hi this
  refine ⟨hb, fun i => ?_, lookup_install_self hlen hs, fun i j e1 he hne => ?_,
    fun i j e1 he hek => ?_⟩
  · rw [hb i, List.map_map]
    apply List.map_congr_left
    intro e1 _
    simp only [Function.comp, withDef]
    split <;> rfl
  · rw [hb i, List.getElem?_map, he]
    simp [withDef, hne]
  · rw [hb i, List.getElem?_map, he]
    simp [withDef, hek]

theorem install_update_in_place_witness :
    Reachable (installAll hashtab0 demoCalls4) ∧
    cstr "YES" ∈ names (installAll hashtab0 demoCalls4) ∧
    (install allocOk (installAll hashtab0 demoCalls4) (cstr "YES") (cstr "42")).1 ≠ none ∧
    (∀ i, (bucket (install allocOk (installAll hashtab0 demoCalls4) (cstr "YES")
        (cstr "42")).2 i).map nlist.name =
      (bucket (installAll hashtab0 demoCalls4) i).map nlist.name) ∧
    lookup (install allocOk (installAll hashtab0 demoCalls4) (cstr "YES") (cstr "42")).2
      (cstr "YES") = some ⟨cstr "YES", some (cstr "42")⟩ :=
  ⟨reachable_installAll Reachable.init _, by decide, by decide,
    (install_update_in_place allocOk _ (cstr "YES") (cstr "42")
      (reachable_installAll Reachable.init _) (by decide) (by decide)).2.1,
    (install_update_in_place allocOk _ (cstr "YES") (cstr "42")
      (reachable_installAll Reachable.init _) (by decide) (by decide)).2.2.1⟩

/-- C27: in every reachable table that does not hold the key `k`, a
successful `install(k, d)` makes the node `(k, d)` the head of bucket
`hash(k)`, followed by the previous chain of that bucket in its previous
order, and leaves every other bucket as it was. -/
theorem install_insert_head (a : Alloc) (t : Table) (k d : CString)
    (hr : Reachable t) (hk : k ∉ names t) (hs : (install a t k d).1 ≠ none) :
    bucket (install a t k d).2 (hash k) = ⟨k, some d⟩ :: bucket t (hash k) ∧
    (∀ i, i ≠ hash k → bucket (install a t k d).2 i = bucket t i) ∧
    (install a t k d).2.length = HASHSIZE := by
  have hlen := hr.length_eq
  have hlt : hash k < t.length := hlen ▸ hash_lt k
  have hl := (lookup_eq_none_iff hr.placed k).2 hk
  refine ⟨?_, fun i hi => ?_, (length_install a t k d).trans hlen⟩
  · rw [install_new hl hs, bucket_set_self hlt]
  · rw [install_new hl hs, bucket_set_ne (Ne.symm hi)]

theorem install_insert_head_witness :
    Reachable (install allocOk hashtab0 (cstr "ab") (cstr "1")).2 ∧
    cstr "ba" ∉ names (install allocOk hashtab0 (cstr "ab") (cstr "1")).2 ∧
    hash (cstr "ba") = 95 ∧
    bucket (install allocOk (install allocOk hashtab0 (cstr "ab") (cstr "1")).2 (cstr "ba")
        (cstr "2")).2 95 =
      [⟨cstr "ba", some (cstr "2")⟩, ⟨cstr "ab", some (cstr "1")⟩] := by
  refine ⟨Reachable.step _ _ _ Reachable.init, by decide, by decide, ?_⟩
  have h := (install_insert_head allocOk (install allocOk hashtab0 (cstr "ab") (cstr "1")).2
    (cstr "ba") (cstr "2") (Reachable.step _ _ _ Reachable.init) (by decide) (by decide)).1
  rw [show hash (cstr "ba") = 95 by decide] at h
  rw [h]
  decide

/-! ## Hash table: `print_table` -/

theorem map_bucket_range (t : Table) : (List.range t.length).map (bucket t) = t := by
  apply List.ext_getElem (by simp)
  intro i h1 h2
  simp only [List.getElem_map, List.getElem_range]
  exact bucket_eq_getElem h2

theorem print_table_entries {t : Table} (hlen : t.length = HASHSIZE) :
    (print_table t).map (fun x => (⟨x.2.1, x.2.2⟩ : nlist)) = entries t := by
  unfold print_table entries
  conv_rhs => rw [← map_bucket_range t, hlen]
  rw [List.flatMap_def, List.map_flatten, List.map_map]
  congr 1
  apply List.map_congr_left
  intro i _
  simp only [Function.comp, List.map_map]
  conv_rhs => rw [← List.map_id (bucket t i)]
  apply List.map_congr_left
  intro e _
  rfl

theorem filter_index_flatMap (t : Table) (i : Nat) :
    ∀ l : List Nat, l.Nodup →
      (l.flatMap fun j => (bucket t j).map (tableLine j)).filter (fun x => decide (x.1 = i)) =
        if i ∈ l then (bucket t i).map (tableLine i) else [] := by
  intro l
  induction l with
  | nil => intro _; rfl
  | cons j js ih =>
    intro hn
    rw [List.nodup_cons] at hn
    rw [List.flatMap_cons, List.filter_append, ih hn.2]
    by_cases hji : j = i
    · subst hji
      have h1 : ((bucket t j).map (tableLine j)).filter (fun x => decide (x.1 = j)) =
          (bucket t j).map (tableLine j) := by
        apply List.filter_eq_self.2
        intro x hx
        obtain ⟨e, _, rfl⟩ := List.mem_map.1 hx
        simp [tableLine]
      simp [h1, hn.1]
    · have h1 : ((bucket t j).map (tableLine j)).filter (fun x => decide (x.1 = i)) = [] := by
        apply List.filter_eq_nil_iff.2
        intro x hx
        obtain ⟨e, _, rfl⟩ := List.mem_map.1 hx
        simp [tableLine, hji]
      have h2 : (i ∈ j :: js) ↔ i ∈ js := by
        simp [List.mem_cons, Ne.symm hji]
      simp only [h1, List.nil_append, h2]

theorem print_table_sorted (t : Table) :
    ((print_table t).map fun x => x.1).Pairwise (fun i j => i ≤ j) := by
  unfold print_table
  rw [List.flatMap_def, List.map_flatten, List.pairwise_flatten]
  constructor
  · intro l hl
    simp only [List.map_map, List.mem_map, List.mem_range] at hl
    obtain ⟨i, _, rfl⟩ := hl
    simp only [Function.comp]
    rw [List.pairwise_map, List.pairwise_map]
    exact List.pairwise_of_forall (fun _ _ => Nat.le_refl i)
  · rw [List.map_map, List.pairwise_map]
    apply (List.pairwise_lt_range HASHSIZE).imp
    intro i j hij x hx y hy
    simp only [Function.comp, List.map_map, List.mem_map] at hx hy
    obtain ⟨_, _, rfl⟩ := hx
    obtain ⟨_, _, rfl⟩ := hy
    exact Nat.le_of_lt hij

theorem allSucceed_append (t : Table) (xs ys : List InstallCall) :
    allSucceed t (xs ++ ys) = (allSucceed t xs && allSucceed (installAll t xs) ys) := by
  induction xs generalizing t with
  | nil => simp [allSucceed, installAll]
  | cons c cs ih => simp [allSucceed, installAll, ih, Bool.and_assoc]

theorem distinctInOrder_append_singleton (ks : List CString) (k : CString) :
    distinctInOrder (ks ++ [k]) = addKey (distinctInOrder ks) k := by
  simp [distinctInOrder, List.foldl_append]

/-- After successful `install` calls on the empty table, the names of bucket
`i` are the distinct keys hashing to `i`, the one first installed last at the
head. -/
theorem bucket_names_installAll (calls : List InstallCall) :
    allSucceed hashtab0 calls = true →
    ∀ i, (bucket (installAll hashtab0 calls) i).map nlist.name =
      (distinctInOrder (keysOfBucket i calls)).reverse := by
  induction calls using List.reverseRecOn with
  | nil => intro _ i; simp [installAll, bucket_hashtab0, keysOfBucket, distinctInOrder]
  | append_singleton cs c ih =>
    intro hs i
    rw [allSucceed_append, Bool.and_eq_true] at hs
    obtain ⟨hs1, hs2⟩ := hs
    have hs3 : (install c.alloc (installAll hashtab0 cs) c.name c.defn).1 ≠ none := by
      intro h
      simp [allSucceed, h] at hs2
    have hr := reachable_installAll Reachable.init cs
    have hmem := (names_installAll cs hashtab0 length_hashtab0 placed_hashtab0
      (by rw [names_hashtab0]; exact List.nodup_nil) hs1).2 c.name
    rw [names_hashtab0] at hmem
    simp only [List.not_mem_nil, false_or] at hmem
    have hlt : hash c.name < (installAll hashtab0 cs).length := hr.length_eq ▸ hash_lt _
    have hkeys : keysOfBucket i (cs ++ [c]) =
        keysOfBucket i cs ++ (if hash c.name = i then [c.name] else []) := by
      simp only [keysOfBucket, List.map_append, List.filter_append, List.map_cons, List.map_nil,
        List.filter_cons, List.filter_nil]
      by_cases h : hash c.name = i <;> simp [h]
    rw [installAll_append]
    show (bucket (install c.alloc (installAll hashtab0 cs) c.name c.defn).2 i).map nlist.name = _
    rw [hkeys]
    by_cases hk : c.name ∈ names (installAll hashtab0 cs)
    · -- update: no chain changes its names
      have hnames := (install_cases c.alloc (installAll hashtab0 cs) c.name c.defn)
      have hsame : (bucket (install c.alloc (installAll hashtab0 cs) c.name c.defn).2 i).map
          nlist.name = (bucket (installAll hashtab0 cs) i).map nlist.name := by
        rcases hnames with h | ⟨hl, _⟩ | ⟨e, x, _, h⟩
        · rw [h]
        · exact absurd hk ((lookup_eq_none_iff hr.placed _).1 hl)
        · rw [h]
          by_cases hi : hash c.name = i
          · subst hi; rw [bucket_set_self hlt, map_name_setDef]
          · rw [bucket_set_ne hi]
      rw [hsame, ih hs1 i]
      by_cases hi : hash c.name = i
      · simp only [hi, if_true]
        rw [distinctInOrder_append_singleton, addKey, if_pos]
        rw [mem_distinctInOrder]
        simp only [keysOfBucket, List.mem_filter, decide_eq_true_eq]
        exact ⟨hmem.1 hk, hi⟩
      · simp [hi]
    · have hl := (lookup_eq_none_iff hr.placed c.name).2 hk
      rw [install_new hl hs3]
      by_cases hi : hash c.name = i
      · subst hi
        rw [bucket_set_self hlt, List.map_cons, ih hs1]
        simp only [if_true]
        rw [distinctInOrder_append_singleton, addKey, if_neg, List.reverse_append]
        · rfl
        · rw [mem_distinctInOrder]
          simp only [keysOfBucket, List.mem_filter, decide_eq_true_eq, not_and]
          intro h
          exact absurd (hmem.2 h) hk
      · rw [bucket_set_ne hi, ih hs1]
        simp [hi]

/-- C30: for every reachable table, `print_table` lists exactly the nodes of
the table, each once, as (bucket index, name, definition) with bucket index
`hash(name)`, the bucket indices ascending, and the lines of bucket `i` in
chain order. After successful `install` calls on the empty table the names
listed for bucket `i` are the distinct keys hashing to `i` in the reverse of
the order of their first install, so an update of a present key changes
nothing in the order; and an `install` of a present key leaves the listed
indices and names as they were. -/
theorem print_table_spec (t : Table) (hr : Reachable t) :
    (print_table t).map (fun x => (⟨x.2.1, x.2.2⟩ : nlist)) = entries t ∧
    ((print_table t).map fun x => x.2.1).Nodup ∧
    (∀ x ∈ print_table t, x.1 = hash x.2.1) ∧
    ((print_table t).map fun x => x.1).Pairwise (fun i j => i ≤ j) ∧
    (∀ i, i < HASHSIZE → (print_table t).filter (fun x => decide (x.1 = i)) =
      (bucket t i).map (tableLine i)) ∧
    (∀ calls, allSucceed hashtab0 calls = true → installAll hashtab0 calls = t →
      ∀ i, i < HASHSIZE →
        ((print_table t).filter (fun x => decide (x.1 = i))).map (fun x => x.2.1) =
          (distinctInOrder (keysOfBucket i calls)).reverse) ∧
    (∀ a k d, k ∈ names t →
      (print_table (install a t k d).2).map (fun x => (x.1, x.2.1)) =
        (print_table t).map (fun x => (x.1, x.2.1))) := by
  have hfilter : ∀ i, i < HASHSIZE → (print_table t).filter (fun x => decide (x.1 = i)) =
      (bucket t i).map (tableLine i) := by
    intro i hi
    unfold print_table
    rw [filter_index_flatMap t i _ (List.nodup_range _), if_pos (List.mem_range.2 hi)]
  have hent := print_table_entries hr.length_eq
  refine ⟨hent, ?_, ?_, print_table_sorted t, hfilter, ?_, ?_⟩
  · have : (print_table t).map (fun x => x.2.1) = names t := by
      rw [names, ← hent, List.map_map]
      rfl
    rw [this]
    exact hr.nodup_names
  · intro x hx
    unfold print_table at hx
    rw [List.mem_flatMap] at hx
    obtain ⟨i, _, hx⟩ := hx
    obtain ⟨e, he, rfl⟩ := List.mem_map.1 hx
    exact (hr.placed i e he).symm
  · intro calls hs ht i hi
    rw [hfilter i hi, List.map_map, ← ht, ← bucket_names_installAll calls hs i]
    rfl
  · intro a k d hk
    have hnames : ∀ i, (bucket (install a t k d).2 i).map nlist.name =
        (bucket t i).map nlist.name := by
      intro i
      rcases install_cases a t k d with h | ⟨hl, _⟩ | ⟨e, x, _, h⟩
      · rw [h]
      · exact absurd hk ((lookup_eq_none_iff hr.placed _).1 hl)
      · rw [h]
        by_cases hlt : hash k < t.length
        · by_cases hi : hash k = i
          · subst hi; rw [bucket_set_self hlt, map_name_setDef]
          · rw [bucket_set_ne hi]
        · rw [bucket_set_of_le (Nat.le_of_not_lt hlt)]
    unfold print_table
    simp only [List.flatMap_def, List.map_flatten, List.map_map]
    congr 1
    apply List.map_congr_left
    intro i _
    simp only [Function.comp, List.map_map]
    have := congrArg (List.map fun n => (i, n)) (hnames i)
    simpa [List.map_map, Function.comp, tableLine] using this

theorem print_table_spec_witness :
    Reachable (installAll hashtab0 [call "ab" "1", call "ba" "2", call "ab" "3"]) ∧
    hash (cstr "ab") = 95 ∧ hash (cstr "ba") = 95 ∧
    print_table (installAll hashtab0 [call "ab" "1", call "ba" "2", call "ab" "3"]) =
      [(95, cstr "ba", some (cstr "2")), (95, cstr "ab", some (cstr "3"))] ∧
    (∀ x ∈ print_table (installAll hashtab0 [call "ab" "1", call "ba" "2", call "ab" "3"]),
      x.1 = hash x.2.1) :=
  ⟨reachable_installAll Reachable.init _, by decide, by decide, by decide,
    (print_table_spec _ (reachable_installAll Reachable.init _)).2.2.1⟩

/-! ## Ordered map: structure, update and insert -/

theorem chainLoop_linked (heap : List MapEntry)
    (hn : ∀ i (h : i < heap.length), heap[i].__next = ptr heap.length (i + 1)) :
    ∀ fuel i, heap.length - i < fuel →
      chainLoop heap fuel (ptr heap.length i) = some (List.range' i (heap.length - i)) := by
  intro fuel
  induction fuel with
  | zero => intro i h; omega
  | succ fuel ih =>
    intro i h
    by_cases hi : i < heap.length
    · rw [ptr_lt hi]
      simp only [chainLoop, List.getElem?_eq_getElem hi]
      rw [hn i hi, ih (i + 1) (by omega)]
      have : heap.length - i = (heap.length - (i + 1)) + 1 := by omega
      rw [this, List.range'_succ]
      rfl
    · rw [ptr_ge (Nat.le_of_not_lt hi)]
      have : heap.length - i = 0 := by omega
      rw [this]
      rfl

theorem chainOf_linked {s : MapState} (h : Linked s) :
    chainOf s = some (List.range s.heap.length) := by
  unfold chainOf
  rw [h.head, chainLoop_linked s.heap h.next _ 0 (by omega), List.range_eq_range']
  rfl

/-- C25: in every store reached from `Map_new` by `put` calls, the walk from
`__head` along `__next` ends, `__count` is the number of entries it meets,
`__head` is the first and `__tail` the last of them (both `NULL` when there
is none, as when `__count` is 0), and the `__next` of the tail entry is
`NULL`. -/
theorem map_structure (s : MapState) (hr : MapReachable s) :
    ∃ addrs, chainOf s = some addrs ∧
      s.self.__count = (addrs.length : Int) ∧
      s.self.__head = addrs.head? ∧
      s.self.__tail = addrs.getLast? ∧
      (∀ tl, s.self.__tail = some tl → ∃ e, s.heap[tl]? = some e ∧ e.__next = none) ∧
      (s.self.__count = 0 → s.self.__head = none ∧ s.self.__tail = none) := by
  have h := hr.linked
  refine ⟨List.range s.heap.length, chainOf_linked h, ?_, ?_, ?_, ?_, ?_⟩
  · rw [h.count, List.length_range]
  · rw [h.head]
    cases hl : s.heap.length with
    | zero => rfl
    | succ n => simp [ptr, List.range_succ_eq_map]
  · rw [h.tail]
    cases hl : s.heap.length with
    | zero => rfl
    | succ n => simp [List.range_succ]
  · intro tl htl
    rw [h.tail] at htl
    split at htl
    · cases htl
    · next hne =>
      simp only [Option.some.injEq] at htl
      have hlt : tl < s.heap.length := by omega
      refine ⟨s.heap[tl], List.getElem?_eq_getElem hlt, ?_⟩
      rw [h.next tl hlt, ptr_ge (by omega)]
  · intro hc
    have hz : s.heap.length = 0 := by
      have := h.count
      omega
    rw [h.head, h.tail, hz]
    exact ⟨rfl, rfl⟩

theorem map_structure_witness :
    MapReachable demoStore ∧ chainOf demoStore = some [0, 1, 2, 3] ∧
    ∃ addrs, chainOf demoStore = some addrs ∧
      demoStore.self.__count = (addrs.length : Int) ∧
      demoStore.self.__head = addrs.head? ∧
      demoStore.self.__tail = addrs.getLast? ∧
      (∀ tl, demoStore.self.__tail = some tl →
        ∃ e, demoStore.heap[tl]? = some e ∧ e.__next = none) ∧
      (demoStore.self.__count = 0 →
        demoStore.self.__head = none ∧ demoStore.self.__tail = none) :=
  ⟨reachable_demoStore, by decide, map_structure demoStore reachable_demoStore⟩

theorem MapReachable.keys_nodup {s : MapState} (h : MapReachable s) :
    ((view s).map Prod.fst).Nodup := by
  induction h with
  | new => exact List.nodup_nil
  | @put key v s s1 hr hp ih =>
    cases key with
    | none => simp [__Map_put] at hp; rw [← hp]; exact ih
    | some k =>
      obtain ⟨s2, h1, _, h3⟩ := put_linked hr.linked k v
      rw [h1] at hp
      cases hp
      rw [h3, keys_upsert]
      exact nodup_addKey ih k

theorem firstIdx_eq_none_of_not_mem {k : CString} {l : List MapEntry}
    (h : k ∉ (l.map kv).map Prod.fst) : firstIdx k l = none := by
  cases hf : firstIdx k l with
  | none => rfl
  | some p =>
    exfalso
    obtain ⟨e, h1, h2, _⟩ := firstIdx_some hf 0
    apply h
    rw [List.map_map]
    obtain ⟨hlt, heq⟩ := List.getElem?_eq_some.1 h1
    exact List.mem_map.2 ⟨e, heq ▸ List.getElem_mem _, by simp [kv, h2]⟩

theorem firstIdx_isSome_of_mem {k : CString} {l : List MapEntry}
    (h : k ∈ (l.map kv).map Prod.fst) : ∃ p, firstIdx k l = some p := by
  induction l with
  | nil => simp at h
  | cons e r ih =>
    by_cases hk : k = e.key
    · exact ⟨0, by simp [firstIdx, hk]⟩
    · simp only [List.map_cons, List.mem_cons, kv] at h
      rcases h with h | h
      · exact absurd h hk
      · obtain ⟨p, hp⟩ := ih h
        exact ⟨p + 1, by simp [firstIdx, hk, hp]⟩

theorem put_found_eq {s : MapState} (h : Linked s) {k : CString} {p : Nat} {e : MapEntry}
    (hf : firstIdx k s.heap = some p) (he : s.heap[p]? = some e) (v : Int) :
    __Map_put s (some k) v = some { s with heap := s.heap.set p (setValue v e) } := by
  simp only [__Map_put]
  rw [find_linked h k, hf]
  simp [writeCell, he]

theorem put_new_nonempty {s : MapState} (h : Linked s) {k : CString}
    (hf : firstIdx k s.heap = none) (hpos : 0 < s.heap.length) (v : Int) :
    __Map_put s (some k) v = some
      { heap := (s.heap ++ [MapEntry.mk k v s.self.__tail none]).set
          (s.heap.length - 1) (setNext (some s.heap.length) s.heap[s.heap.length - 1]),
        self := { s.self with __tail := some s.heap.length,
                              __count := s.self.__count + 1 } } := by
  simp only [__Map_put]
  rw [find_linked h k, hf]
  have htail : s.self.__tail = some (s.heap.length - 1) := by
    rw [h.tail]; simp [Nat.ne_of_gt hpos]
  have hget : ∀ c : MapEntry, (s.heap ++ [c])[s.heap.length - 1]? =
      some s.heap[s.heap.length - 1] := by
    intro c
    rw [List.getElem?_append_left (by omega), List.getElem?_eq_getElem]
  simp only [htail, writeCell, hget, Option.map_some']

theorem put_new_empty {s : MapState} (h : Linked s) (k : CString)
    (hnil : s.heap = []) (v : Int) :
    __Map_put s (some k) v = some
      { heap := [MapEntry.mk k v none none],
        self := { __head := some 0, __tail := some 0, __count := 0 + 1 } } := by
  have hf : firstIdx k s.heap = none := by rw [hnil]; rfl
  have htail : s.self.__tail = none := by rw [h.tail]; simp [hnil]
  have hcount : s.self.__count = 0 := by rw [h.count]; simp [hnil]
  simp only [__Map_put]
  rw [find_linked h k, hf]
  simp only [htail, hnil, hcount]
  rfl

theorem upsert_eq_map {k : CString} (v : Int) {l : List (CString × Int)}
    (hn : (l.map Prod.fst).Nodup) (hk : k ∈ l.map Prod.fst) :
    upsert k v l = l.map (withValue k v) := by
  induction l with
  | nil => simp at hk
  | cons x r ih =>
    rw [List.map_cons, List.nodup_cons] at hn
    unfold upsert
    by_cases h : k = x.1
    · subst h
      have hr : r.map (withValue x.1 v) = r := by
        conv_rhs => rw [← List.map_id r]
        apply List.map_congr_left
        intro y hy
        have : y.1 ≠ x.1 := fun hc => hn.1 (hc ▸ List.mem_map_of_mem _ hy)
        simp [withValue, this]
      simp [withValue, hr]
    · have h2 : ¬ x.1 = k := fun hc => h hc.symm
      simp only [List.map_cons, List.mem_cons] at hk
      rcases hk with hk | hk
      · exact absurd hk h
      · simp [h, withValue, h2, ih hn.2 hk]

theorem heap_key_unique {s : MapState} (hn : ((view s).map Prod.fst).Nodup)
    {p q : Nat} {e1 e2 : MapEntry} (h1 : s.heap[p]? = some e1) (h2 : s.heap[q]? = some e2)
    (hk : e1.key = e2.key) : p = q := by
  obtain ⟨hp, hp2⟩ := List.getElem?_eq_some.1 h1
  obtain ⟨hq, hq2⟩ := List.getElem?_eq_some.1 h2
  have hlen : ((view s).map Prod.fst).length = s.heap.length := by simp [view]
  have hp1 : p < ((view s).map Prod.fst).length := hlen ▸ hp
  have hq1 : q < ((view s).map Prod.fst).length := hlen ▸ hq
  have e : ((view s).map Prod.fst)[p] = ((view s).map Prod.fst)[q] := by
    simp [view, kv, hp2, hq2, hk]
  exact (hn.getElem_inj_iff).1 e

/-- C28: in every reachable store that has an entry with key `k`, `put(k, v)`
returns and changes the `value` field of that one entry to `v` and nothing
else: `__head`, `__tail` and `__count` are the same, every cell keeps its key
and its links, every entry with another key keeps its value, and `dump` lists
the same entries in the same order with `v` at `k`. -/
theorem put_update_value_only (s : MapState) (k : CString) (v : Int)
    (hr : MapReachable s)
    (hk : ∃ c l, __Map_dump s = some (c, l) ∧ k ∈ l.map Prod.fst) :
    ∃ s1 p e l, __Map_put s (some k) v = some s1 ∧
      s.heap[p]? = some e ∧ e.key = k ∧
      s1.self = s.self ∧
      s1.heap = s.heap.set p (setValue v e) ∧
      s1.heap[p]? = some (MapEntry.mk k v e.__prev e.__next) ∧
      (∀ (q : Nat) (e1 : MapEntry), s.heap[q]? = some e1 → e1.key = k → q = p) ∧
      (∀ (q : Nat) (e1 : MapEntry), s.heap[q]? = some e1 → e1.key ≠ k →
        s1.heap[q]? = some e1) ∧
      __Map_dump s = some (__Map_size s, l) ∧
      __Map_dump s1 = some (__Map_size s, l.map (withValue k v)) := by
  have h := hr.linked
  obtain ⟨c, l, hd, hmem⟩ := hk
  rw [dump_linked h] at hd
  cases hd
  obtain ⟨p, hf⟩ := firstIdx_isSome_of_mem hmem
  obtain ⟨e, he, hkey, _, _⟩ := firstIdx_some hf 0
  have hput := put_found_eq h hf he v
  obtain ⟨s2, g1, g2, g3⟩ := put_linked h k v
  rw [hput] at g1
  cases g1
  obtain ⟨hp, hp2⟩ := List.getElem?_eq_some.1 he
  refine ⟨_, p, e, view s, hput, he, hkey, rfl, rfl, ?_, ?_, ?_, dump_linked h, ?_⟩
  · simp only [List.getElem?_set, hp, if_true]
    simp [setValue, hkey]
  · intro q e1 h1 h2
    exact heap_key_unique hr.keys_nodup h1 he (h2.trans hkey.symm)
  · intro q e1 h1 h2
    simp only [List.getElem?_set]
    split
    · next hpq =>
      subst hpq
      rw [he] at h1
      cases h1
      exact absurd hkey h2
    · exact h1
  · rw [dump_linked g2, g3, upsert_eq_map v hr.keys_nodup hmem]
    rfl

theorem put_update_value_only_witness :
    MapReachable demoStore ∧
    (∃ c l, __Map_dump demoStore = some (c, l) ∧ cstr "y" ∈ l.map Prod.fst) ∧
    __Map_put demoStore (some (cstr "y")) 7 =
      some { demoStore with heap := demoStore.heap.set 1 ⟨cstr "y", 7, some 0, some 2⟩ } ∧
    ∃ s1 p e l, __Map_put demoStore (some (cstr "y")) 7 = some s1 ∧
      demoStore.heap[p]? = some e ∧ e.key = cstr "y" ∧
      s1.self = demoStore.self ∧
      s1.heap = demoStore.heap.set p (setValue 7 e) ∧
      s1.heap[p]? = some (MapEntry.mk (cstr "y") 7 e.__prev e.__next) ∧
      (∀ (q : Nat) (e1 : MapEntry), demoStore.heap[q]? = some e1 → e1.key = cstr "y" →
        q = p) ∧
      (∀ (q : Nat) (e1 : MapEntry), demoStore.heap[q]? = some e1 → e1.key ≠ cstr "y" →
        s1.heap[q]? = some e1) ∧
      __Map_dump demoStore = some (__Map_size demoStore, l) ∧
      __Map_dump s1 = some (__Map_size demoStore, l.map (withValue (cstr "y") 7)) :=
  ⟨reachable_demoStore, ⟨4, demoLines, by decide, by decide⟩, by decide,
    put_update_value_only demoStore (cstr "y") 7 reachable_demoStore
      ⟨4, demoLines, by decide, by decide⟩⟩

/-- C29: in every reachable store without an entry of the non-null key `k`,
`put(k, v)` returns and appends exactly one entry: a fresh cell `new` holding
`(k, v)` with `__prev` the previous tail and `__next` `NULL`; the previous
tail, if any, now points to it, otherwise it becomes `__head`; it is the new
`__tail`; `__count` grows by exactly 1; every other cell is untouched and
`dump` lists the previous entries in their order with their values, followed
by `(k, v)`. -/
theorem put_insert_appends (s : MapState) (k : CString) (v : Int)
    (hr : MapReachable s)
    (hk : ∃ c l, __Map_dump s = some (c, l) ∧ k ∉ l.map Prod.fst) :
    ∃ s1 new l addrs, __Map_put s (some k) v = some s1 ∧
      s.heap[new]? = none ∧
      s1.heap[new]? = some (MapEntry.mk k v s.self.__tail none) ∧
      s1.self.__tail = some new ∧
      s1.self.__count = s.self.__count + 1 ∧
      (s.self.__tail = none → s1.self.__head = some new) ∧
      (∀ tl, s.self.__tail = some tl → s1.self.__head = s.self.__head ∧
        ∃ e, s.heap[tl]? = some e ∧ s1.heap[tl]? = some (setNext (some new) e)) ∧
      (∀ (q : Nat) (e1 : MapEntry), s.heap[q]? = some e1 → s.self.__tail ≠ some q →
        s1.heap[q]? = some e1) ∧
      chainOf s = some addrs ∧ chainOf s1 = some (addrs ++ [new]) ∧
      __Map_dump s = some (__Map_size s, l) ∧
      __Map_dump s1 = some (__Map_size s + 1, l ++ [(k, v)]) := by
  have h := hr.linked
  obtain ⟨c, l, hd, hmem⟩ := hk
  rw [dump_linked h] at hd
  cases hd
  have hf := firstIdx_eq_none_of_not_mem hmem
  obtain ⟨s2, g1, g2, g3⟩ := put_linked h k v
  have hview : view s2 = view s ++ [(k, v)] := by
    rw [g3]; exact (firstIdx_none hf 0).2 v
  have hlen2 : s2.heap.length = s.heap.length + 1 := by
    have := congrArg List.length hview
    simpa [view] using this
  have hchain : chainOf s2 = some (List.range s.heap.length ++ [s.heap.length]) := by
    rw [chainOf_linked g2, hlen2, List.range_succ]
  have hdump : __Map_dump s2 = some (__Map_size s + 1, view s ++ [(k, v)]) := by
    rw [dump_linked g2, hview, g2.count, hlen2, __Map_size, h.count]
    push_cast
    rfl
  by_cases hpos : 0 < s.heap.length
  · have hput := put_new_nonempty h hf hpos v
    rw [hput] at g1
    cases g1
    have htail : s.self.__tail = some (s.heap.length - 1) := by
      rw [h.tail]; simp [Nat.ne_of_gt hpos]
    refine ⟨_, s.heap.length, view s, List.range s.heap.length, hput, ?_, ?_, rfl, rfl, ?_, ?_,
      ?_, chainOf_linked h, hchain, dump_linked h, hdump⟩
    · exact List.getElem?_eq_none (Nat.le_refl _)
    · simp only [List.getElem?_set]
      rw [if_neg (by omega)]
      simp
    · intro hnone
      rw [htail] at hnone
      cases hnone
    · intro tl htl
      rw [htail] at htl
      simp only [Option.some.injEq] at htl
      subst htl
      refine ⟨rfl, s.heap[s.heap.length - 1], List.getElem?_eq_getElem (by omega), ?_⟩
      simp only [List.getElem?_set, if_true]
      rw [if_pos (by simp; omega)]
    · intro q e1 h1 hne
      obtain ⟨hq, hq2⟩ := List.getElem?_eq_some.1 h1
      simp only [List.getElem?_set]
      rw [if_neg]
      · rw [List.getElem?_append_left hq]
        exact h1
      · intro hc
        apply hne
        rw [htail, hc]
  · have hnil : s.heap = [] := List.length_eq_zero.1 (by omega)
    have hput := put_new_empty h k hnil v
    rw [hput] at g1
    cases g1
    have htail : s.self.__tail = none := by rw [h.tail]; simp [hnil]
    have hcount : s.self.__count = 0 := by rw [h.count]; simp [hnil]
    refine ⟨_, s.heap.length, view s, List.range s.heap.length, hput, ?_, ?_, ?_, ?_, ?_, ?_,
      ?_, chainOf_linked h, hchain, dump_linked h, hdump⟩
    · simp [hnil]
    · simp [hnil, htail]
    · simp [hnil]
    · simp [hcount]
    · intro _; simp [hnil]
    · intro tl htl
      rw [htail] at htl
      cases htl
    · intro q e1 h1 _
      simp [hnil] at h1

theorem put_insert_appends_witness :
    MapReachable demoStore ∧
    (∃ c l, __Map_dump demoStore = some (c, l) ∧ cstr "x" ∉ l.map Prod.fst) ∧
    (__Map_put demoStore (some (cstr "x")) 5).bind __Map_dump =
      some (5, demoLines ++ [(cstr "x", 5)]) ∧
    ∃ s1 new l addrs, __Map_put demoStore (some (cstr "x")) 5 = some s1 ∧
      demoStore.heap[new]? = none ∧
      s1.heap[new]? = some (MapEntry.mk (cstr "x") 5 demoStore.self.__tail none) ∧
      s1.self.__tail = some new ∧
      s1.self.__count = demoStore.self.__count + 1 ∧
      (demoStore.self.__tail = none → s1.self.__head = some new) ∧
      (∀ tl, demoStore.self.__tail = some tl → s1.self.__head = demoStore.self.__head ∧
        ∃ e, demoStore.heap[tl]? = some e ∧ s1.heap[tl]? = some (setNext (some new) e)) ∧
      (∀ (q : Nat) (e1 : MapEntry), demoStore.heap[q]? = some e1 →
        demoStore.self.__tail ≠ some q → s1.heap[q]? = some e1) ∧
      chainOf demoStore = some addrs ∧ chainOf s1 = some (addrs ++ [new]) ∧
      __Map_dump demoStore = some (__Map_size demoStore, l) ∧
      __Map_dump s1 = some (__Map_size demoStore + 1, l ++ [(cstr "x", 5)]) :=
  ⟨reachable_demoStore, ⟨4, demoLines, by decide, by decide⟩, by decide,
    put_insert_appends demoStore (cstr "x") 5 reachable_demoStore
      ⟨4, demoLines, by decide, by decide⟩⟩

/-! ## `py_lstrip` and `py_rstrip` -/

theorem lstripScan_eq (s : CString) :
    ∀ i, lstripScan s i = i + (s.takeWhile isLeadSpace).length := by
  induction s with
  | nil => intro i; rfl
  | cons c rest ih =>
    intro i
    unfold lstripScan
    by_cases hc : isLeadSpace c = true
    · have h0 : c ≠ 0 := by
        intro h; subst h; simp [isLeadSpace] at hc
      simp only [h0, hc, ne_eq, not_false_eq_true, and_self, if_true, List.takeWhile_cons,
        List.length_cons]
      rw [ih]
      omega
    · simp [hc, List.takeWhile_cons]

theorem drop_takeWhile_length (p : Nat → Bool) (s : List Nat) :
    s.drop (s.takeWhile p).length = s.dropWhile p := by
  induction s with
  | nil => rfl
  | cons c rest ih =>
    by_cases hc : p c = true
    · simp [List.takeWhile_cons, List.dropWhile_cons, hc, ih]
    · simp [List.takeWhile_cons, List.dropWhile_cons, hc]

/-- C22: for every string `s`, the string after `py_lstrip(s)` is `s` without
its longest leading run of space, tab and newline characters: `s` is that run
followed by the result, and the result does not start with one of these
characters. -/
theorem py_lstrip_spec (s : CString) :
    py_lstrip s = s.dropWhile isLeadSpace ∧
    s = s.takeWhile isLeadSpace ++ py_lstrip s ∧
    (∀ c ∈ s.takeWhile isLeadSpace, c = 32 ∨ c = 9 ∨ c = 10) ∧
    (∀ c, (py_lstrip s).head? = some c → c ≠ 32 ∧ c ≠ 9 ∧ c ≠ 10) := by
  have h1 : py_lstrip s = s.dropWhile isLeadSpace := by
    unfold py_lstrip
    by_cases hs : s.length = 0
    · have : s = [] := List.length_eq_zero.1 hs
      subst this
      rfl
    · rw [if_neg hs, lstripScan_eq, Nat.zero_add]
      by_cases hz : (s.takeWhile isLeadSpace).length > 0
      · rw [if_pos hz, drop_takeWhile_length]
      · rw [if_neg hz]
        have h0 : (s.takeWhile isLeadSpace).length = 0 := by omega
        rw [← drop_takeWhile_length, h0]
        rfl
  refine ⟨h1, ?_, ?_, ?_⟩
  · rw [h1, List.takeWhile_append_dropWhile]
  · intro c hc
    have := List.mem_takeWhile_imp hc
    simp only [isLeadSpace, Bool.or_eq_true, beq_iff_eq] at this
    tauto
  · intro c hc
    rw [h1] at hc
    have := List.head?_dropWhile_not isLeadSpace s
    rw [hc] at this
    simp only [isLeadSpace, Option.all_some, Bool.not_eq_true', Bool.or_eq_false_iff,
      beq_eq_false_iff_ne, ne_eq, Bool.not_eq_eq_eq_not, Bool.not_true] at this
    tauto

theorem py_lstrip_spec_witness :
    py_lstrip lstripDemo = cstr "Hello   World    " ∧
    lstripDemo = lstripDemo.takeWhile isLeadSpace ++ py_lstrip lstripDemo ∧
    (∀ c, (py_lstrip lstripDemo).head? = some c → c ≠ 32 ∧ c ≠ 9 ∧ c ≠ 10) :=
  ⟨by decide, (py_lstrip_spec lstripDemo).2.1, (py_lstrip_spec lstripDemo).2.2.2⟩

theorem cstringOf_append_zeros (p : List Nat) (hp : ∀ c ∈ p, c ≠ 0) (n : Nat) :
    cstringOf (p ++ List.replicate n 0) = p := by
  induction p with
  | nil => cases n <;> simp [cstringOf, List.replicate_succ]
  | cons c rest ih =>
    have hc : c ≠ 0 := hp c (List.mem_cons_self _ _)
    have := ih fun x hx => hp x (List.mem_cons_of_mem _ hx)
    simp only [cstringOf] at this ⊢
    simp [List.takeWhile_cons, hc, this]

theorem rstripLoop_spec (p : List Nat) :
    p ≠ [] → (∀ c ∈ p, c ≠ 0) → ∀ n,
      cstringOf (rstripLoop (p ++ List.replicate n 0) (p.length - 1)) =
        p.rdropWhile isSpaceChar := by
  induction p using List.reverseRecOn with
  | nil => intro h; exact absurd rfl h
  | append_singleton q c ih =>
    intro _ hp n
    have hq : ∀ x ∈ q, x ≠ 0 := fun x hx => hp x (List.mem_append_left _ hx)
    have hc0 : c ≠ 0 := hp c (by simp)
    have hidx : (q ++ [c]).length - 1 = q.length := by simp
    have hchar : charAt (q ++ [c] ++ List.replicate n 0) q.length = c := by
      simp only [charAt, List.getD_eq_getElem?_getD, List.append_assoc]
      rw [List.getElem?_append_right (Nat.le_refl _)]
      simp
    have hset : (q ++ [c] ++ List.replicate n 0).set q.length 0 =
        q ++ List.replicate (n + 1) 0 := by
      rw [List.append_assoc, List.set_append_right _ _ (Nat.le_refl _)]
      simp [List.replicate_succ]
    rw [hidx]
    by_cases hc : c = 32
    · subst hc
      rw [List.rdropWhile_concat_pos _ _ _ (by decide)]
      cases hl : q.length with
      | zero =>
        have hnil : q = [] := List.length_eq_zero.1 hl
        subst hnil
        simp [rstripLoop, charAt, cstringOf, List.rdropWhile]
      | succ j =>
        have hne : q ≠ [] := by intro h; rw [h] at hl; simp at hl
        have := ih hne hq (n + 1)
        rw [hl] at hchar hset this
        simp only [Nat.add_sub_cancel] at this
        unfold rstripLoop
        rw [hchar, if_pos rfl, hset]
        exact this
    · rw [List.rdropWhile_concat_neg _ _ _ (by simpa [isSpaceChar] using hc)]
      have hres : rstripLoop (q ++ [c] ++ List.replicate n 0) q.length =
          q ++ [c] ++ List.replicate n 0 := by
        cases hl : q.length with
        | zero => rw [hl] at hchar; unfold rstripLoop; rw [hchar, if_neg hc]
        | succ j => rw [hl] at hchar; unfold rstripLoop; rw [hchar, if_neg hc]
      rw [hres]
      exact cstringOf_append_zeros (q ++ [c]) hp n

/-- What `py_rstrip` does on a real C string: it removes the trailing run of
space characters (code 32) and nothing else. -/
theorem py_rstrip_spaces (s : CString) (hs : wellFormed s = true) :
    py_rstrip s = s.rdropWhile isSpaceChar := by
  have h0 : ∀ c ∈ s, c ≠ 0 := by
    intro c hc
    have := List.all_eq_true.1 hs c hc
    simp only [Bool.and_eq_true, decide_eq_true_eq] at this
    omega
  unfold py_rstrip
  by_cases hl : s.length = 0
  · have : s = [] := List.length_eq_zero.1 hl
    subst this
    rfl
  · rw [if_neg hl]
    have hne : s ≠ [] := fun h => hl (by rw [h]; rfl)
    have := rstripLoop_spec s hne h0 0
    simpa using this

theorem dropWhile_head_not (p : Nat → Bool) :
    ∀ (l : List Nat) (a : Nat) (t : List Nat), l.dropWhile p = a :: t → p a = false := by
  intro l
  induction l with
  | nil => intro a t h; cases h
  | cons b l ih =>
    intro a t h
    rw [List.dropWhile_cons] at h
    split at h
    · exact ih a t h
    · next hb =>
      cases h
      simpa using hb

/-- C23, as amended: for every C string `s`, `py_rstrip` returns `s` without
its trailing run of space characters (code 32) and with the remaining
characters unchanged: `s` is the result followed by spaces only, the result
does not end with a space, and a string that ends with any other character,
a tab or a newline included, is returned as it is. -/
theorem py_rstrip_spec (s : CString) (hs : wellFormed s = true) :
    py_rstrip s = s.rdropWhile isSpaceChar ∧
    (∃ n, s = py_rstrip s ++ List.replicate n 32) ∧
    (py_rstrip s).getLast? ≠ some 32 ∧
    (∀ c, s.getLast? = some c → c ≠ 32 → py_rstrip s = s) := by
  have h := py_rstrip_spaces s hs
  have hsplit : s = s.rdropWhile isSpaceChar ++ (s.reverse.takeWhile isSpaceChar).reverse := by
    unfold List.rdropWhile
    rw [← List.reverse_append, List.takeWhile_append_dropWhile, List.reverse_reverse]
  have hall : ∀ c ∈ (s.reverse.takeWhile isSpaceChar).reverse, c = 32 := by
    intro c hc
    have := List.mem_takeWhile_imp (List.mem_reverse.1 hc)
    simpa [isSpaceChar] using this
  have hrep : (s.reverse.takeWhile isSpaceChar).reverse =
      List.replicate (s.reverse.takeWhile isSpaceChar).reverse.length 32 :=
    List.eq_replicate_iff.2 ⟨rfl, hall⟩
  have hlast : (s.rdropWhile isSpaceChar).getLast? ≠ some 32 := by
    unfold List.rdropWhile
    rw [List.getLast?_reverse]
    cases hd : s.reverse.dropWhile isSpaceChar with
    | nil => simp
    | cons a t =>
      have := dropWhile_head_not isSpaceChar _ a t hd
      simp only [List.head?_cons, ne_eq, Option.some.injEq]
      intro e
      subst e
      simp [isSpaceChar] at this
  refine ⟨h, ⟨(s.reverse.takeWhile isSpaceChar).reverse.length, ?_⟩, ?_, ?_⟩
  · rw [h, ← hrep]
    exact hsplit
  · rw [h]
    exact hlast
  · intro c hc hne
    rw [h]
    cases hk : (s.reverse.takeWhile isSpaceChar).reverse.length with
    | zero =>
      rw [hk] at hrep
      rw [hrep] at hsplit
      simpa using hsplit.symm
    | succ k =>
      exfalso
      rw [hk] at hrep
      rw [hrep, List.replicate_succ', ← List.append_assoc] at hsplit
      rw [hsplit, List.getLast?_append] at hc
      simp at hc
      exact hne hc.symm

theorem py_rstrip_spec_witness :
    wellFormed (cstr "   Hello   World    ") = true ∧
    py_rstrip (cstr "   Hello   World    ") = cstr "   Hello   World" ∧
    py_rstrip (cstr "   Hello   World    ") =
      (cstr "   Hello   World    ").rdropWhile isSpaceChar ∧
    (∃ n, cstr "   Hello   World    " =
      py_rstrip (cstr "   Hello   World    ") ++ List.replicate n 32) ∧
    (py_rstrip (cstr "   Hello   World    ")).getLast? ≠ some 32 ∧
    (∀ c, (cstr "   Hello   World    ").getLast? = some c → c ≠ 32 →
      py_rstrip (cstr "   Hello   World    ") = cstr "   Hello   World    ") :=
  ⟨by decide, by decide, py_rstrip_spec (cstr "   Hello   World    ") (by decide)⟩

/-- On the string `Hello`, a space, a tab, `py_rstrip` changes nothing: the
tab stays at the end, and the space in front of it as well; a trailing
newline stays too, and of `Hello`, a tab, two spaces only the two spaces are
removed. -/
theorem py_rstrip_keeps_tab :
    wellFormed (cstr "Hello" ++ [32, 9]) = true ∧
    py_rstrip (cstr "Hello" ++ [32, 9]) = cstr "Hello" ++ [32, 9] ∧
    (py_rstrip (cstr "Hello" ++ [32, 9])).getLast? = some 9 ∧
    py_rstrip (cstr "Hello" ++ [9, 32, 32]) = cstr "Hello" ++ [9] ∧
    py_rstrip (cstr "Hello" ++ [10]) = cstr "Hello" ++ [10] ∧
    py_rstrip (cstr "   Hello   World    ") = cstr "   Hello   World" := by
  decide

/-! ## `reverse_list` -/

theorem dseg_frame {m m1 : List DNode} {pv p last e : Option Nat}
    {l : List (Nat × CString)} (h : DSeg m pv p l last e)
    (hf : ∀ a ∈ l.map Prod.fst, m1[a]? = m[a]?) : DSeg m1 pv p l last e := by
  induction h with
  | nil pv p => exact DSeg.nil pv p
  | cons hr _ ih =>
    refine DSeg.cons ?_ (ih fun a ha => hf a ?_)
    · rw [hf _ (by simp)]; exact hr
    · simp only [List.map_cons, List.mem_cons]; exact Or.inr ha

theorem dseg_append {m : List DNode} {pv p mid last1 last2 e : Option Nat}
    {l1 l2 : List (Nat × CString)} (h1 : DSeg m pv p l1 last1 mid)
    (h2 : DSeg m last1 mid l2 last2 e) : DSeg m pv p (l1 ++ l2) last2 e := by
  induction h1 with
  | nil pv p => exact h2
  | cons hr _ ih => exact DSeg.cons hr (ih h2)

theorem dseg_nil_inv {m : List DNode} {pv p last e : Option Nat}
    (h : DSeg m pv p [] last e) : last = pv ∧ e = p := by
  cases h; exact ⟨rfl, rfl⟩

theorem dseg_snoc_inv {m : List DNode} {l : List (Nat × CString)} :
    ∀ {pv p last e : Option Nat} {a : Nat} {t : CString},
      DSeg m pv p (l ++ [(a, t)]) last e →
      last = some a ∧ ∃ q, m[a]? = some ⟨t, e, q⟩ ∧ DSeg m pv p l q (some a) := by
  induction l with
  | nil =>
    intro pv p last e a t h
    cases h with
    | cons hr hs =>
      cases hs
      exact ⟨rfl, _, hr, DSeg.nil _ _⟩
  | cons c l ih =>
    intro pv p last e a t h
    cases h with
    | cons hr hs =>
      obtain ⟨h1, q, h2, h3⟩ := ih hs
      exact ⟨h1, q, h2, DSeg.cons hr h3⟩

theorem dseg_functional {m : List DNode} {l1 : List (Nat × CString)} :
    ∀ {pv pv2 p last last2 : Option Nat} {l2 : List (Nat × CString)},
      DSeg m pv p l1 last none → DSeg m pv2 p l2 last2 none → l1 = l2 := by
  induction l1 with
  | nil =>
    intro pv pv2 p last last2 l2 h1 h2
    cases h1
    cases h2
    rfl
  | cons c l ih =>
    intro pv pv2 p last last2 l2 h1 h2
    cases h1 with
    | cons hr hs =>
      cases h2 with
      | cons hr2 hs2 =>
        rw [hr] at hr2
        cases hr2
        rw [ih hs hs2]

theorem dseg_suffix {m : List DNode} {l : List (Nat × CString)} :
    ∀ {pv p last : Option Nat} {a : Nat}, DSeg m pv p l last none → a ∈ l.map Prod.fst →
      ∃ pv2 l2 last2, DSeg m pv2 (some a) l2 last2 none ∧ l2.length ≤ l.length := by
  induction l with
  | nil => intro pv p last a _ ha; simp at ha
  | cons c l ih =>
    intro pv p last a h ha
    cases h with
    | cons hr hs =>
      simp only [List.map_cons, List.mem_cons] at ha
      rcases ha with rfl | ha
      · exact ⟨_, _, _, DSeg.cons hr hs, Nat.le_refl _⟩
      · obtain ⟨pv2, l2, last2, h1, h2⟩ := ih hs ha
        exact ⟨pv2, l2, last2, h1, Nat.le_succ_of_le h2⟩

/-- The nodes of a list that ends in `NULL` have pairwise different addresses. -/
theorem dseg_nodup {m : List DNode} {l : List (Nat × CString)} :
    ∀ {pv p last : Option Nat}, DSeg m pv p l last none → (l.map Prod.fst).Nodup := by
  induction l with
  | nil => intro _ _ _ _; exact List.nodup_nil
  | cons c l ih =>
    intro pv p last h
    cases h with
    | cons hr hs =>
      rw [List.map_cons, List.nodup_cons]
      refine ⟨fun hmem => ?_, ih hs⟩
      obtain ⟨pv2, l2, last2, h1, h2⟩ := dseg_suffix hs hmem
      have := dseg_functional (DSeg.cons hr hs) h1
      rw [← this] at h2
      simp at h2

theorem dseg_addr_lt {m : List DNode} {pv p last e : Option Nat} {l : List (Nat × CString)}
    (h : DSeg m pv p l last e) : ∀ a ∈ l.map Prod.fst, a < m.length := by
  induction h with
  | nil pv p => intro a ha; simp at ha
  | cons hr _ ih =>
    intro a ha
    simp only [List.map_cons, List.mem_cons] at ha
    rcases ha with rfl | ha
    · exact (List.getElem?_eq_some.1 hr).1
    · exact ih a ha

theorem dseg_length_le {m : List DNode} {pv p last : Option Nat} {l : List (Nat × CString)}
    (h : DSeg m pv p l last none) : l.length ≤ m.length := by
  have hn := dseg_nodup h
  have hlt := dseg_addr_lt h
  have hsub : (l.map Prod.fst).toFinset ⊆ Finset.range m.length := by
    intro a ha
    rw [List.mem_toFinset] at ha
    exact Finset.mem_range.2 (hlt a ha)
  have := Finset.card_le_card hsub
  rw [List.toFinset_card_of_nodup hn, Finset.card_range, List.length_map] at this
  exact this

/-- Swapping the links of every node of a stretch turns it into the stretch
of the same nodes in reverse order. -/
theorem dseg_reverse {m m1 : List DNode} {pv p last e : Option Nat}
    {l : List (Nat × CString)} (h : DSeg m pv p l last e)
    (hs : ∀ a ∈ l.map Prod.fst, m1[a]? = (m[a]?).map swapLinks) :
    DSeg m1 e last l.reverse p pv := by
  induction h with
  | nil pv p => exact DSeg.nil p pv
  | @cons a t nx pv last e rest hr _ ih =>
    rw [List.reverse_cons]
    refine dseg_append (ih fun x hx => hs x ?_) (DSeg.cons ?_ (DSeg.nil _ _))
    · simp only [List.map_cons, List.mem_cons]; exact Or.inr hx
    · rw [hs a (by simp), hr]
      rfl

theorem walkLoop_dseg {m : List DNode} {pv p last : Option Nat} {l : List (Nat × CString)}
    (h : DSeg m pv p l last none) :
    ∀ fuel, l.length < fuel → walkLoop DNode.next m fuel p = some (l.map Prod.snd) := by
  generalize hq : (none : Option Nat) = q at h
  induction h with
  | nil pv p =>
    intro fuel hf
    subst hq
    obtain ⟨f, rfl⟩ : ∃ f, fuel = f + 1 := ⟨fuel - 1, by simp at hf; omega⟩
    rfl
  | cons hr _ ih =>
    intro fuel hf
    obtain ⟨f, rfl⟩ : ∃ f, fuel = f + 1 := ⟨fuel - 1, by simp at hf; omega⟩
    simp only [walkLoop, hr]
    rw [ih hq f (by simp only [List.length_cons] at hf; omega)]
    rfl

theorem walkLoop_prev_eq (m : List DNode) :
    ∀ fuel p, walkLoop DNode.prev m fuel p = walkLoop DNode.next (m.map swapLinks) fuel p := by
  intro fuel
  induction fuel with
  | zero => intro p; rfl
  | succ f ih =>
    intro p
    cases p with
    | none => rfl
    | some a =>
      simp only [walkLoop, List.getElem?_map]
      cases m[a]? with
      | none => rfl
      | some nd => simp only [Option.map_some', ih]; rfl

/-- The loop of `reverse_list` over the nodes `rest` still ahead: it ends,
swaps the links of exactly these nodes, and leaves in `temp` the former
`prev` of the last of them. -/
theorem reverseLoop_spec (rest : List (Nat × CString)) :
    ∀ (m : List DNode) (pv cur last temp : Option Nat) (fuel : Nat),
      DSeg m pv cur rest last none → rest.length < fuel →
      ∃ m1 temp1, reverseLoop m fuel cur temp = some (m1, temp1) ∧
        m1.length = m.length ∧
        (∀ a, a ∉ rest.map Prod.fst → m1[a]? = m[a]?) ∧
        (∀ a ∈ rest.map Prod.fst, m1[a]? = (m[a]?).map swapLinks) ∧
        (rest = [] → temp1 = temp) ∧
        (∀ a t, rest.getLast? = some (a, t) → ∃ nd, m[a]? = some nd ∧ temp1 = nd.prev) := by
  induction rest with
  | nil =>
    intro m pv cur last temp fuel h hf
    obtain ⟨_, hcur⟩ := dseg_nil_inv h
    subst hcur
    obtain ⟨f, rfl⟩ : ∃ f, fuel = f + 1 := ⟨fuel - 1, by simp at hf; omega⟩
    exact ⟨m, temp, rfl, rfl, fun _ _ => rfl, fun a ha => by simp at ha, fun _ => rfl,
      fun a t hl => by simp at hl⟩
  | cons c rest ih =>
    intro m pv cur last temp fuel h hf
    obtain ⟨f, rfl⟩ : ∃ f, fuel = f + 1 := ⟨fuel - 1, by simp at hf; omega⟩
    have hnd := dseg_nodup h
    cases h with
    | @cons a t nx _ _ _ _ hr hs =>
      rw [List.map_cons, List.nodup_cons] at hnd
      have hlt : a < m.length := (List.getElem?_eq_some.1 hr).1
      have hframe : ∀ x, x ≠ a → (m.set a (swapLinks ⟨t, nx, pv⟩))[x]? = m[x]? := by
        intro x hx
        rw [List.getElem?_set]
        simp [Ne.symm hx]
      have hs1 : DSeg (m.set a (swapLinks ⟨t, nx, pv⟩)) (some a) nx rest last none := by
        apply dseg_frame hs
        intro x hx
        apply hframe
        intro hxa
        rw [hxa] at hx
        exact hnd.1 hx
      obtain ⟨m1, temp1, h1, h2, h3, h4, h5, h6⟩ :=
        ih _ (some a) nx last pv f hs1 (by simp only [List.length_cons] at hf; omega)
      refine ⟨m1, temp1, ?_, ?_, ?_, ?_, ?_, ?_⟩
      · simp only [reverseLoop, hr]
        exact h1
      · rw [h2, List.length_set]
      · intro x hx
        simp only [List.map_cons, List.mem_cons, not_or] at hx
        rw [h3 x hx.2, hframe x hx.1]
      · intro x hx
        simp only [List.map_cons, List.mem_cons] at hx
        by_cases hxa : x = a
        · subst hxa
          rw [h3 x hnd.1, List.getElem?_set, if_pos rfl, if_pos hlt, hr]
          rfl
        · rcases hx with hx | hx
          · exact absurd hx hxa
          · rw [h4 x hx, hframe x hxa]
      · intro hc
        cases hc
      · intro b tb hl
        cases rest with
        | nil =>
          simp only [List.getLast?_singleton, Option.some.injEq, Prod.mk.injEq] at hl
          obtain ⟨rfl, rfl⟩ := hl
          exact ⟨_, hr, h5 rfl⟩
        | cons c2 rest2 =>
          rw [List.getLast?_cons_cons] at hl
          obtain ⟨nd, hn1, hn2⟩ := h6 b tb hl
          have hb : b ∈ (c2 :: rest2).map Prod.fst := by
            have := List.mem_of_getLast?_eq_some hl
            exact List.mem_map.2 ⟨(b, tb), this, rfl⟩
          have hba : b ≠ a := by
            intro hc
            rw [hc] at hb
            exact hnd.1 hb
          rw [hframe b hba] at hn1
          exact ⟨nd, hn1, hn2⟩

/-- C21: for every well-formed doubly linked list (empty, one node or more),
`reverse_list` returns; the returned head is the former tail, and the memory
then holds a well-formed doubly linked list of the same nodes in reverse
order whose tail is the former head. So `print_list` from the new head
prints the texts in reverse order, and `print_list_reverse` from the new tail
prints them in the original order. -/
theorem reverse_list_spec (m : List DNode) (head tail : Option Nat)
    (cells : List (Nat × CString)) (h : IsDList m head cells tail) :
    ∃ m1, reverse_list m head = some (tail, m1) ∧
      IsDList m1 tail cells.reverse head ∧
      print_list m head = some (cells.map Prod.snd) ∧
      print_list m1 tail = some ((cells.map Prod.snd).reverse) ∧
      print_list_reverse m1 head = some (cells.map Prod.snd) ∧
      m1.length = m.length ∧
      (∀ a, a ∉ cells.map Prod.fst → m1[a]? = m[a]?) := by
  unfold IsDList at h
  have hlen := dseg_length_le h
  obtain ⟨m1, temp1, h1, h2, h3, h4, h5, h6⟩ :=
    reverseLoop_spec cells m none head tail none (m.length + 1) h (Nat.lt_succ_of_le hlen)
  have hrev : DSeg m1 none tail cells.reverse head none := dseg_reverse h h4
  have hret : reverse_list m head = some (tail, m1) := by
    unfold reverse_list
    rw [h1]
    rcases List.eq_nil_or_concat' cells with rfl | ⟨l, ⟨a, t⟩, rfl⟩
    · obtain ⟨ht, hp⟩ := dseg_nil_inv h
      subst hp
      rw [h5 rfl, ht]
    · obtain ⟨ht, q, hq, hl⟩ := dseg_snoc_inv h
      obtain ⟨nd, hn1, hn2⟩ := h6 a t (by simp)
      rw [hq] at hn1
      cases hn1
      simp only at hn2
      subst hn2
      rcases List.eq_nil_or_concat' l with rfl | ⟨l2, ⟨b, tb⟩, rfl⟩
      · obtain ⟨hq0, hp0⟩ := dseg_nil_inv hl
        subst hq0
        simp only
        rw [ht, hp0]
      · obtain ⟨hq1, q2, hb, _⟩ := dseg_snoc_inv hl
        subst hq1
        have hb1 : m1[b]? = some (swapLinks ⟨tb, some a, q2⟩) := by
          rw [h4 b (by simp), hb]
          rfl
        simp only [hb1]
        rw [ht]
        rfl
  have hlen1 : cells.reverse.length < m1.length + 1 := by
    rw [List.length_reverse, h2]
    exact Nat.lt_succ_of_le hlen
  refine ⟨m1, hret, hrev, walkLoop_dseg h _ (Nat.lt_succ_of_le hlen), ?_, ?_, h2, h3⟩
  · unfold print_list
    rw [walkLoop_dseg hrev _ hlen1, List.map_reverse]
  · unfold print_list_reverse
    rw [walkLoop_prev_eq]
    have hback : DSeg (m1.map swapLinks) none head cells.reverse.reverse tail none :=
      dseg_reverse hrev (fun a _ => List.getElem?_map _ _ _)
    rw [List.reverse_reverse] at hback
    have := walkLoop_dseg hback (m1.length + 1) (by
      rw [h2]; exact Nat.lt_succ_of_le hlen)
    rw [← this]

theorem isDList_sample :
    IsDList sampleDHeap (some 0) [(0, cstr "C"), (1, cstr "is"), (2, cstr "fun")] (some 2) :=
  DSeg.cons (by decide) (DSeg.cons (by decide) (DSeg.cons (by decide) (DSeg.nil _ _)))

theorem reverse_list_spec_witness :
    IsDList sampleDHeap (some 0) [(0, cstr "C"), (1, cstr "is"), (2, cstr "fun")] (some 2) ∧
    reverse_list sampleDHeap (some 0) = some (some 2,
      [⟨cstr "C", none, some 1⟩, ⟨cstr "is", some 0, some 2⟩, ⟨cstr "fun", some 1, none⟩]) ∧
    (∃ m1, reverse_list sampleDHeap (some 0) = some (some 2, m1) ∧
      IsDList m1 (some 2) [(2, cstr "fun"), (1, cstr "is"), (0, cstr "C")] (some 0) ∧
      print_list m1 (some 2) = some [cstr "fun", cstr "is", cstr "C"] ∧
      print_list_reverse m1 (some 0) = some [cstr "C", cstr "is", cstr "fun"]) ∧
    (∃ m1, reverse_list [] none = some (none, m1) ∧ IsDList m1 none [] none) ∧
    (∃ m1, reverse_list [⟨cstr "C", none, none⟩] (some 0) = some (some 0, m1) ∧
      IsDList m1 (some 0) [(0, cstr "C")] (some 0)) := by
  refine ⟨isDList_sample, by decide, ?_, ?_, ?_⟩
  · obtain ⟨m1, e1, e2, _, e4, e5, _⟩ := reverse_list_spec _ _ _ _ isDList_sample
    exact ⟨m1, e1, e2, e4, e5⟩
  · obtain ⟨m1, e1, e2, _⟩ := reverse_list_spec [] none none [] (DSeg.nil _ _)
    exact ⟨m1, e1, e2⟩
  · obtain ⟨m1, e1, e2, _⟩ := reverse_list_spec [⟨cstr "C", none, none⟩] (some 0) (some 0)
      [(0, cstr "C")] (DSeg.cons (by decide) (DSeg.nil _ _))
    exact ⟨m1, e1, e2⟩

/-! ## RPN calculator: the stack -/

theorem take_set_self (l : List Int) (n : Nat) (v : Int) :
    (l.set n v).take n = l.take n := by
  apply List.ext_getElem?
  intro i
  simp only [List.getElem?_take, List.getElem?_set]
  by_cases h : i < n
  · have : n ≠ i := by omega
    simp [h, this]
  · simp [h]

theorem take_succ_set (l : List Int) (n : Nat) (v : Int) (h : n < l.length) :
    (l.set n v).take (n + 1) = l.take n ++ [v] := by
  rw [List.take_succ, take_set_self, List.getElem?_set]
  simp [h]

theorem stackOk_top {s : Stack} (h : StackOk s) :
    ∃ n : Nat, s.top = (n : Int) - 1 ∧ n ≤ MAX_STACK ∧ (s.top + 1).toNat = n := by
  obtain ⟨_, h1, h2⟩ := h
  refine ⟨(s.top + 1).toNat, ?_, ?_, rfl⟩
  · have : 0 ≤ s.top + 1 := by omega
    rw [Int.toNat_of_nonneg this]
    omega
  · simp only [MAX_STACK] at h2 ⊢
    omega

theorem length_contents {s : Stack} (h : StackOk s) :
    ((contents s).length : Int) = s.top + 1 := by
  obtain ⟨n, h1, h2, h3⟩ := stackOk_top h
  unfold contents
  rw [h3, List.length_reverse, List.length_take, h.1, Nat.min_eq_left h2, h1]
  omega

/-- The function `push` on a well-formed stack: it stores the value on top
unless the stack holds `MAX_STACK` values, and says so in its flag. -/
theorem push_ok {s : Stack} (h : StackOk s) (v : Int) :
    StackOk (push s v).2 ∧ contents (push s v).2 = pushVals (contents s) v ∧
    (push s v).1 = (if (contents s).length = MAX_STACK then 0 else 1) := by
  obtain ⟨n, h1, h2, h3⟩ := stackOk_top h
  have hl := length_contents h
  unfold push pushVals
  by_cases hf : is_full s = true
  · have ht : s.top = (MAX_STACK : Int) - 1 := by simpa [is_full] using hf
    have hlen : (contents s).length = MAX_STACK := by
      have : ((contents s).length : Int) = (MAX_STACK : Int) := by rw [hl, ht]; omega
      exact_mod_cast this
    simp [hf, hlen, h]
  · have ht : s.top ≠ (MAX_STACK : Int) - 1 := by simpa [is_full] using hf
    have hlen : (contents s).length ≠ MAX_STACK := by
      intro hc
      apply ht
      have : ((contents s).length : Int) = (MAX_STACK : Int) := by exact_mod_cast hc
      rw [hl] at this
      omega
    have hn : n < s.data.length := by
      rw [h.1]
      simp only [MAX_STACK] at ht h2 ⊢
      omega
    simp only [hf, hlen, if_false, Bool.false_eq_true]
    refine ⟨⟨?_, ?_, ?_⟩, ?_, trivial⟩
    · simp [h.1]
    · have := h.2.1
      show -1 ≤ s.top + 1
      omega
    · have := h.2.2
      show s.top + 1 ≤ (MAX_STACK : Int) - 1
      omega
    · unfold contents
      simp only
      have e1 : (s.top + 1 + 1).toNat = n + 1 := by omega
      rw [h3, e1, take_succ_set _ _ _ hn, List.reverse_append]
      rfl

/-- The function `pop` on a well-formed stack: on an empty stack it returns 0
and changes nothing; otherwise it returns 1 with the top value and leaves the
values below it. -/
theorem pop_ok {s : Stack} (h : StackOk s) :
    (contents s = [] → pop s = (0, none, s)) ∧
    (∀ x rest, contents s = x :: rest →
      ∃ s1, pop s = (1, some x, s1) ∧ StackOk s1 ∧ contents s1 = rest ∧
        s1.data = s.data ∧ s1.top = s.top - 1) := by
  obtain ⟨n, h1, h2, h3⟩ := stackOk_top h
  have hl := length_contents h
  constructor
  · intro hc
    rw [hc] at hl
    have : s.top = -1 := by simp at hl; omega
    simp [pop, is_empty, this]
  · intro x rest hc
    rw [hc] at hl
    simp only [List.length_cons, Nat.cast_add, Nat.cast_one] at hl
    have hne : ¬ is_empty s = true := by
      simp only [is_empty, beq_iff_eq]
      omega
    obtain ⟨k, rfl⟩ : ∃ k, n = k + 1 := ⟨n - 1, by omega⟩
    have hk : k < s.data.length := by rw [h.1]; omega
    have htop : s.top.toNat = k := by omega
    have hcont : contents s = s.data[k] :: (s.data.take k).reverse := by
      unfold contents
      rw [h3, List.take_succ, List.getElem?_eq_getElem hk]
      simp
    rw [hcont] at hc
    cases hc
    refine ⟨{ s with top := s.top - 1 }, ?_, ⟨h.1, ?_, ?_⟩, ?_, rfl, rfl⟩
    · simp only [pop, hne, if_false]
      rw [htop, List.getD_eq_getElem?_getD, List.getElem?_eq_getElem hk]
      rfl
    · show -1 ≤ s.top - 1
      omega
    · have := h.2.2
      show s.top - 1 ≤ (MAX_STACK : Int) - 1
      omega
    · unfold contents
      have : (s.top - 1 + 1).toNat = k := by omega
      simp only [this]

theorem stackOk_init (s : Stack) (h : s.data.length = MAX_STACK) :
    StackOk (init s) ∧ contents (init s) = [] := by
  refine ⟨⟨h, Int.le_refl _, by simp [init, MAX_STACK]⟩, ?_⟩
  simp [contents, init]

/-- One turn of the loop of `main` acts on the values held as `stepVals`. -/
theorem rpnStep_vals {s : Stack} (h : StackOk s) (token : CString) :
    (∀ o, rpnStep s token = Sum.inl o → stepVals (contents s) token = Sum.inl o) ∧
    (∀ s1, rpnStep s token = Sum.inr s1 →
      StackOk s1 ∧ stepVals (contents s) token = Sum.inr (contents s1)) := by
  unfold rpnStep stepVals
  by_cases h1 : isOperand token = true
  · simp only [h1, if_true]
    refine ⟨fun o ho => (by cases ho), fun s1 hs => ?_⟩
    cases hs
    obtain ⟨p1, p2, _⟩ := push_ok h (atoi token)
    exact ⟨p1, by rw [p2]⟩
  · simp only [h1, if_false, Bool.false_eq_true]
    by_cases h2 : isOperator token = true
    · simp only [h2, if_true]
      obtain ⟨pe, pn⟩ := pop_ok h
      cases hc : contents s with
      | nil =>
        rw [pe hc]
        exact ⟨fun o ho => by simpa using ho, fun s1 hs => by cases hs⟩
      | cons b rest =>
        obtain ⟨sb, hb1, hb2, hb3, _⟩ := pn b rest hc
        rw [hb1]
        simp only
        obtain ⟨qe, qn⟩ := pop_ok hb2
        cases hr : rest with
        | nil =>
          rw [hr] at hb3
          rw [qe hb3]
          exact ⟨fun o ho => by simpa using ho, fun s1 hs => by cases hs⟩
        | cons a rest2 =>
          rw [hr] at hb3
          obtain ⟨sa, ha1, ha2, ha3, _⟩ := qn a rest2 hb3
          rw [ha1]
          simp only
          cases hop : applyOperator token a b with
          | inl o => exact ⟨fun o1 ho => by simpa using ho, fun s1 hs => by cases hs⟩
          | inr r =>
            refine ⟨fun o ho => (by cases ho), fun s1 hs => ?_⟩
            simp only [Sum.inr.injEq] at hs
            subst hs
            obtain ⟨p1, p2, _⟩ := push_ok ha2 r
            exact ⟨p1, by rw [p2, ha3]⟩
    · simp only [h2, if_false, Bool.false_eq_true]
      exact ⟨fun o ho => by simpa using ho, fun s1 hs => by cases hs⟩

theorem rpnLoop_vals (tokens : List CString) :
    ∀ s : Stack, StackOk s →
      (∀ o, rpnLoop s tokens = Sum.inl o → loopVals (contents s) tokens = Sum.inl o) ∧
      (∀ s1, rpnLoop s tokens = Sum.inr s1 →
        StackOk s1 ∧ loopVals (contents s) tokens = Sum.inr (contents s1)) := by
  induction tokens with
  | nil =>
    intro s h
    exact ⟨fun o ho => (by cases ho), fun s1 hs => by cases hs; exact ⟨h, rfl⟩⟩
  | cons token rest ih =>
    intro s h
    obtain ⟨he, hn⟩ := rpnStep_vals h token
    unfold rpnLoop loopVals
    cases hstep : rpnStep s token with
    | inl o =>
      rw [he o hstep]
      exact ⟨fun o1 ho => by simpa using ho, fun s1 hs => by cases hs⟩
    | inr s2 =>
      obtain ⟨hok, hv⟩ := hn s2 hstep
      rw [hv]
      exact ih s2 hok

/-- The outcome of `main` does not depend on what the array of the local
stack holds at the start: it is the outcome computed on the values held. -/
theorem rpn_main_eq_vals (stack0 : Stack) (h : stack0.data.length = MAX_STACK)
    (line : CString) : rpn_main stack0 line = rpnVals line := by
  obtain ⟨hok, hc⟩ := stackOk_init stack0 h
  obtain ⟨he, hn⟩ := rpnLoop_vals (tokenize line []) (init stack0) hok
  unfold rpn_main rpnVals
  rw [hc] at he hn
  cases hl : rpnLoop (init stack0) (tokenize line []) with
  | inl o => rw [he o hl]
  | inr s =>
    obtain ⟨hs, hv⟩ := hn s hl
    rw [hv]
    have hlen := length_contents hs
    obtain ⟨n, h1, h2, h3⟩ := stackOk_top hs
    by_cases ht : s.top = 0
    · have hn1 : n = 1 := by omega
      subst hn1
      have hpos : 0 < s.data.length := by rw [hs.1]; decide
      have hcont : contents s = [s.data[0]] := by
        unfold contents
        rw [h3, List.take_succ, List.getElem?_eq_getElem hpos]
        simp
      rw [hcont]
      simp [ht, List.getD_eq_getElem?_getD, List.getElem?_eq_getElem hpos]
    · have hne : (contents s).length ≠ 1 := by
        intro hc1
        rw [hc1] at hlen
        apply ht
        simp at hlen
        omega
      have hlen2 : s.top + 1 = ((contents s).length : Int) := hlen.symm
      simp only [if_neg ht, hlen2]
      generalize contents s = st at hne
      cases st with
      | nil => rfl
      | cons x xs =>
        cases xs with
        | nil => simp at hne
        | cons y ys => rfl

/-! ## RPN calculator: tokens and numbers -/

theorem tokenize_run (w : CString) (hw : ∀ c ∈ w, isDelim c = false) :
    ∀ (rest cur : CString), tokenize (w ++ rest) cur = tokenize rest (cur ++ w) := by
  induction w with
  | nil => intro rest cur; simp
  | cons c w ih =>
    intro rest cur
    have hc : isDelim c = false := hw c (List.mem_cons_self _ _)
    rw [List.cons_append, tokenize]
    simp only [hc, Bool.false_eq_true, if_false]
    rw [ih (fun x hx => hw x (List.mem_cons_of_mem _ hx))]
    simp

theorem tokenize_binary {wa wb : CString} {op : Nat}
    (ha : ∀ c ∈ wa, isDelim c = false) (hb : ∀ c ∈ wb, isDelim c = false)
    (hna : wa ≠ []) (hnb : wb ≠ []) (hop : isDelim op = false) :
    tokenize (wa ++ [32] ++ wb ++ [32] ++ [op] ++ [10]) [] = [wa, wb, [op]] := by
  have e : wa ++ [32] ++ wb ++ [32] ++ [op] ++ [10] =
      wa ++ (32 :: (wb ++ (32 :: ([op] ++ [10])))) := by simp
  rw [e, tokenize_run wa ha, List.nil_append, tokenize]
  simp only [show isDelim 32 = true by decide, if_true, hna, if_false]
  rw [tokenize_run wb hb, List.nil_append, tokenize]
  simp only [show isDelim 32 = true by decide, if_true, hnb, if_false]
  simp only [List.singleton_append, tokenize, hop, Bool.false_eq_true, if_false,
    show isDelim 10 = true by decide, if_true, List.nil_append]
  simp

theorem digit_char {d : Nat} (h : d < 10) :
    isdigit (d + 48) = true ∧ isDelim (d + 48) = false ∧ isspace (d + 48) = false ∧
    d + 48 ≠ 45 ∧ d + 48 ≠ 43 ∧ d + 48 - 48 = d := by
  interval_cases d <;> decide

theorem decimalNat_digits (n : Nat) :
    ∃ ds : List Nat, ds ≠ [] ∧ (∀ d ∈ ds, d < 10) ∧
      decimalNat n = ds.map (fun d => d + 48) ∧
      ds.foldl (fun acc d => acc * 10 + d) 0 = n := by
  by_cases hn : n = 0
  · subst hn
    exact ⟨[0], by simp, by simp, by simp [decimalNat], by simp⟩
  · refine ⟨(Nat.digits 10 n).reverse, ?_, ?_, ?_, ?_⟩
    · simpa using Nat.digits_ne_nil_iff_ne_zero.2 hn
    · intro d hd
      exact Nat.digits_lt_base (by decide) (List.mem_reverse.1 hd)
    · simp [decimalNat, hn]
    · have key : ∀ L : List Nat,
          L.reverse.foldl (fun acc d => acc * 10 + d) 0 = Nat.ofDigits 10 L := by
        intro L
        induction L with
        | nil => simp [Nat.ofDigits]
        | cons x L ih =>
          rw [List.reverse_cons, List.foldl_append, ih, Nat.ofDigits_cons]
          simp only [List.foldl_cons, List.foldl_nil]
          ring
      rw [key, Nat.ofDigits_digits]

theorem atoiDigits_map (ds : List Nat) (hd : ∀ d ∈ ds, d < 10) :
    ∀ acc, atoiDigits (ds.map fun d => d + 48) acc =
      ds.foldl (fun acc d => acc * 10 + d) acc := by
  induction ds with
  | nil => intro acc; rfl
  | cons d ds ih =>
    intro acc
    have h := digit_char (hd d (List.mem_cons_self _ _))
    simp only [List.map_cons, atoiDigits, h.1, if_true, List.foldl_cons]
    rw [h.2.2.2.2.2, ih (fun x hx => hd x (List.mem_cons_of_mem _ hx))]

theorem wrapInt_of_inIntRange {x : Int} (h : inIntRange x) : wrapInt x = x :=
  wrapInt_of_range h.1 h.2

/-- The decimal text of an `int` is an operand token without delimiter that
`atoi` reads back as the same value. -/
theorem decimal_token (a : Int) (ha : inIntRange a) :
    decimal a ≠ [] ∧ (∀ c ∈ decimal a, isDelim c = false) ∧
    isOperand (decimal a) = true ∧ atoi (decimal a) = a := by
  obtain ⟨ds, hne, hlt, hdec, hval⟩ := decimalNat_digits a.natAbs
  obtain ⟨d, ds2, rfl⟩ := List.exists_cons_of_ne_nil hne
  have hd := digit_char (hlt d (List.mem_cons_self _ _))
  have hdel : ∀ c ∈ decimalNat a.natAbs, isDelim c = false := by
    intro c hc
    rw [hdec] at hc
    obtain ⟨x, hx, rfl⟩ := List.mem_map.1 hc
    exact (digit_char (hlt x hx)).2.1
  have hat : atoiDigits (decimalNat a.natAbs) 0 = a.natAbs := by
    rw [hdec, atoiDigits_map _ hlt, hval]
  unfold decimal
  by_cases hneg : a < 0
  · simp only [hneg, if_true]
    refine ⟨by simp, ?_, ?_, ?_⟩
    · intro c hc
      rcases List.mem_cons.1 hc with rfl | hc
      · decide
      · exact hdel c hc
    · rw [hdec]
      simp [isOperand, charAt, hd.1]
    · have e : atoi (45 :: decimalNat a.natAbs) =
          wrapInt (-(atoiDigits (decimalNat a.natAbs) 0 : Int)) := by
        have d0 : (45 :: decimalNat a.natAbs).dropWhile isspace =
            45 :: decimalNat a.natAbs := rfl
        have c0 : charAt (45 :: decimalNat a.natAbs) 0 = 45 := rfl
        unfold atoi
        rw [d0, if_pos c0]
        rfl
      rw [e, hat]
      have : -((a.natAbs : Nat) : Int) = a := by omega
      rw [this]
      exact wrapInt_of_inIntRange ha
  · simp only [hneg, if_false]
    refine ⟨by rw [hdec]; simp, hdel, ?_, ?_⟩
    · rw [hdec]
      simp [isOperand, charAt, hd.1]
    · have e : atoi (decimalNat a.natAbs) =
          wrapInt (atoiDigits (decimalNat a.natAbs) 0 : Int) := by
        rw [hdec, List.map_cons]
        have d0 : ((d + 48) :: List.map (fun d => d + 48) ds2).dropWhile isspace =
            (d + 48) :: List.map (fun d => d + 48) ds2 := by
          rw [List.dropWhile_cons, hd.2.2.1]
          rfl
        have c0 : charAt ((d + 48) :: List.map (fun d => d + 48) ds2) 0 = d + 48 := rfl
        unfold atoi
        rw [d0, c0, if_neg hd.2.2.2.1, if_neg hd.2.2.2.2.1]
      rw [e, hat]
      have : ((a.natAbs : Nat) : Int) = a := by omega
      rw [this]
      exact wrapInt_of_inIntRange ha

/-- The values held after the tokens `a`, `b` and an operator. -/
theorem loopVals_binary {wa wb : CString} {op : Nat}
    (ha : isOperand wa = true) (hb : isOperand wb = true)
    (hop : op = 43 ∨ op = 45 ∨ op = 42 ∨ op = 47) :
    loopVals [] [wa, wb, [op]] =
      match applyOperator [op] (atoi wa) (atoi wb) with
      | Sum.inl o => Sum.inl o
      | Sum.inr r => Sum.inr [r] := by
  have h1 : isOperand [op] = false := by
    rcases hop with rfl | rfl | rfl | rfl <;> decide
  have h2 : isOperator [op] = true := by
    rcases hop with rfl | rfl | rfl | rfl <;> decide
  simp only [loopVals, stepVals, ha, hb, h1, h2, if_true, if_false, Bool.false_eq_true,
    pushVals, List.length_nil, List.length_cons, List.length_singleton, MAX_STACK]
  norm_num
  cases applyOperator [op] (atoi wa) (atoi wb) <;> rfl

theorem rpnVals_binary (a b : Int) (ha : inIntRange a) (hb : inIntRange b) (op : Nat)
    (hop : op = 43 ∨ op = 45 ∨ op = 42 ∨ op = 47) :
    rpnVals (binaryLine a b op) =
      match applyOperator [op] a b with
      | Sum.inl o => o
      | Sum.inr r => Outcome.result r := by
  obtain ⟨a1, a2, a3, a4⟩ := decimal_token a ha
  obtain ⟨b1, b2, b3, b4⟩ := decimal_token b hb
  have hd : isDelim op = false := by
    rcases hop with rfl | rfl | rfl | rfl <;> decide
  unfold rpnVals binaryLine
  rw [tokenize_binary a2 b2 a1 b1 hd, loopVals_binary a3 b3 hop, a4, b4]
  cases applyOperator [op] a b <;> rfl

theorem tokenize_unary {wa : CString} {op : Nat}
    (ha : ∀ c ∈ wa, isDelim c = false) (hna : wa ≠ []) (hop : isDelim op = false) :
    tokenize (wa ++ [32] ++ [op] ++ [10]) [] = [wa, [op]] ∧
    tokenize ([op] ++ [10]) [] = [[op]] := by
  have e : wa ++ [32] ++ [op] ++ [10] = wa ++ (32 :: ([op] ++ [10])) := by simp
  have h2 : tokenize ([op] ++ [10]) [] = [[op]] := by
    simp only [List.singleton_append, tokenize, hop, Bool.false_eq_true, if_false,
      show isDelim 10 = true by decide, if_true, List.nil_append]
    simp
  refine ⟨?_, h2⟩
  rw [e, tokenize_run wa ha, List.nil_append, tokenize]
  simp only [show isDelim 32 = true by decide, if_true, hna, if_false]
  rw [h2]

theorem operator_token {op : Nat} (hop : op = 43 ∨ op = 45 ∨ op = 42 ∨ op = 47) :
    isOperand [op] = false ∧ isOperator [op] = true ∧ isDelim op = false := by
  rcases hop with rfl | rfl | rfl | rfl <;> decide

/-- C24, as amended: the two example lines of the file header give 14 and 5;
for all operands `a` and `b` that fit a 32-bit `int`, the line `a b op` gives
`a op b` with `a` as the left operand (division truncating) whenever that
value fits a 32-bit `int` too; division with `b = 0` ends with the
division-by-zero error; and an operator met with fewer than two operands on
the stack ends with the not-enough-operands error. -/
theorem rpn_binary_spec (stack0 : Stack) (h0 : stack0.data.length = MAX_STACK)
    (a b : Int) (ha : inIntRange a) (hb : inIntRange b) :
    rpn_main stack0 (cstr "3 4 + 2 *" ++ [10]) = Outcome.result 14 ∧
    rpn_main stack0 (cstr "15 7 1 1 + - / 3 * 2 1 1 + + -" ++ [10]) = Outcome.result 5 ∧
    (inIntRange (a + b) → rpn_main stack0 (binaryLine a b 43) = Outcome.result (a + b)) ∧
    (inIntRange (a - b) → rpn_main stack0 (binaryLine a b 45) = Outcome.result (a - b)) ∧
    (inIntRange (a * b) → rpn_main stack0 (binaryLine a b 42) = Outcome.result (a * b)) ∧
    (b ≠ 0 → inIntRange (Int.tdiv a b) →
      rpn_main stack0 (binaryLine a b 47) = Outcome.result (Int.tdiv a b)) ∧
    (b = 0 → rpn_main stack0 (binaryLine a b 47) = Outcome.divisionByZero) ∧
    (∀ op, op = 43 ∨ op = 45 ∨ op = 42 ∨ op = 47 →
      rpn_main stack0 (decimal a ++ [32] ++ [op] ++ [10]) = Outcome.notEnoughOperands [op] ∧
      rpn_main stack0 ([op] ++ [10]) = Outcome.notEnoughOperands [op] ∧
      ∀ s, StackOk s → s.top < 1 →
        rpnStep s [op] = Sum.inl (Outcome.notEnoughOperands [op])) := by
  refine ⟨?_, ?_, fun h => ?_, fun h => ?_, fun h => ?_, fun hb0 h => ?_, fun hb0 => ?_,
    fun op hop => ⟨?_, ?_, fun s hs ht => ?_⟩⟩
  · rw [rpn_main_eq_vals _ h0]; decide
  · rw [rpn_main_eq_vals _ h0]; decide
  · rw [rpn_main_eq_vals _ h0, rpnVals_binary a b ha hb 43 (by decide)]
    have : applyOperator [43] a b = Sum.inr (wrapInt (a + b)) := rfl
    rw [this, wrapInt_of_inIntRange h]
  · rw [rpn_main_eq_vals _ h0, rpnVals_binary a b ha hb 45 (by decide)]
    have : applyOperator [45] a b = Sum.inr (wrapInt (a - b)) := rfl
    rw [this, wrapInt_of_inIntRange h]
  · rw [rpn_main_eq_vals _ h0, rpnVals_binary a b ha hb 42 (by decide)]
    have : applyOperator [42] a b = Sum.inr (wrapInt (a * b)) := rfl
    rw [this, wrapInt_of_inIntRange h]
  · rw [rpn_main_eq_vals _ h0, rpnVals_binary a b ha hb 47 (by decide)]
    have : applyOperator [47] a b = Sum.inr (wrapInt (Int.tdiv a b)) := by
      simp [applyOperator, charAt, hb0]
    rw [this, wrapInt_of_inIntRange h]
  · rw [rpn_main_eq_vals _ h0, rpnVals_binary a b ha hb 47 (by decide)]
    have : applyOperator [47] a b = Sum.inl Outcome.divisionByZero := by
      simp [applyOperator, charAt, hb0]
    rw [this]
  · obtain ⟨a1, a2, a3, a4⟩ := decimal_token a ha
    obtain ⟨o1, o2, o3⟩ := operator_token hop
    rw [rpn_main_eq_vals _ h0]
    unfold rpnVals
    rw [(tokenize_unary a2 a1 o3).1]
    simp [loopVals, stepVals, a3, o1, o2, pushVals, MAX_STACK]
  · obtain ⟨o1, o2, o3⟩ := operator_token hop
    rw [rpn_main_eq_vals _ h0]
    unfold rpnVals
    rw [(@tokenize_unary [48] op (by decide) (by decide) o3).2]
    simp [loopVals, stepVals, o1, o2]
  · obtain ⟨o1, o2, o3⟩ := operator_token hop
    obtain ⟨he, hn⟩ := rpnStep_vals hs [op]
    have hlen := length_contents hs
    have hv : stepVals (contents s) [op] = Sum.inl (Outcome.notEnoughOperands [op]) := by
      unfold stepVals
      simp only [o1, o2, if_true, if_false, Bool.false_eq_true]
      cases hc : contents s with
      | nil => rfl
      | cons x xs =>
        cases xs with
        | nil => rfl
        | cons y ys =>
          rw [hc] at hlen
          simp only [List.length_cons] at hlen
          push_cast at hlen
          omega
    cases hstep : rpnStep s [op] with
    | inl o =>
      have := he o hstep
      rw [hv] at this
      cases this
      rfl
    | inr s1 =>
      have := (hn s1 hstep).2
      rw [hv] at this
      cases this

theorem rpn_binary_spec_witness :
    inIntRange 7 ∧ inIntRange (-2) ∧ binaryLine 7 (-2) 47 = cstr "7 -2 /" ++ [10] ∧
    rpn_main ⟨List.replicate 100 0, 0⟩ (cstr "3 4 + 2 *" ++ [10]) = Outcome.result 14 ∧
    rpn_main ⟨List.replicate 100 0, 0⟩ (cstr "15 7 1 1 + - / 3 * 2 1 1 + + -" ++ [10]) =
      Outcome.result 5 ∧
    rpn_main ⟨List.replicate 100 0, 0⟩ (binaryLine 7 (-2) 45) = Outcome.result 9 ∧
    rpn_main ⟨List.replicate 100 0, 0⟩ (binaryLine 7 (-2) 47) = Outcome.result (-3) ∧
    rpn_main ⟨List.replicate 100 0, 0⟩ (binaryLine 7 0 47) = Outcome.divisionByZero ∧
    rpn_main ⟨List.replicate 100 0, 0⟩ ([43] ++ [10]) = Outcome.notEnoughOperands [43] := by
  have h0 : (⟨List.replicate 100 0, 0⟩ : Stack).data.length = MAX_STACK := by decide
  have r1 : inIntRange 7 := by unfold inIntRange; decide
  have r2 : inIntRange (-2) := by unfold inIntRange; decide
  have r0 : inIntRange 0 := by unfold inIntRange; decide
  have r9 : inIntRange (7 - (-2)) := by unfold inIntRange; decide
  have r3 : inIntRange (Int.tdiv 7 (-2)) := by unfold inIntRange; decide
  refine ⟨r1, r2, ?_, (rpn_binary_spec _ h0 7 (-2) r1 r2).1,
    (rpn_binary_spec _ h0 7 (-2) r1 r2).2.1,
    (rpn_binary_spec _ h0 7 (-2) r1 r2).2.2.2.1 r9,
    (rpn_binary_spec _ h0 7 (-2) r1 r2).2.2.2.2.2.1 (by decide) r3,
    (rpn_binary_spec _ h0 7 0 r1 r0).2.2.2.2.2.2.1 rfl,
    ((rpn_binary_spec _ h0 7 0 r1 r0).2.2.2.2.2.2.2 43 (Or.inl rfl)).2.1⟩
  simp [binaryLine, decimal, decimalNat, cstr]

/-- The line `2147483647 1 +` holds two operands that fit an `int`, but their
sum 2147483648 does not: the result is not that sum. -/
theorem rpn_sum_overflow :
    inIntRange 2147483647 ∧ inIntRange 1 ∧ ¬ inIntRange (2147483647 + 1) ∧
    rpn_main ⟨List.replicate 100 0, 0⟩ (cstr "2147483647 1 +" ++ [10]) =
      Outcome.result (-2147483648) ∧
    rpn_main ⟨List.replicate 100 0, 0⟩ (cstr "2147483647 1 +" ++ [10]) ≠
      Outcome.result (2147483647 + 1) := by
  refine ⟨by unfold inIntRange; decide, by unfold inIntRange; decide,
    by unfold inIntRange; decide, by decide, by decide⟩


/-! ## Hash table: invariants over `install` and `free_table` -/

theorem length_applyOp {t : Table} (op : TableOp) (h : t.length = HASHSIZE) :
    (applyOp t op).length = HASHSIZE := by
  cases op with
  | install a k d => simp only [applyOp]; rw [length_install]; exact h
  | lookup s => exact h
  | clear => simp only [applyOp]; rw [length_free_table]; exact h

theorem placed_free_table {t : Table} (h : t.length = HASHSIZE) : Placed (free_table t) := by
  intro i e he
  by_cases hi : i < HASHSIZE
  · have : bucket (free_table t) i = [] := by
      unfold free_table
      rw [bucket_clearTo, if_pos hi]
    rw [this] at he
    cases he
  · have hb : bucket (free_table t) i = [] := by
      have hl : (free_table t).length ≤ i := by
        rw [length_free_table, h]; exact Nat.le_of_not_lt hi
      simp [bucket, List.getElem?_eq_none hl]
    rw [hb] at he
    cases he

theorem placed_applyOp {t : Table} (op : TableOp) (h : t.length = HASHSIZE)
    (hp : Placed t) : Placed (applyOp t op) := by
  cases op with
  | install a k d => exact placed_install hp
  | lookup s => exact hp
  | clear => exact placed_free_table h

theorem invariant_applyOps (ops : List TableOp) :
    (applyOps hashtab0 ops).length = HASHSIZE ∧ Placed (applyOps hashtab0 ops) := by
  suffices h : ∀ t : Table, t.length = HASHSIZE → Placed t →
      (applyOps t ops).length = HASHSIZE ∧ Placed (applyOps t ops) from
    h _ length_hashtab0 placed_hashtab0
  induction ops with
  | nil => intro t h hp; exact ⟨h, hp⟩
  | cons op ops ih =>
    intro t h hp
    unfold applyOps
    rw [List.foldl_cons]
    exact ih _ (length_applyOp op h) (placed_applyOp op h hp)

/-- C34: in every table state reached from the empty table by `install` calls
(whatever their allocations do), `lookup` calls and `free_table` calls, every
node stored in the chain of bucket `i` has a name with `hash(name) = i`;
hence the scan of the single bucket `hash(k)` by `lookup(k)` misses exactly
when no node of the whole table is named `k`, and a node named `k` anywhere
in the table is found. -/
theorem placement_invariant (ops : List TableOp) :
    (∀ (i : Nat) (e : nlist), e ∈ bucket (applyOps hashtab0 ops) i → hash e.name = i) ∧
    (∀ k : CString, lookup (applyOps hashtab0 ops) k = none ↔
      k ∉ names (applyOps hashtab0 ops)) ∧
    (∀ e : nlist, e ∈ entries (applyOps hashtab0 ops) →
      ∃ np, lookup (applyOps hashtab0 ops) e.name = some np ∧ np.name = e.name) := by
  have hp := (invariant_applyOps ops).2
  refine ⟨hp, fun k => lookup_eq_none_iff hp k, ?_⟩
  intro e he
  cases hl : lookup (applyOps hashtab0 ops) e.name with
  | none =>
    exfalso
    exact (lookup_eq_none_iff hp e.name).1 hl (List.mem_map_of_mem _ he)
  | some np =>
    refine ⟨np, rfl, ?_⟩
    unfold lookup at hl
    exact lookupChain_name hl

/-- C35: for every string `s`, `hash(s)` is less than `HASHSIZE`, which is
100; so in every table reached by `install`, `lookup` and `free_table` calls
the index `hash(s)` addresses a cell of the bucket array, and the chain read
there by `lookup` and `install` is that cell, never the value of an index
outside the array. -/
theorem hash_in_range (s : CString) :
    hash s < HASHSIZE ∧ HASHSIZE = 100 ∧ hash s < 100 ∧
    ∀ ops : List TableOp,
      (applyOps hashtab0 ops).length = 100 ∧
      (applyOps hashtab0 ops)[hash s]? = some (bucket (applyOps hashtab0 ops) (hash s)) := by
  refine ⟨hash_lt s, rfl, hash_lt s, fun ops => ⟨(invariant_applyOps ops).1, ?_⟩⟩
  have hl : hash s < (applyOps hashtab0 ops).length := by
    rw [(invariant_applyOps ops).1]; exact hash_lt s
  rw [bucket_eq_getElem hl, List.getElem?_eq_getElem hl]

/-! ## RPN calculator: the stack -/

theorem stackOk_pop {s : Stack} (h : StackOk s) : StackOk (pop s).2.2 := by
  cases hc : contents s with
  | nil => rw [(pop_ok h).1 hc]; exact h
  | cons x rest =>
    obtain ⟨s1, h1, h2, _⟩ := (pop_ok h).2 x rest hc
    rw [h1]; exact h2

theorem stackOk_applyCalls (calls : List StackCall) :
    ∀ s : Stack, StackOk s → StackOk (applyCalls s calls) := by
  induction calls with
  | nil => intro s h; exact h
  | cons c cs ih =>
    intro s h
    unfold applyCalls
    rw [List.foldl_cons]
    apply ih
    cases c with
    | push v => exact (push_ok h v).1
    | pop => exact stackOk_pop h

/-- C39: on a stack that holds fewer than `MAX_STACK` = 100 values, `push(v)`
returns 1 and a `pop` right after it returns 1, stores `v` and leaves the
values held and `top` as they were before the `push`; on a stack that holds
100 values `push` returns 0 and changes nothing; on an empty stack `pop`
returns 0, stores nothing and changes nothing; and after `init` and any
sequence of `push` and `pop` calls `top` is between -1 and 99. -/
theorem stack_lifo (s : Stack) (h : StackOk s) (v : Int) :
    ((contents s).length < 100 →
      (push s v).1 = 1 ∧ (pop (push s v).2).1 = 1 ∧ (pop (push s v).2).2.1 = some v ∧
      contents (pop (push s v).2).2.2 = contents s ∧
      (pop (push s v).2).2.2.top = s.top) ∧
    ((contents s).length = 100 → push s v = (0, s)) ∧
    ((contents s).length = 0 → pop s = (0, none, s)) ∧
    ((contents s).length : Int) = s.top + 1 ∧
    (∀ calls : List StackCall,
      -1 ≤ (applyCalls (init s) calls).top ∧ (applyCalls (init s) calls).top ≤ 99) := by
  have hl := length_contents h
  refine ⟨?_, ?_, ?_, hl, ?_⟩
  · intro hlt
    obtain ⟨h1, h2, h3⟩ := push_ok h v
    have hne : (contents s).length ≠ MAX_STACK := by simp only [MAX_STACK]; omega
    rw [if_neg hne] at h3
    unfold pushVals at h2
    rw [if_neg hne] at h2
    obtain ⟨s1, e1, e2, e3, _, e5⟩ := (pop_ok h1).2 v (contents s) h2
    rw [e1]
    refine ⟨h3, rfl, rfl, e3, ?_⟩
    have := length_contents e2
    rw [e3] at this
    show s1.top = s.top
    omega
  · intro hfull
    have ht : s.top = 99 := by omega
    simp [push, is_full, ht, MAX_STACK]
  · intro hempty
    exact (pop_ok h).1 (List.length_eq_zero.1 hempty)
  · intro calls
    have := stackOk_applyCalls calls (init s) (stackOk_init s h.1).1
    obtain ⟨_, h1, h2⟩ := this
    simp only [MAX_STACK] at h2
    exact ⟨h1, by simpa using h2⟩

theorem stack_lifo_witness :
    StackOk (init zeroStack) ∧ (contents (init zeroStack)).length < 100 ∧
    (push (init zeroStack) 7).1 = 1 ∧ (pop (push (init zeroStack) 7).2).2.1 = some 7 ∧
    contents (pop (push (init zeroStack) 7).2).2.2 = contents (init zeroStack) ∧
    pop (init zeroStack) = (0, none, init zeroStack) :=
  ⟨(stackOk_init zeroStack rfl).1, by decide,
    ((stack_lifo (init zeroStack) (stackOk_init zeroStack rfl).1 7).1 (by decide)).1,
    ((stack_lifo (init zeroStack) (stackOk_init zeroStack rfl).1 7).1 (by decide)).2.2.1,
    ((stack_lifo (init zeroStack) (stackOk_init zeroStack rfl).1 7).1 (by decide)).2.2.2.1,
    (stack_lifo (init zeroStack) (stackOk_init zeroStack rfl).1 7).2.2.1 (by decide)⟩

/-! ## Ordered map: iteration and later `put` calls, back-links -/

theorem nextN_congr {h1 h2 : List MapEntry}
    (hn : ∀ q : Nat, (h1[q]?).map MapEntry.__next = (h2[q]?).map MapEntry.__next) :
    ∀ (m : Nat) (it : MapIter), nextN h1 m it = nextN h2 m it := by
  intro m
  induction m with
  | zero => intro it; rfl
  | succ m ih =>
    intro it
    have hstep : __MapIter_next h1 it = __MapIter_next h2 it := by
      unfold __MapIter_next
      cases hc : it.__current with
      | none => rfl
      | some cur =>
        have := hn cur
        dsimp only
        cases e1 : h1[cur]? with
        | none =>
          cases e2 : h2[cur]? with
          | none => rfl
          | some b => rw [e1, e2] at this; cases this
        | some a =>
          cases e2 : h2[cur]? with
          | none => rw [e1, e2] at this; cases this
          | some b =>
            rw [e1, e2] at this
            simp only [Option.map_some', Option.some.injEq] at this
            simp only [this]
    simp only [nextN, hstep]
    cases __MapIter_next h2 it with
    | none => rfl
    | some p => simp only [ih]

theorem getElem?_set_setValue (heap : List MapEntry) (p : Nat) (e : MapEntry) (v : Int)
    (he : heap[p]? = some e) (q : Nat) :
    (heap.set p (setValue v e))[q]? = if q = p then some (setValue v e) else heap[q]? := by
  obtain ⟨hp, _⟩ := List.getElem?_eq_some.1 he
  rw [List.getElem?_set]
  by_cases hq : p = q
  · subst hq; simp [hp]
  · have : ¬ q = p := fun h => hq h.symm
    simp [hq, this]

/-- C32: in every reachable store that has an entry with key `k`, `put(k, v)`
returns, and for every iterator state (so at any point of a walk) every
number of further `next` calls returns the same pointers and leaves the same
iterator state on the new heap as on the old one, so the walk is exhausted
at the same call; every cell keeps its key, every entry with a key other
than `k` keeps its value, and the entry of `k` now carries `v`. -/
theorem put_value_during_walk (s : MapState) (k : CString) (v : Int)
    (hr : MapReachable s)
    (hk : ∃ c l, __Map_dump s = some (c, l) ∧ k ∈ l.map Prod.fst) (it : MapIter) :
    ∃ s1, __Map_put s (some k) v = some s1 ∧
      (∀ m, nextN s1.heap m it = nextN s.heap m it) ∧
      (∀ p, (readEntry s1.heap p).map Prod.fst = (readEntry s.heap p).map Prod.fst) ∧
      (∀ p key val, readEntry s.heap p = some (key, val) → key ≠ k →
        readEntry s1.heap p = some (key, val)) ∧
      (∀ p val, readEntry s.heap p = some (k, val) → readEntry s1.heap p = some (k, v)) := by
  have h := hr.linked
  obtain ⟨c, l, hd, hmem⟩ := hk
  rw [dump_linked h] at hd
  cases hd
  obtain ⟨p, hf⟩ := firstIdx_isSome_of_mem hmem
  obtain ⟨e, he, hkey, _, _⟩ := firstIdx_some hf 0
  have hput := put_found_eq h hf he v
  have hget := getElem?_set_setValue s.heap p e v he
  refine ⟨_, hput, ?_, ?_, ?_, ?_⟩
  · intro m
    refine nextN_congr ?_ m it
    intro q
    show ((s.heap.set p (setValue v e))[q]?).map MapEntry.__next = _
    rw [hget]
    by_cases hq : q = p
    · subst hq; simp [he, setValue]
    · simp [hq]
  · intro q
    show (readEntry (s.heap.set p (setValue v e)) q).map Prod.fst = _
    unfold readEntry
    rw [hget]
    by_cases hq : q = p
    · subst hq; simp [he, setValue]
    · simp [hq]
  · intro q key val hq hne
    show readEntry (s.heap.set p (setValue v e)) q = _
    unfold readEntry at hq ⊢
    rw [hget]
    by_cases hqp : q = p
    · subst hqp
      rw [he] at hq
      simp only [Option.map_some', Option.some.injEq, Prod.mk.injEq] at hq
      exact absurd (hq.1.symm.trans hkey) hne
    · simp only [hqp, if_false]; exact hq
  · intro q val hq
    show readEntry (s.heap.set p (setValue v e)) q = _
    unfold readEntry at hq ⊢
    rw [hget]
    cases hc : s.heap[q]? with
    | none => rw [hc] at hq; cases hq
    | some e1 =>
      rw [hc] at hq
      simp only [Option.map_some', Option.some.injEq, Prod.mk.injEq] at hq
      have hqp : q = p := heap_key_unique hr.keys_nodup hc he (hq.1.trans hkey.symm)
      subst hqp
      simp [setValue, hkey]

theorem put_value_during_walk_witness :
    MapReachable demoStore ∧
    (∃ c l, __Map_dump demoStore = some (c, l) ∧ cstr "b" ∈ l.map Prod.fst) ∧
    nextN demoStore.heap 1 (__Map_iter demoStore) = some ([some 0], ⟨some 1⟩) ∧
    ∃ s1, __Map_put demoStore (some (cstr "b")) 9 = some s1 ∧
      (∀ m, nextN s1.heap m ⟨some 1⟩ = nextN demoStore.heap m ⟨some 1⟩) ∧
      (∀ p, (readEntry s1.heap p).map Prod.fst = (readEntry demoStore.heap p).map Prod.fst) ∧
      (∀ p key val, readEntry demoStore.heap p = some (key, val) → key ≠ cstr "b" →
        readEntry s1.heap p = some (key, val)) ∧
      (∀ p val, readEntry demoStore.heap p = some (cstr "b", val) →
        readEntry s1.heap p = some (cstr "b", 9)) :=
  ⟨reachable_demoStore, ⟨4, demoLines, by decide, by decide⟩, by decide,
    put_value_during_walk demoStore (cstr "b") 9 reachable_demoStore
      ⟨4, demoLines, by decide, by decide⟩ ⟨some 1⟩⟩

theorem nextN_linked_all {s : MapState} (h : Linked s) :
    nextN s.heap (s.heap.length + 1) ⟨ptr s.heap.length 0⟩ =
      some ((List.range s.heap.length).map some ++ [none], ⟨none⟩) ∧
    (List.range s.heap.length).map (readEntry s.heap) = (view s).map some := by
  constructor
  · have := nextN_ptr s.heap h.next (s.heap.length + 1) 0
    rw [this, ← List.range_eq_range', List.range_succ, List.map_append]
    simp only [List.map_cons, List.map_nil, Nat.zero_add]
    rw [ptr_ge (Nat.le_succ _), ptr_ge (Nat.le_refl _)]
    congr 3
    apply List.map_congr_left
    intro i hi
    exact ptr_lt (List.mem_range.1 hi)
  · apply List.ext_getElem (by simp [view])
    intro i h1 h2
    simp only [List.length_map, List.length_range] at h1
    simp [readEntry, view, kv, List.getElem?_eq_getElem h1]

/-- C31, as amended: in every reachable store without an entry of key `k`,
`put(k, v)` made after `iter()` returns; an iterator created on the empty
store then returns `NULL` on every call, so it yields nothing; an iterator
created on a store with `n > 0` entries and advanced afterwards returns on
its first `n + 1` calls the `n` entries present at its creation, in order,
followed by the new entry `(k, v)`, and `NULL` on call `n + 2`. -/
theorem iter_sees_later_put (s : MapState) (k : CString) (v : Int)
    (hr : MapReachable s)
    (hk : ∃ c l, __Map_dump s = some (c, l) ∧ k ∉ l.map Prod.fst) :
    ∃ s1 l, __Map_put s (some k) v = some s1 ∧
      __Map_dump s = some (__Map_size s, l) ∧
      (__Map_size s = 0 → l = [] ∧
        ∀ n, nextN s1.heap n (__Map_iter s) = some (List.replicate n none, __Map_iter s)) ∧
      (__Map_size s ≠ 0 → ∃ (ps : List Nat) (it : MapIter),
        nextN s1.heap (l.length + 2) (__Map_iter s) = some (ps.map some ++ [none], it) ∧
        ps.map (readEntry s1.heap) = (l ++ [(k, v)]).map some) := by
  have h := hr.linked
  obtain ⟨c, l, hd, hmem⟩ := hk
  rw [dump_linked h] at hd
  cases hd
  have hf := firstIdx_eq_none_of_not_mem hmem
  obtain ⟨s2, g1, g2, g3⟩ := put_linked h k v
  have hview : view s2 = view s ++ [(k, v)] := by
    rw [g3]; exact (firstIdx_none hf 0).2 v
  have hlen2 : s2.heap.length = s.heap.length + 1 := by
    have := congrArg List.length hview
    simpa [view] using this
  refine ⟨s2, view s, g1, dump_linked h, ?_, ?_⟩
  · intro hz
    have hlen : s.heap.length = 0 := by
      have := h.count
      simp only [__Map_size] at hz
      omega
    have hit : __Map_iter s = ⟨none⟩ := by
      simp only [__Map_iter, h.head, hlen]
      rfl
    refine ⟨?_, ?_⟩
    · simp [view, List.length_eq_zero.1 hlen]
    · intro n
      rw [hit]
      exact nextN_exhausted s2.heap n
  · intro hnz
    have hpos : 0 < s.heap.length := by
      have := h.count
      simp only [__Map_size] at hnz
      omega
    have hit : __Map_iter s = ⟨ptr s2.heap.length 0⟩ := by
      simp only [__Map_iter, h.head]
      rw [ptr_lt hpos, ptr_lt (by omega)]
    obtain ⟨n1, n2⟩ := nextN_linked_all g2
    refine ⟨List.range s2.heap.length, ⟨none⟩, ?_, ?_⟩
    · rw [hit]
      have : (view s).length + 2 = s2.heap.length + 1 := by simp [view, hlen2]
      rw [this]
      exact n1
    · rw [n2, hview]

theorem iter_sees_later_put_witness :
    MapReachable demoStoreZ ∧
    (∃ c l, __Map_dump demoStoreZ = some (c, l) ∧ cstr "y" ∉ l.map Prod.fst) ∧
    ∃ s1 l, __Map_put demoStoreZ (some (cstr "y")) 2 = some s1 ∧
      __Map_dump demoStoreZ = some (__Map_size demoStoreZ, l) ∧
      (__Map_size demoStoreZ = 0 → l = [] ∧
        ∀ n, nextN s1.heap n (__Map_iter demoStoreZ) =
          some (List.replicate n none, __Map_iter demoStoreZ)) ∧
      (__Map_size demoStoreZ ≠ 0 → ∃ (ps : List Nat) (it : MapIter),
        nextN s1.heap (l.length + 2) (__Map_iter demoStoreZ) =
          some (ps.map some ++ [none], it) ∧
        ps.map (readEntry s1.heap) = (l ++ [(cstr "y", 2)]).map some) :=
  ⟨reachable_demoStoreZ, ⟨1, [(cstr "z", 8)], by decide, by decide⟩,
    iter_sees_later_put demoStoreZ (cstr "y") 2 reachable_demoStoreZ
      ⟨1, [(cstr "z", 8)], by decide, by decide⟩⟩

/-- An iterator created on the store that holds `z=8` alone, then
`put("y", 2)`: the iterator returns the entry of `z`, then the entry of `y`,
which was not in the store at its creation, then `NULL`. -/
theorem iter_yields_later_key :
    __Map_dump demoStoreZ = some (1, [(cstr "z", 8)]) ∧
    (__Map_put demoStoreZ (some (cstr "y")) 2).bind
        (fun s1 => nextN s1.heap 3 (__Map_iter demoStoreZ)) =
      some ([some 0, some 1, none], ⟨none⟩) ∧
    (__Map_put demoStoreZ (some (cstr "y")) 2).bind
        (fun s1 => readEntry s1.heap 1) = some (cstr "y", 2) := by
  decide

theorem backLoop_linked (heap : List MapEntry)
    (hp : ∀ i (h : i < heap.length), heap[i].__prev = if i = 0 then none else some (i - 1)) :
    ∀ fuel i, i < heap.length → i + 1 < fuel →
      backLoop heap fuel (some i) = some (List.range (i + 1)).reverse := by
  intro fuel
  induction fuel with
  | zero => intro i _ h; omega
  | succ fuel ih =>
    intro i hi hf
    simp only [backLoop, List.getElem?_eq_getElem hi]
    rw [hp i hi]
    by_cases h0 : i = 0
    · subst h0
      cases fuel with
      | zero => omega
      | succ f => rfl
    · rw [if_neg h0, ih (i - 1) (by omega) (by omega)]
      have : i - 1 + 1 = i := by omega
      rw [this, List.range_succ, List.reverse_append]
      rfl

theorem backOf_linked {s : MapState} (h : Linked s) :
    backOf s = some (List.range s.heap.length).reverse := by
  unfold backOf
  rw [h.tail]
  by_cases hz : s.heap.length = 0
  · rw [if_pos hz, hz]
    rfl
  · rw [if_neg hz, backLoop_linked s.heap h.prev _ _ (by omega) (by omega)]
    have : s.heap.length - 1 + 1 = s.heap.length := by omega
    rw [this]

/-- C33: in every store reached from `Map_new` by `put` calls, the `__prev`
of the head entry is `NULL`; every entry `e` of the chain whose `__next` is
an entry `n` has `n->__prev = e`; and the walk from `__tail` along `__prev`
ends and meets the entries in exactly the reverse of the order of the walk
from `__head` along `__next`. -/
theorem map_back_links (s : MapState) (hr : MapReachable s) :
    ∃ addrs, chainOf s = some addrs ∧ backOf s = some addrs.reverse ∧
      (∀ hd, s.self.__head = some hd → ∃ e, s.heap[hd]? = some e ∧ e.__prev = none) ∧
      (∀ (p n : Nat) (e : MapEntry), p ∈ addrs → s.heap[p]? = some e → e.__next = some n →
        n ∈ addrs ∧ ∃ en, s.heap[n]? = some en ∧ en.__prev = some p) := by
  have h := hr.linked
  refine ⟨List.range s.heap.length, chainOf_linked h, backOf_linked h, ?_, ?_⟩
  · intro hd hhd
    rw [h.head] at hhd
    unfold ptr at hhd
    split at hhd
    · next hpos =>
      cases hhd
      exact ⟨s.heap[0], List.getElem?_eq_getElem hpos, by rw [h.prev 0 hpos]; rfl⟩
    · cases hhd
  · intro p n e _ he hn
    obtain ⟨hp, hp2⟩ := List.getElem?_eq_some.1 he
    have hnext := h.next p hp
    rw [hp2, hn] at hnext
    unfold ptr at hnext
    split at hnext
    · next hlt =>
      cases hnext
      refine ⟨List.mem_range.2 hlt, s.heap[p + 1], List.getElem?_eq_getElem hlt, ?_⟩
      rw [h.prev (p + 1) hlt]
      simp
    · cases hnext

theorem map_back_links_witness :
    MapReachable demoStore ∧ chainOf demoStore = some [0, 1, 2, 3] ∧
    backOf demoStore = some [3, 2, 1, 0] ∧
    ∃ addrs, chainOf demoStore = some addrs ∧ backOf demoStore = some addrs.reverse ∧
      (∀ hd, demoStore.self.__head = some hd →
        ∃ e, demoStore.heap[hd]? = some e ∧ e.__prev = none) ∧
      (∀ (p n : Nat) (e : MapEntry), p ∈ addrs → demoStore.heap[p]? = some e →
        e.__next = some n →
        n ∈ addrs ∧ ∃ en, demoStore.heap[n]? = some en ∧ en.__prev = some p) :=
  ⟨reachable_demoStore, by decide, by decide, map_back_links demoStore reachable_demoStore⟩

/-! ## The simple machine -/

theorem toChar_tmod (x : Int) : toChar (Int.tmod x 256) = toChar x := by
  unfold toChar
  rw [Int.tmod_def]
  generalize x.tdiv 256 = q
  congr 1
  omega

theorem charValue_emod (sc : Bool) (b : Nat) : charValue sc b % 256 = (b : Int) % 256 := by
  unfold charValue
  split
  · omega
  · rfl

theorem charValue_range (sc : Bool) {b : Nat} (h : b < 256) :
    -128 ≤ charValue sc b ∧ charValue sc b ≤ 255 := by
  unfold charValue
  split
  · next hc =>
    simp only [Bool.and_eq_true, decide_eq_true_eq] at hc
    omega
  · omega

theorem readMem_in {m : Memory} (hm : MemOk m) {addr : Int} (h0 : 0 ≤ addr)
    (h1 : addr < 256) : ∃ old, readMem m addr = some old ∧ m[addr.toNat]? = some old ∧
      old < 256 := by
  have hlt : addr.toNat < m.length := by
    rw [hm.1]; simp only [MEM_SIZE]; omega
  refine ⟨m[addr.toNat], ?_, List.getElem?_eq_getElem hlt, hm.2 _ (List.getElem_mem _)⟩
  simp [readMem, h0, List.getElem?_eq_getElem hlt]

theorem readMem_out {m : Memory} (hm : MemOk m) {addr : Int}
    (h : ¬ (0 ≤ addr ∧ addr < 256)) : readMem m addr = none := by
  unfold readMem
  split
  · next h0 =>
    apply List.getElem?_eq_none
    rw [hm.1]
    simp only [MEM_SIZE]
    omega
  · rfl

/-- C38, as far as it holds: on every memory of 256 bytes, whether `char` is
signed or not, with `addr` and `val` in `0..255` the call `add(addr, val)`
returns and sets the byte at `addr` to `(old byte + val) mod 256` and
`subtract(addr, val)` sets it to `(old byte - val) mod 256`, no other cell
changing; `assign` with `addr` or `val` outside its range leaves the memory
unchanged, and so do `add` and `subtract` when `addr` is in range and `val`
is not; but with `addr` outside `0..255` both `add` and `subtract` read
`memory[addr]` outside the array before the range test, so the call has no
defined result. -/
theorem machine_ops (signedChar : Bool) (m : Memory) (hm : MemOk m) (addr val : Int) :
    (0 ≤ addr → addr < 256 → 0 ≤ val → val ≤ 255 →
      ∃ old, m[addr.toNat]? = some old ∧
        add signedChar m addr val = some (m.set addr.toNat ((old + val.toNat) % 256)) ∧
        subtract signedChar m addr val =
          some (m.set addr.toNat (((old : Int) - val) % 256).toNat)) ∧
    (¬ (0 ≤ addr ∧ addr < 256 ∧ 0 ≤ val ∧ val ≤ 255) → assign m addr val = m) ∧
    (0 ≤ addr → addr < 256 → ¬ (0 ≤ val ∧ val ≤ 255) →
      add signedChar m addr val = some m ∧ subtract signedChar m addr val = some m) ∧
    (¬ (0 ≤ addr ∧ addr < 256) →
      add signedChar m addr val = none ∧ subtract signedChar m addr val = none) := by
  refine ⟨?_, ?_, ?_, ?_⟩
  · intro h0 h1 h2 h3
    obtain ⟨old, hr, hg, hlt⟩ := readMem_in hm h0 h1
    have hin : inRange addr val = true := by simp [inRange, MEM_SIZE, h0, h1, h2, h3]
    obtain ⟨c1, c2⟩ := charValue_range signedChar hlt
    have ce := charValue_emod signedChar old
    refine ⟨old, hg, ?_, ?_⟩
    · simp only [add, hr, hin, if_true]
      rw [wrapInt_of_range (by omega) (by omega), toChar_tmod]
      unfold toChar
      congr 2
      omega
    · simp only [subtract, hr, hin, if_true]
      have w1 : wrapInt (charValue signedChar old - val) = charValue signedChar old - val :=
        wrapInt_of_range (by omega) (by omega)
      rw [w1, wrapInt_of_range (by omega) (by omega), toChar_tmod]
      unfold toChar
      congr 3
      omega
  · intro h
    have hin : inRange addr val = false := by
      simp only [inRange, MEM_SIZE, Bool.and_eq_false_iff, decide_eq_false_iff_not]
      simp only [Nat.cast_ofNat]
      omega
    simp [assign, hin]
  · intro h0 h1 h
    obtain ⟨old, hr, _, _⟩ := readMem_in hm h0 h1
    have hin : inRange addr val = false := by
      simp only [inRange, MEM_SIZE, Bool.and_eq_false_iff, decide_eq_false_iff_not]
      simp only [Nat.cast_ofNat]
      omega
    simp [add, subtract, hr, hin]
  · intro h
    have hr := readMem_out hm h
    simp [add, subtract, hr]

theorem memOk_memory0 : MemOk memory0 := by
  refine ⟨by simp [memory0], ?_⟩
  intro b hb
  rw [memory0, List.mem_replicate] at hb
  omega

theorem machine_ops_witness :
    MemOk memory0 ∧
    (∃ old, memory0[5]? = some old ∧
      add true memory0 5 100 = some (memory0.set 5 ((old + 100) % 256)) ∧
      subtract true memory0 5 100 = some (memory0.set 5 (((old : Int) - 100) % 256).toNat)) ∧
    assign memory0 300 1 = memory0 ∧
    (add true memory0 5 300 = some memory0 ∧ subtract true memory0 5 300 = some memory0) ∧
    (add true memory0 1000000000 1 = none ∧ subtract true memory0 1000000000 1 = none) :=
  ⟨memOk_memory0,
    (machine_ops true memory0 memOk_memory0 5 100).1 (by decide) (by decide) (by decide)
      (by decide),
    (machine_ops true memory0 memOk_memory0 300 1).2.1 (by decide),
    (machine_ops true memory0 memOk_memory0 5 300).2.2.1 (by decide) (by decide) (by decide),
    (machine_ops true memory0 memOk_memory0 1000000000 1).2.2.2 (by decide)⟩

/-! ## `pystr` -/

theorem growLoop_spec (newlen : Int) (h0 : 0 ≤ newlen) (hmax : newlen ≤ 2147483639) :
    ∀ (fuel : Nat) (a : Int), 0 ≤ a → 10 ∣ a → a ≤ 10 * ((newlen + 10) / 10) →
      newlen + 11 ≤ a + 10 * (fuel : Int) →
      growLoop newlen fuel a = some (10 * ((newlen + 10) / 10)) := by
  have hw : wrapInt (newlen + 1) = newlen + 1 := wrapInt_of_range (by omega) (by omega)
  intro fuel
  induction fuel with
  | zero => intro a _ _ h1 h2; omega
  | succ fuel ih =>
    intro a ha hd h1 h2
    obtain ⟨k, rfl⟩ := hd
    unfold growLoop
    rw [hw]
    split
    · have hw2 : wrapInt (10 * k + 10) = 10 * k + 10 :=
        wrapInt_of_range (by omega) (by omega)
      rw [hw2]
      exact ih _ (by omega) ⟨k + 1, by ring⟩ (by omega) (by push_cast at h2; omega)
    · congr 1
      omega

theorem cstringOf_append_nul {s : CString} (hw : wellFormed s = true) (r : List Nat) :
    cstringOf (s ++ 0 :: r) = s := by
  unfold cstringOf
  induction s with
  | nil => simp
  | cons c s ih =>
    simp only [wellFormed, List.all_cons, Bool.and_eq_true, decide_eq_true_eq] at hw
    have hc : c ≠ 0 := by omega
    simp only [List.cons_append, List.takeWhile_cons, bne_iff_ne, ne_eq, hc, not_false_eq_true,
      if_true]
    rw [ih (by simpa [wellFormed] using hw.2)]

theorem wellFormed_append {a b : CString} (ha : wellFormed a = true)
    (hb : wellFormed b = true) : wellFormed (a ++ b) = true := by
  simp only [wellFormed, List.all_append, Bool.and_eq_true] at *
  exact ⟨ha, hb⟩

theorem pystrOk_new (junk : Nat → Nat) : PystrOk (pystr_new junk) [] := by
  refine ⟨by simp [pystr_new, block], rfl, rfl, ?_, by simp [pystr_new]⟩
  simp [pystr_new, block]

theorem strcpy_ok {buf : List Nat} {total : CString} (x : CString)
    (htake : buf.take total.length = total)
    (hfit : total.length + x.length + 1 ≤ buf.length) :
    ∃ d, strcpy buf (total.length : Int) x = some d ∧ d.length = buf.length ∧
      d.take (total ++ x).length = total ++ x ∧ d[(total ++ x).length]? = some 0 := by
  have hcond : 0 ≤ (total.length : Int) ∧
      (total.length : Int).toNat + x.length + 1 ≤ buf.length := by
    simp only [Int.toNat_ofNat]
    exact ⟨Int.ofNat_nonneg _, hfit⟩
  refine ⟨_, if_pos hcond, ?_, ?_, ?_⟩
  · simp only [Int.toNat_ofNat, List.length_append, List.length_take, List.length_cons,
      List.length_drop]
    omega
  · simp only [Int.toNat_ofNat]
    rw [htake, ← List.append_assoc]
    rw [List.take_append_of_le_length (by simp)]
    rw [List.take_of_length_le (by simp)]
  · simp only [Int.toNat_ofNat]
    rw [htake, ← List.append_assoc]
    rw [List.getElem?_append_right (by simp)]
    simp

theorem append_ok (junk : Nat → Nat) {s : pystr} {total : CString} (h : PystrOk s total)
    (x : CString) (hmax : (total ++ x).length ≤ maxTotal) :
    ∃ s1, pystr_append junk s x = some s1 ∧ PystrOk s1 (total ++ x) := by
  obtain ⟨h1, h2, h3, h4, h5⟩ := h
  simp only [maxTotal, List.length_append] at hmax
  have wa : wrapInt ((strlen x : Nat) : Int) = (x.length : Int) := by
    unfold strlen
    exact wrapInt_of_range (by omega) (by omega)
  have wn : wrapInt (s.length + (x.length : Int)) = s.length + (x.length : Int) :=
    wrapInt_of_range (by omega) (by omega)
  have w1 : wrapInt (s.length + (x.length : Int) + 1) = s.length + (x.length : Int) + 1 :=
    wrapInt_of_range (by omega) (by omega)
  have hlen : s.length + (x.length : Int) = ((total ++ x).length : Int) := by
    rw [List.length_append, h2]; push_cast; rfl
  unfold pystr_append
  simp only [wa, wn, w1]
  by_cases hg : s.length + (x.length : Int) + 1 > s.alloc
  · simp only [hg, if_true]
    rw [growLoop_spec (s.length + (x.length : Int)) (by omega) (by omega) growFuel s.alloc
      (by omega) ⟨_, h5⟩ (by omega) (by simp only [growFuel]; omega)]
    have hnn : ¬ (10 * ((s.length + (x.length : Int) + 10) / 10) < 0) := by omega
    simp only [realloc, hnn, if_false]
    have hl : ((s.data.take (10 * ((s.length + (x.length : Int) + 10) / 10)).toNat ++
        block junk ((10 * ((s.length + (x.length : Int) + 10) / 10)).toNat -
          s.data.length)).length : Int) =
        10 * ((s.length + (x.length : Int) + 10) / 10) := by
      simp only [block, List.length_append, List.length_take, List.length_map,
        List.length_range]
      omega
    have ht : (s.data.take (10 * ((s.length + (x.length : Int) + 10) / 10)).toNat ++
        block junk ((10 * ((s.length + (x.length : Int) + 10) / 10)).toNat -
          s.data.length)).take total.length = total := by
      rw [List.take_append_of_le_length (by simp only [List.length_take]; omega)]
      rw [List.take_take]
      have : min total.length (10 * ((s.length + (x.length : Int) + 10) / 10)).toNat =
          total.length := by omega
      rw [this, h3]
    obtain ⟨d, e1, e2, e3, e4⟩ := strcpy_ok x ht (by omega)
    rw [← h2] at e1
    simp only [e1, Option.map_some']
    refine ⟨_, rfl, ?_, hlen, e3, e4, ?_⟩
    · show (d.length : Int) = _
      rw [e2, hl]
    · show 10 * ((s.length + (x.length : Int) + 10) / 10) =
        10 * ((s.length + (x.length : Int) + 10) / 10)
      rfl
  · simp only [hg, if_false]
    obtain ⟨d, e1, e2, e3, e4⟩ := strcpy_ok x h3 (by omega)
    rw [← h2] at e1
    simp only [e1, Option.map_some']
    refine ⟨_, rfl, ?_, hlen, e3, e4, ?_⟩
    · show (d.length : Int) = _
      rw [e2, h1]
    · show s.alloc = 10 * ((s.length + (x.length : Int) + 10) / 10)
      omega

theorem appendAll_ok (junk : Nat → Nat) (xs : List CString) :
    ∀ (s : pystr) (total : CString), PystrOk s total →
      (total ++ xs.flatten).length ≤ maxTotal →
      ∃ s1, appendAll junk s xs = some s1 ∧ PystrOk s1 (total ++ xs.flatten) := by
  induction xs with
  | nil => intro s total h _; exact ⟨s, rfl, by simpa using h⟩
  | cons x xs ih =>
    intro s total h hmax
    rw [List.flatten_cons, ← List.append_assoc] at hmax
    have hx : (total ++ x).length ≤ maxTotal := by
      rw [List.length_append] at hmax
      omega
    obtain ⟨s1, e1, e2⟩ := append_ok junk h x hx
    obtain ⟨s2, f1, f2⟩ := ih s1 _ e2 hmax
    refine ⟨s2, ?_, ?_⟩
    · simp only [appendAll, e1]; exact f1
    · simpa [List.append_assoc] using f2

theorem wellFormed_flatten {xs : List CString} (hw : ∀ x ∈ xs, wellFormed x = true) :
    wellFormed xs.flatten = true := by
  induction xs with
  | nil => rfl
  | cons x xs ih =>
    rw [List.flatten_cons]
    exact wellFormed_append (hw x (List.mem_cons_self _ _))
      (ih fun y hy => hw y (List.mem_cons_of_mem _ hy))

/-- A `pystr_append` with a suffix of 2147483647 bytes on an empty string in
a buffer of 10 bytes: `newlen + 1` does not fit an `int`, the wrapped value
is not above `alloc`, the buffer is not grown and `strcpy` writes past it. -/
theorem append_overflow (junk : Nat → Nat) (s : pystr) (hl : s.length = 0)
    (ha : s.alloc = 10) (hd : s.data.length = 10) (x : CString)
    (hx : x.length = 2147483647) : pystr_append junk s x = none := by
  have wa : wrapInt ((strlen x : Nat) : Int) = 2147483647 := by
    unfold strlen
    rw [hx]
    decide
  have wn : wrapInt ((0 : Int) + 2147483647) = 2147483647 := by decide
  have w1 : wrapInt ((2147483647 : Int) + 1) = -2147483648 := by decide
  have hn : ¬ ((-2147483648 : Int) > 10) := by decide
  unfold pystr_append
  simp only [wa, hl, ha, wn, w1, hn, if_false]
  unfold strcpy
  rw [hd, hx, if_neg (by omega)]
  rfl

/-- C36, as amended: after any sequence of `pystr_append` calls with C
strings of total length at most 2147483639 on a new `pystr`, whatever the
undetermined bytes of the allocated blocks are, every call has returned with
all writes inside the buffer, the string held by `data` is the concatenation
of the suffixes in call order, `length` is its length, the buffer has
`alloc` bytes, and `alloc` is a multiple of 10, at least `length + 1`, and
equal to the larger of 10 and the least multiple of 10 that is at least
`length + 1`; no `int` of the computation exceeds 2147483640. -/
theorem pystr_invariant (junk : Nat → Nat) (suffixes : List CString)
    (hw : ∀ x ∈ suffixes, wellFormed x = true)
    (hmax : suffixes.flatten.length ≤ maxTotal) :
    ∃ s, appendAll junk (pystr_new junk) suffixes = some s ∧
      cstringOf s.data = suffixes.flatten ∧
      s.length = ((cstringOf s.data).length : Int) ∧
      (s.data.length : Int) = s.alloc ∧
      10 ∣ s.alloc ∧ s.length + 1 ≤ s.alloc ∧
      s.alloc = max 10 (10 * ((s.length + 1 + 9) / 10)) ∧
      s.length + 1 ≤ 10 * ((s.length + 1 + 9) / 10) ∧
      (∀ a : Int, 10 ∣ a → s.length + 1 ≤ a → 10 * ((s.length + 1 + 9) / 10) ≤ a) ∧
      s.alloc ≤ 2147483640 := by
  obtain ⟨s, e1, h1, h2, h3, h4, h5⟩ :=
    appendAll_ok junk suffixes _ [] (pystrOk_new junk) (by simpa using hmax)
  rw [List.nil_append] at h2 h3 h4
  simp only [maxTotal] at hmax
  have hdata : cstringOf s.data = suffixes.flatten := by
    have hsplit : s.data = s.data.take suffixes.flatten.length ++
        s.data.drop suffixes.flatten.length := (List.take_append_drop _ _).symm
    obtain ⟨hlt, hz⟩ := List.getElem?_eq_some.1 h4
    rw [List.drop_eq_getElem_cons hlt, hz, h3] at hsplit
    rw [hsplit]
    exact cstringOf_append_nul (wellFormed_flatten hw) _
  refine ⟨s, e1, hdata, by rw [hdata, h2], h1, ⟨_, h5⟩, by omega, by omega, by omega, ?_,
    by omega⟩
  rintro a ⟨k, rfl⟩ hk
  omega

theorem pystr_invariant_witness :
    (∀ x ∈ demoSuffixes, wellFormed x = true) ∧
    demoSuffixes.flatten.length ≤ maxTotal ∧
    (appendAll junkA (pystr_new junkA) demoSuffixes).map (fun s => (s.length, s.alloc)) =
      some (61, 70) ∧
    ∃ s, appendAll junkA (pystr_new junkA) demoSuffixes = some s ∧
      cstringOf s.data = demoSuffixes.flatten ∧
      s.length = ((cstringOf s.data).length : Int) ∧
      (s.data.length : Int) = s.alloc ∧
      10 ∣ s.alloc ∧ s.length + 1 ≤ s.alloc ∧
      s.alloc = max 10 (10 * ((s.length + 1 + 9) / 10)) ∧
      s.length + 1 ≤ 10 * ((s.length + 1 + 9) / 10) ∧
      (∀ a : Int, 10 ∣ a → s.length + 1 ≤ a → 10 * ((s.length + 1 + 9) / 10) ≤ a) ∧
      s.alloc ≤ 2147483640 :=
  ⟨by decide, by decide, by decide,
    pystr_invariant junkA demoSuffixes (by decide) (by decide)⟩

theorem appendAll_single_none (junk : Nat → Nat) (s : pystr) (x : CString)
    (h : pystr_append junk s x = none) : appendAll junk s [x] = none := by
  simp only [appendAll, h]

/-- One call of `pystr_append` on a new `pystr` with a suffix of 2147483647
bytes: the `int` `newlen + 1` overflows, the buffer of 10 bytes is not grown
and the copy leaves it, so no state with `length` 2147483647 and a buffer
holding the suffix is reached. -/
theorem pystr_append_int_overflow :
    wellFormed (List.replicate 2147483647 255) = true ∧
    appendAll junkA (pystr_new junkA) [List.replicate 2147483647 255] = none :=
  ⟨wellFormed_replicate _,
    appendAll_single_none junkA _ _
      (append_overflow junkA (pystr_new junkA) rfl rfl (by simp [pystr_new, block])
        (List.replicate 2147483647 255) (List.length_replicate _ _))⟩

/-! ## The word-count tree -/

end SimpleMachine
